import Mathlib

/-!
Verification development for the graph-viewer backend graph store
(`backend/graph_service.py`, `backend/models.py`).

The Python store is shallowly embedded as a Lean `GraphState` record holding
the networkx node list, the networkx multigraph edge list, the `_screens`
dict, the `_transitions` dict, and the `_pair_index` dict.  Python dicts are
modelled as insertion-ordered association lists with unique keys
(lookup/replace-in-place/delete mirror `d[k]`, `d.get`, `del d[k]`).
External library calls (networkx shortest-path / simple-path enumeration,
uuid generation) are modelled by their documented semantics; each such
definition carries a comment saying what it stands in for.
-/

namespace GraphViewer

/-! ## Association lists: the model of Python dicts -/

/-- Lookup of the first entry with the given key (Python `d.get(k)`). -/
def alistLookup {α β : Type} [DecidableEq α] : List (α × β) → α → Option β
  | [], _ => none
  | (k', v) :: rest, k => if k' = k then some v else alistLookup rest k

/-- Python `d[k] = v`: replace in place when the key is present (dicts keep
the insertion position of an existing key), append otherwise. -/
def alistInsert {α β : Type} [DecidableEq α] : List (α × β) → α → β → List (α × β)
  | [], k, v => [(k, v)]
  | (k', v') :: rest, k, v =>
    if k' = k then (k, v) :: rest else (k', v') :: alistInsert rest k v

/-- Python `del d[k]` / `d.pop(k, None)`: drop the first entry with the key. -/
def alistErase {α β : Type} [DecidableEq α] : List (α × β) → α → List (α × β)
  | [], _ => []
  | (k', v') :: rest, k => if k' = k then rest else (k', v') :: alistErase rest k

def alistKeys {α β : Type} (l : List (α × β)) : List α := l.map (·.1)

/-! ## Stable sort

Python's `list.sort(key=...)` is a stable sort.  Any stable sorting algorithm
ordered by the same boolean `le` produces the same output list, so it is
modelled extensionally by stable insertion sort. -/

def insertLe {α : Type} (le : α → α → Bool) (a : α) : List α → List α
  | [] => [a]
  | b :: l => if le a b then a :: b :: l else b :: insertLe le a l

def stableSortBy {α : Type} (le : α → α → Bool) : List α → List α
  | [] => []
  | a :: l => insertLe le a (stableSortBy le l)

/-! ## Fresh transition ids

The source's `GraphService._new_transition_id` draws `uuid.uuid4().hex`
values in a retry loop until the id is not a key of `_transitions`.  The
store relies only on the loop's postcondition (the returned id is unused),
so the random draw is replaced by a deterministic generator with the same
postcondition: the concatenation of all taken ids plus `"u"` is strictly
longer than every taken id, hence differs from each of them. -/

def freshId (taken : List String) : String :=
  taken.foldr (fun s acc => s ++ acc) "u"

theorem one_le_length_freshId (taken : List String) : 1 ≤ (freshId taken).length := by
  induction taken with
  | nil => decide
  | cons t rest ih =>
    simp only [freshId, List.foldr_cons, String.length_append] at *
    omega

theorem length_lt_freshId {taken : List String} {s : String} (hs : s ∈ taken) :
    s.length < (freshId taken).length := by
  induction taken with
  | nil => cases hs
  | cons t rest ih =>
    have hlen : (freshId (t :: rest)).length = t.length + (freshId rest).length := by
      simp [freshId, String.length_append]
    rcases List.mem_cons.mp hs with h | h
    · subst h
      have := one_le_length_freshId rest
      omega
    · have := ih h
      omega

theorem freshId_not_mem (taken : List String) : freshId taken ∉ taken := by
  intro hmem
  exact absurd rfl (Nat.ne_of_lt (length_lt_freshId hmem) ∘ congrArg String.length)

/-! ## Entity model (`backend/models.py`) -/

/-- Embeds the dataclass `Screen` of `models.py`. -/
structure Screen where
  screen_id : String
  imagePath : String
deriving DecidableEq

/-- Embeds the dataclass `Transition` of `models.py`.  Fields typed `str` in
the dataclass but populated from `data.get(...)` in `from_dict` (and hence
possibly `None`) are modelled as `Option String`; `from_screen`/`to_screen`
are modelled as always-present strings (documents missing an endpoint field
are outside the modelled domain). -/
structure Transition where
  transition_id : Option String
  from_screen : String
  to_screen : String
  action_type : Option String
  description : Option String
  weight : Int
  conditionIds : Option (List String)
  actionParams : Option (List (String × String))
deriving DecidableEq

/-! ### Snapshot document shapes (`to_dict` / `from_dict`)

The dict arguments of `Screen.from_dict` and `Transition.from_dict` are
modelled as records with one `Option` field per key the Python code reads,
covering both the canonical and the accepted legacy shapes. -/

/-- Value stored under an `action.params`/`actionParams` key: either a string
dict or the legacy list of `"key=value"` strings. -/
inductive ParamsVal where
  | dictP : List (String × String) → ParamsVal
  | listP : List String → ParamsVal
deriving DecidableEq

/-- Nested `action` object of a serialized transition. -/
structure ActionDict where
  type : Option String
  description : Option String
  params : Option ParamsVal
deriving DecidableEq

/-- Serialized transition as read by `Transition.from_dict`.
`conditionsIds` stands for the nested `conditions.ids` list and
`metricsWeight` for the nested `metrics.weight` value. -/
structure TransDict where
  transition_id : Option String
  from_screen : String
  to_screen : String
  conditionIds : Option (List String)
  weight : Option Int
  action : Option ActionDict
  condition_id : Option String
  conditionsIds : Option (List String)
  metricsWeight : Option Int
  action_type : Option String
  description : Option String
  actionParams : Option ParamsVal
deriving DecidableEq

/-- Serialized screen object; `mediaImageUrl` stands for the nested
`media.imageUrl` value. -/
structure ScreenDict where
  screen_id : Option String
  imagePath : Option String
  mediaImageUrl : Option String
deriving DecidableEq

/-- A screens-list entry handed to `Screen.from_dict`: the code explicitly
rejects plain strings, so the entry is a string or an object. -/
inductive ScreenEntry where
  | strE : String → ScreenEntry
  | objE : ScreenDict → ScreenEntry
deriving DecidableEq

/-- Snapshot document (`{"screens": [...], "transitions": [...]}`). -/
structure GraphDoc where
  screens : List ScreenEntry
  transitions : List TransDict
deriving DecidableEq

/-- Decidable equality for `Except` results, used to evaluate the embedded
operations on concrete stores. -/
instance {e a : Type} [DecidableEq e] [DecidableEq a] : DecidableEq (Except e a) :=
  fun x y =>
    match x, y with
    | .ok u, .ok v =>
      if h : u = v then isTrue (by rw [h])
      else isFalse (fun hc => h (by cases hc; rfl))
    | .error u, .error v =>
      if h : u = v then isTrue (by rw [h])
      else isFalse (fun hc => h (by cases hc; rfl))
    | .ok _, .error _ => isFalse (fun hc => by cases hc)
    | .error _, .ok _ => isFalse (fun hc => by cases hc)

/-- Python truthiness chain `a or b` on optional strings: `None` and `""` are
falsy. -/
def pyOrS (a b : Option String) : Option String :=
  match a with
  | some s => if s = "" then b else some s
  | none => b

/-- Python truthiness chain `a or b or []` on optional lists: `None` and `[]`
are falsy. -/
def pyOrL (a b : Option (List String)) : List String :=
  match a with
  | some (x :: xs) => x :: xs
  | _ =>
    match b with
    | some (y :: ys) => y :: ys
    | _ => []

/-- Python `item.split("=", 1)` when `"="` occurs in the item: the characters
before the first `'='` and everything after it. -/
def splitEqOnce : List Char → Option (List Char × List Char)
  | [] => none
  | c :: rest =>
    if c = '=' then some ([], rest)
    else (splitEqOnce rest).map (fun p => (c :: p.1, p.2))

/-- Embeds the legacy-list branch of `Transition.from_dict`: items without an
`"="` are skipped, keys/values are stripped, empty keys are skipped, and
assignment into the params dict replaces in place.  Non-string list items
(skipped by the `isinstance` check) are outside the modelled domain. -/
def parseParamItems (items : List String) : List (String × String) :=
  items.foldl
    (fun acc item =>
      match splitEqOnce item.data with
      | none => acc
      | some (k, v) =>
        let key := (String.mk k).trim
        let value := (String.mk v).trim
        if key = "" then acc else alistInsert acc key value)
    []

/-- Embeds `Transition.to_dict` of `models.py`. -/
def Transition.to_dict (t : Transition) : TransDict :=
  { transition_id := t.transition_id
    from_screen := t.from_screen
    to_screen := t.to_screen
    conditionIds := some (t.conditionIds.getD [])
    weight := some t.weight
    action := some
      { type := t.action_type
        description := t.description
        params := some (.dictP (t.actionParams.getD [])) }
    condition_id := none
    conditionsIds := none
    metricsWeight := none
    action_type := none
    description := none
    actionParams := none }

/-- Embeds `Transition.from_dict` of `models.py`.  `str(key): str(value)` on
an already-string dict is the identity, so the dict branch keeps the list. -/
def Transition.from_dict (data : TransDict) : Transition :=
  let action := data.action.getD { type := none, description := none, params := none }
  let ids0 := pyOrL data.conditionsIds data.conditionIds
  let condition_ids :=
    match data.condition_id with
    | some c => if c ≠ "" ∧ c ∉ ids0 then ids0 ++ [c] else ids0
    | none => ids0
  let raw_params :=
    match action.params with
    | some p => some p
    | none => data.actionParams
  let action_params :=
    match raw_params with
    | some (.dictP l) => l
    | some (.listP items) => parseParamItems items
    | none => []
  { transition_id := data.transition_id
    from_screen := data.from_screen
    to_screen := data.to_screen
    action_type := pyOrS action.type data.action_type
    description := pyOrS action.description data.description
    weight :=
      match data.metricsWeight with
      | some w => w
      | none => data.weight.getD 1
    conditionIds := some condition_ids
    actionParams := some action_params }

/-- Embeds `Screen.to_dict` of `models.py`. -/
def Screen.to_dict (s : Screen) : ScreenEntry :=
  .objE { screen_id := some s.screen_id, imagePath := some s.imagePath, mediaImageUrl := none }

/-- Embeds `Screen.from_dict` of `models.py` (errors are `ValueError`s). -/
def Screen.from_dict : ScreenEntry → Except String Screen
  | .strE _ => .error "Screen entry must be an object with screen_id and imagePath"
  | .objE d =>
    let image := pyOrS d.imagePath d.mediaImageUrl
    match d.screen_id with
    | none => .error "Screen entry is missing screen_id"
    | some sid =>
      if sid = "" then .error "Screen entry is missing screen_id"
      else
        match image with
        | none => .error "Screen is missing imagePath"
        | some ip =>
          if ip = "" then .error "Screen is missing imagePath"
          else .ok { screen_id := sid, imagePath := ip }

/-- Slug character class of `models._to_slug`: kept characters after
lowercasing are `a`-`z`, `0`-`9` and `_`. -/
def slugChar (c : Char) : Bool :=
  ('a' ≤ c && c ≤ 'z') || ('0' ≤ c && c ≤ '9') || c = '_'

/-- Embeds the regex substitution of `_to_slug`: every maximal run of
non-slug characters becomes a single underscore (the flag records being
inside such a run). -/
def slugCollapse : List Char → Bool → List Char
  | [], _ => []
  | c :: rest, inRun =>
    if slugChar c then c :: slugCollapse rest false
    else if inRun then slugCollapse rest true
    else '_' :: slugCollapse rest true

/-- Python `str.strip("_")` on a character list. -/
def stripUnderscores (l : List Char) : List Char :=
  ((l.dropWhile (· = '_')).reverse.dropWhile (· = '_')).reverse

/-- Embeds `models._to_slug`. -/
def to_slug (value : String) : String :=
  let cs := stripUnderscores (slugCollapse value.toLower.data false)
  if cs.isEmpty then "screen" else String.mk cs

/-- Embeds `models.build_default_screen`. -/
def build_default_screen (screen_id : String) : Screen :=
  { screen_id := screen_id, imagePath := "/mock-screens/" ++ to_slug screen_id ++ ".svg" }

/-! ## The graph store (`backend/graph_service.py`)

The networkx `MultiDiGraph` is modelled by the `nodes` list (insertion
order) and the `edges` list: one entry per stored edge carrying the
endpoints, the edge key and the `weight` attribute set by `add_edge`. -/

/-- One networkx multigraph edge as stored by `GraphService` (`add_edge`
with `key=transition_id` and a `weight` attribute). -/
structure GEdge where
  src : String
  tgt : String
  key : String
  weight : Int
deriving DecidableEq

/-- The whole service state: the networkx graph plus the `_screens`,
`_transitions` and `_pair_index` dicts. -/
structure GraphState where
  nodes : List String
  edges : List GEdge
  screens : List (String × Screen)
  transitions : List (String × Transition)
  pairIndex : List ((String × String) × List String)
deriving DecidableEq

/-- Fresh state as built by `GraphService.__init__` (also the result of
`clear_graph` and of the clearing phase of `import_graph`). -/
def initState : GraphState :=
  { nodes := [], edges := [], screens := [], transitions := [], pairIndex := [] }

/-- Embeds `GraphService._new_transition_id` (see `freshId`). -/
def new_transition_id (s : GraphState) : String :=
  freshId (alistKeys s.transitions)

/-- Guarded `remove_edge`: `if self.graph.has_edge(f, t, key=k):
self.graph.remove_edge(f, t, key=k)` drops the edge with that key if it is
stored, otherwise does nothing. -/
def removeEdge (edges : List GEdge) (f t k : String) : List GEdge :=
  edges.eraseP (fun e => e.src == f && e.tgt == t && e.key == k)

/-- Embeds `GraphService._remove_pair_reference`. -/
def remove_pair_reference (idx : List ((String × String) × List String))
    (from_screen to_screen transition_id : String) :
    List ((String × String) × List String) :=
  let key := (from_screen, to_screen)
  let ids := (alistLookup idx key).getD []
  let ids' := ids.erase transition_id
  if ids' = [] then alistErase idx key else alistInsert idx key ids'

/-- Embeds `GraphService._add_pair_reference`
(`setdefault(key, []).append(transition_id)`). -/
def add_pair_reference (idx : List ((String × String) × List String))
    (from_screen to_screen transition_id : String) :
    List ((String × String) × List String) :=
  let key := (from_screen, to_screen)
  alistInsert idx key ((alistLookup idx key).getD [] ++ [transition_id])

/-- Embeds `GraphService.add_screen` applied to a `Screen` object (the
overload taken by `import_graph`); `networkx.add_node` on an existing node
is a no-op, new nodes are appended. -/
def add_screen (s : GraphState) (screen : Screen) : GraphState :=
  { s with
    nodes := if screen.screen_id ∈ s.nodes then s.nodes else s.nodes ++ [screen.screen_id]
    screens := alistInsert s.screens screen.screen_id screen }

/-- Embeds `GraphService.add_screen` applied to a plain screen id string. -/
def add_screen_id (s : GraphState) (screen_id : String) : GraphState :=
  add_screen s (build_default_screen screen_id)

/-- Embeds `GraphService.get_screen`. -/
def get_screen (s : GraphState) (screen_id : String) : Option Screen :=
  alistLookup s.screens screen_id

/-- Embeds `GraphService.get_all_screens`. -/
def get_all_screens (s : GraphState) : List Screen :=
  s.nodes.filterMap (fun n => alistLookup s.screens n)

/-- One iteration of the transition-removal loop inside
`GraphService.delete_screen`: guarded edge removal, pair-index cleanup and
deletion from the primary map (the `continue` on a missing id is the
`none` branch). -/
def removeTransitionRecord (s : GraphState) (tid : String) : GraphState :=
  match alistLookup s.transitions tid with
  | none => s
  | some tr =>
    { s with
      edges := removeEdge s.edges tr.from_screen tr.to_screen tid
      pairIndex := remove_pair_reference s.pairIndex tr.from_screen tr.to_screen tid
      transitions := alistErase s.transitions tid }

/-- Embeds `GraphService.delete_screen`; `graph.remove_node` drops the node
together with any incident edges. -/
def delete_screen (s : GraphState) (screen_id : String) : GraphState × Bool :=
  if screen_id ∉ s.nodes then (s, false)
  else
    let toRemove := (s.transitions.filter
      (fun kv => kv.2.from_screen == screen_id || kv.2.to_screen == screen_id)).map (·.1)
    let s' := toRemove.foldl removeTransitionRecord s
    ({ s' with
        nodes := s'.nodes.erase screen_id
        edges := s'.edges.filter (fun e => !(e.src == screen_id || e.tgt == screen_id))
        screens := alistErase s'.screens screen_id }, true)

/-- Endpoint remapping used by `rename_screen`'s transition rebuild. -/
def remapForRename (old_screen_id new_screen_id tid : String) (tr : Transition) : Transition :=
  { transition_id := some tid
    from_screen := if tr.from_screen = old_screen_id then new_screen_id else tr.from_screen
    to_screen := if tr.to_screen = old_screen_id then new_screen_id else tr.to_screen
    action_type := tr.action_type
    description := tr.description
    weight := tr.weight
    conditionIds := some (tr.conditionIds.getD [])
    actionParams := some (tr.actionParams.getD []) }

/-- Embeds `GraphService.rename_screen`.  `networkx.relabel_nodes` with
`copy=False` moves the old node's entry to the end of the node list and
rewrites the incident edges in place (edge adjacency order after a relabel
is approximated by keeping list positions; no theorem below depends on
enumeration order after a rename). -/
def rename_screen (s : GraphState) (old_screen_id new_screen_id : String) :
    GraphState × Bool :=
  if old_screen_id = new_screen_id then (s, true)
  else if old_screen_id ∉ s.nodes ∨ new_screen_id ∈ s.nodes then (s, false)
  else
    let renamed :=
      match alistLookup s.screens old_screen_id with
      | none => build_default_screen new_screen_id
      | some old_screen => { screen_id := new_screen_id, imagePath := old_screen.imagePath }
    let newTransitions := s.transitions.map
      (fun kv => (kv.1, remapForRename old_screen_id new_screen_id kv.1 kv.2))
    let newIndex := newTransitions.foldl
      (fun acc kv => add_pair_reference acc kv.2.from_screen kv.2.to_screen kv.1) []
    ({ nodes := s.nodes.erase old_screen_id ++ [new_screen_id]
       edges := s.edges.map (fun e =>
         { e with
            src := if e.src = old_screen_id then new_screen_id else e.src
            tgt := if e.tgt = old_screen_id then new_screen_id else e.tgt })
       screens := alistInsert (alistErase s.screens old_screen_id) new_screen_id renamed
       transitions := newTransitions
       pairIndex := newIndex }, true)

/-- Embeds `GraphService.add_transition`; a raised `ValueError` is the
`error` branch.  The `or` in `transition.transition_id or
self._new_transition_id()` treats the empty string as falsy. -/
def add_transition (s : GraphState) (transition : Transition) :
    GraphState × Except String Transition :=
  if transition.from_screen ∉ s.nodes then
    (s, .error ("Source screen '" ++ transition.from_screen ++ "' does not exist"))
  else if transition.to_screen ∉ s.nodes then
    (s, .error ("Target screen '" ++ transition.to_screen ++ "' does not exist"))
  else
    let tid0 :=
      match transition.transition_id with
      | some i => if i = "" then new_transition_id s else i
      | none => new_transition_id s
    let tid := if (alistLookup s.transitions tid0).isSome then new_transition_id s else tid0
    let stored : Transition :=
      { transition_id := some tid
        from_screen := transition.from_screen
        to_screen := transition.to_screen
        action_type := transition.action_type
        description := transition.description
        weight := transition.weight
        conditionIds := some (transition.conditionIds.getD [])
        actionParams := some (transition.actionParams.getD []) }
    ({ s with
        edges := s.edges ++
          [{ src := stored.from_screen, tgt := stored.to_screen, key := tid,
             weight := stored.weight }]
        transitions := alistInsert s.transitions tid stored
        pairIndex := add_pair_reference s.pairIndex stored.from_screen stored.to_screen tid },
     .ok stored)

/-- The id-omitted branch of `get_transition`: first id recorded for the
ordered pair, then a plain `.get` in the primary map. -/
def firstForPair (s : GraphState) (from_screen to_screen : String) : Option Transition :=
  match (alistLookup s.pairIndex (from_screen, to_screen)).getD [] with
  | [] => none
  | id0 :: _ => alistLookup s.transitions id0

/-- Embeds `GraphService.get_transition`; `if transition_id:` treats the
empty string like an omitted id. -/
def get_transition (s : GraphState) (from_screen to_screen : String)
    (transition_id : Option String) : Option Transition :=
  match transition_id with
  | some i =>
    if i = "" then firstForPair s from_screen to_screen
    else
      match alistLookup s.transitions i with
      | none => none
      | some tr =>
        if tr.from_screen ≠ from_screen ∨ tr.to_screen ≠ to_screen then none else some tr
  | none => firstForPair s from_screen to_screen

/-- Embeds `GraphService.get_transitions_between`. -/
def get_transitions_between (s : GraphState) (from_screen to_screen : String) :
    List Transition :=
  ((alistLookup s.pairIndex (from_screen, to_screen)).getD []).filterMap
    (fun tid => alistLookup s.transitions tid)

/-- Sort key of `get_all_transitions`:
`(t.from_screen, t.to_screen, t.transition_id or "")`. -/
def transSortKey (t : Transition) : String × String × String :=
  (t.from_screen, t.to_screen, t.transition_id.getD "")

/-- Python tuple comparison of two `(String, String, String)` keys. -/
def tripleLe (a b : String × String × String) : Bool :=
  if a.1 = b.1 then
    if a.2.1 = b.2.1 then decide (a.2.2 ≤ b.2.2) else decide (a.2.1 < b.2.1)
  else decide (a.1 < b.1)

/-- Embeds `GraphService.get_all_transitions`. -/
def get_all_transitions (s : GraphState) : List Transition :=
  stableSortBy (fun t₁ t₂ => tripleLe (transSortKey t₁) (transSortKey t₂))
    (s.transitions.map (·.2))

/-- Embeds `GraphService.update_transition`: `.ok none` is the returned
`None`, `.error` a raised `ValueError`. -/
def update_transition (s : GraphState) (transition : Transition) :
    GraphState × Except String (Option Transition) :=
  let resolved : Option Transition × Option String :=
    match transition.transition_id with
    | some i =>
      if i = "" then
        let e := get_transition s transition.from_screen transition.to_screen none
        (e, e.bind (·.transition_id))
      else (alistLookup s.transitions i, some i)
    | none =>
      let e := get_transition s transition.from_screen transition.to_screen none
      (e, e.bind (·.transition_id))
  match resolved with
  | (none, _) => (s, .ok none)
  | (some _, none) => (s, .ok none)
  | (some existing, some tid) =>
    if tid = "" then (s, .ok none)
    else if transition.from_screen ∉ s.nodes then
      (s, .error ("Source screen '" ++ transition.from_screen ++ "' does not exist"))
    else if transition.to_screen ∉ s.nodes then
      (s, .error ("Target screen '" ++ transition.to_screen ++ "' does not exist"))
    else
      let updated : Transition :=
        { transition_id := some tid
          from_screen := transition.from_screen
          to_screen := transition.to_screen
          action_type := transition.action_type
          description := transition.description
          weight := transition.weight
          conditionIds := some (transition.conditionIds.getD [])
          actionParams := some (transition.actionParams.getD []) }
      ({ s with
          edges := removeEdge s.edges existing.from_screen existing.to_screen tid ++
            [{ src := updated.from_screen, tgt := updated.to_screen, key := tid,
               weight := updated.weight }]
          transitions := alistInsert s.transitions tid updated
          pairIndex := add_pair_reference
            (remove_pair_reference s.pairIndex existing.from_screen existing.to_screen tid)
            updated.from_screen updated.to_screen tid }, .ok (some updated))

/-- Embeds `GraphService.delete_transition`. -/
def delete_transition (s : GraphState) (from_screen to_screen : String)
    (transition_id : Option String) : GraphState × Bool :=
  match get_transition s from_screen to_screen transition_id with
  | none => (s, false)
  | some target =>
    match target.transition_id with
    | none => (s, false)
    | some tid =>
      if tid = "" then (s, false)
      else
        ({ s with
            edges := removeEdge s.edges target.from_screen target.to_screen tid
            pairIndex := remove_pair_reference s.pairIndex target.from_screen
              target.to_screen tid
            transitions := alistErase s.transitions tid }, true)

/-- Embeds `GraphService.export_graph`. -/
def export_graph (s : GraphState) : GraphDoc :=
  { screens := (get_all_screens s).map Screen.to_dict
    transitions := (get_all_transitions s).map Transition.to_dict }

/-- Screen-fold phase of `import_graph`: on the first `ValueError` the
exception propagates with the store as mutated so far. -/
def importScreens : GraphState → List ScreenEntry → GraphState × Option String
  | s, [] => (s, none)
  | s, entry :: rest =>
    match Screen.from_dict entry with
    | .error e => (s, some e)
    | .ok sc => importScreens (add_screen s sc) rest

/-- Transition-fold phase of `import_graph`. -/
def importTransitions : GraphState → List TransDict → GraphState × Option String
  | s, [] => (s, none)
  | s, td :: rest =>
    match add_transition s (Transition.from_dict td) with
    | (s', .error e) => (s', some e)
    | (s', .ok _) => importTransitions s' rest

/-- Embeds `GraphService.import_graph`: clear everything, repopulate; a
raised exception is returned as `some message` together with the store
state at the moment of the raise. -/
def import_graph (s : GraphState) (data : GraphDoc) : GraphState × Option String :=
  match importScreens initState data.screens with
  | (s₁, some e) => (s₁, some e)
  | (s₁, none) => importTransitions s₁ data.transitions

/-- Embeds `GraphService.clear_graph`. -/
def clear_graph (s : GraphState) : GraphState :=
  initState

/-! ## Path finding -/

/-- First-occurrence dedup, the iteration order of a dict keyed by targets. -/
def fdedup : List String → List String
  | [] => []
  | x :: xs => x :: (fdedup xs).filter (fun y => y != x)

/-- Models `graph.out_edges(u, keys=True, data=True)`: networkx iterates the
adjacency dict of `u` (targets in insertion order, then the parallel edges
per target).  Target order is taken as the order of first remaining
occurrence among `u`'s stored edges, which coincides with adjacency order
for every store appearing in the theorems below. -/
def outEdges (s : GraphState) (u : String) : List GEdge :=
  let es := s.edges.filter (fun e => e.src == u)
  (fdedup (es.map (·.tgt))).flatMap (fun v => es.filter (fun e => e.tgt == v))

/-- Edge-chain check: the edges are stored in `s`, link up, start at `f` and
end at `t`. -/
def validChain (s : GraphState) : String → String → List GEdge → Bool
  | f, t, [] => f == t
  | f, t, e :: rest => s.edges.contains e && e.src == f && validChain s e.tgt t rest

/-- Node sequence of an edge path starting at `f`. -/
def pathNodes (f : String) (p : List GEdge) : List String := f :: p.map (·.tgt)

/-- A simple edge-path from `f` to `t` in the stored multigraph: linked
stored edges visiting no node twice. -/
def isSimpleEdgePath (s : GraphState) (f t : String) (p : List GEdge) : Bool :=
  validChain s f t p && decide (pathNodes f p).Nodup

/-- Exhaustive enumerator of simple edge-paths (specification side): extend
along out-edges avoiding visited nodes, collecting the empty path upon
reaching `t`.  `fuel` bounds the recursion depth; any value of at least
`s.nodes.length + 1` is exact. -/
def simplePathsAux (s : GraphState) (t : String) :
    Nat → String → List String → List (List GEdge)
  | 0, _, _ => []
  | fuel + 1, cur, visited =>
    if cur = t then [[]]
    else
      (outEdges s cur).flatMap (fun e =>
        if e.tgt ∈ visited then []
        else (simplePathsAux s t fuel e.tgt (e.tgt :: visited)).map (e :: ·))

/-- All simple edge-paths from `f` to `t` over the stored edges. -/
def simplePathsFull (s : GraphState) (f t : String) : List (List GEdge) :=
  simplePathsAux s t (s.nodes.length + 1) f [f]

/-- Summed raw edge weights of a path. -/
def pathWeight (p : List GEdge) : Int := (p.map (·.weight)).sum

/-- Weight as read by the exact-weight DFS:
`int(edge_data.get("weight", 1) or 1)` turns a stored `0` into `1`. -/
def readWeight (e : GEdge) : Int := if e.weight = 0 then 1 else e.weight

/-- Summed weights of a path as the exact-weight DFS accumulates them. -/
def pathReadWeight (p : List GEdge) : Int := (p.map readWeight).sum

/-- Minimum of a list of integers (`none` on the empty list). -/
def listMin : List Int → Option Int
  | [] => none
  | x :: xs =>
    match listMin xs with
    | none => some x
    | some m => some (min x m)

/-- Models `networkx.shortest_path_length(graph, source, target,
weight="weight")` (Dijkstra) by its semantics: the minimum total edge
weight over simple edge-paths, `none` when no path exists
(`NetworkXNoPath`).  For the nonnegative weights this development assumes,
the minimum over walks equals the minimum over simple paths. -/
def shortest_path_length_w (s : GraphState) (f t : String) : Option Int :=
  listMin ((simplePathsFull s f t).map pathWeight)

/-- Models the unweighted `networkx.shortest_path_length` (BFS hop count)
used for the default search depth of `find_simple_path`. -/
def shortest_path_length_hops (s : GraphState) (f t : String) : Option Int :=
  listMin ((simplePathsFull s f t).map (fun p => (p.length : Int)))

/-- Signature of an edge path:
`tuple(str(step[2]) for step in edge_path)`. -/
def pathSig (p : List GEdge) : List String := p.map (·.key)

/-- Embeds the recursive `dfs` of
`GraphService._find_min_weight_edge_paths`.  The closure-mutated
`results`/`seen_signatures` pair is threaded as the `results` accumulator
(the seen set holds exactly the signatures of `results` at all times);
`fuel` bounds the recursion depth, which the Python recursion bounds
implicitly through the strictly growing visited set. -/
def dfsMin (s : GraphState) (to_screen : String) (targetW : Int) (maxPaths : Nat) :
    Nat → String → List String → List GEdge → Int → List (List GEdge) →
    List (List GEdge)
  | 0, _, _, _, _, results => results
  | fuel + 1, current, visited, edge_path, total, results =>
    if maxPaths ≤ results.length then results
    else if targetW < total then results
    else if current = to_screen then
      if total = targetW then
        if (results.map pathSig).contains (pathSig edge_path) then results
        else results ++ [edge_path]
      else results
    else
      (outEdges s current).foldl
        (fun res e =>
          if e.tgt ∈ visited then res
          else if targetW < total + readWeight e then res
          else
            dfsMin s to_screen targetW maxPaths fuel e.tgt (e.tgt :: visited)
              (edge_path ++ [e]) (total + readWeight e) res)
        results

/-- Embeds `GraphService._find_min_weight_edge_paths`. -/
def find_min_weight_edge_paths (s : GraphState) (from_screen to_screen : String)
    (target_weight : Int) (max_paths : Nat) : List (List GEdge) :=
  dfsMin s to_screen target_weight max_paths (s.nodes.length + 1) from_screen
    [from_screen] [] 0 []

/-- Rendered path result (`{"path": ..., "transitions": ..., "total_weight": ...}`). -/
structure PathResult where
  path : List String
  transitions : List TransDict
  total_weight : Int
deriving DecidableEq

/-- Embeds `GraphService._build_path_result_from_edge_path` (the
key-carrying 3-tuple branch, the one taken for every path produced by the
`keys=True` searches). -/
def build_path_result_from_edge_path (s : GraphState) (edge_path : List GEdge) :
    PathResult :=
  match edge_path with
  | [] => { path := [], transitions := [], total_weight := 0 }
  | e0 :: _ =>
    let res := edge_path.foldl
      (fun (acc : List String × List TransDict × Int) e =>
        match get_transition s e.src e.tgt (some e.key) with
        | some tr => (acc.1 ++ [e.tgt], acc.2.1 ++ [Transition.to_dict tr], acc.2.2 + tr.weight)
        | none => (acc.1 ++ [e.tgt], acc.2.1, acc.2.2))
      ([e0.src], [], 0)
    { path := res.1, transitions := res.2.1, total_weight := res.2.2 }

/-- The per-edge step of the loop inside
`_build_path_result_from_edge_path` (named for the fold lemmas; it is
definitionally the anonymous step above). -/
def buildStep (s : GraphState) (acc : List String × List TransDict × Int)
    (e : GEdge) : List String × List TransDict × Int :=
  match get_transition s e.src e.tgt (some e.key) with
  | some tr => (acc.1 ++ [e.tgt], acc.2.1 ++ [Transition.to_dict tr], acc.2.2 + tr.weight)
  | none => (acc.1 ++ [e.tgt], acc.2.1, acc.2.2)

/-- Transition-id tuple used in the sort key of `find_shortest_path`
(`transition.get("transition_id") or ""`). -/
def resultIds (r : PathResult) : List String :=
  r.transitions.map (fun d => d.transition_id.getD "")

/-- Python string `<` (lexicographic by code point), phrased over the
character lists so that it evaluates by kernel reduction. -/
def strLt : List Char → List Char → Bool
  | [], [] => false
  | [], _ :: _ => true
  | _ :: _, [] => false
  | c :: cs, d :: ds => if c = d then strLt cs ds else decide (c < d)

/-- Lexicographic comparison of string tuples (Python tuple comparison). -/
def listLeStr : List String → List String → Bool
  | [], _ => true
  | _ :: _, [] => false
  | a :: restA, b :: restB =>
    if a = b then listLeStr restA restB else strLt a.data b.data

/-- Sort order of `find_shortest_path`:
`(len(path), tuple(transition_id or ""))` ascending. -/
def shortKeyLe (r₁ r₂ : PathResult) : Bool :=
  if r₁.path.length = r₂.path.length then listLeStr (resultIds r₁) (resultIds r₂)
  else decide (r₁.path.length < r₂.path.length)

/-- Embeds `GraphService.find_shortest_path`, returning the `paths` list of
the result dict (`none` for the `None` returns). -/
def find_shortest_path (s : GraphState) (from_screen to_screen : String) :
    Option (List PathResult) :=
  if from_screen ∉ s.nodes ∨ to_screen ∉ s.nodes then none
  else
    match shortest_path_length_w s from_screen to_screen with
    | none => none
    | some w =>
      let eps := find_min_weight_edge_paths s from_screen to_screen w 1000
      if eps = [] then none
      else some (stableSortBy shortKeyLe (eps.map (build_path_result_from_edge_path s)))

/-- Models `networkx.all_simple_edge_paths(graph, source, target, cutoff)`
by its semantics: depth-first pre-order enumeration of the simple
edge-paths with at most `cutoff` edges, exploring out-edges in adjacency
order.  The generator also explores past the target, but such branches can
never yield (re-entering the target is blocked by the current path), so
they are elided. -/
def nxSimplePathsAux (s : GraphState) (t : String) :
    Nat → Nat → String → List String → List (List GEdge)
  | 0, _, _, _ => []
  | fuel + 1, cutoff, cur, visited =>
    if cutoff = 0 then []
    else
      (outEdges s cur).flatMap (fun e =>
        if e.tgt ∈ visited then []
        else if e.tgt = t then
          [[e]]
        else
          (nxSimplePathsAux s t fuel (cutoff - 1) e.tgt (e.tgt :: visited)).map (e :: ·))

/-- Top-level model of `networkx.all_simple_edge_paths`; when source equals
target the generator yields the empty path. -/
def nx_all_simple_edge_paths (s : GraphState) (f t : String) (cutoff : Nat) :
    List (List GEdge) :=
  (if f = t then [[]] else []) ++ nxSimplePathsAux s t (s.nodes.length + 1) cutoff f [f]

/-- Dedup signature used by `find_simple_path`:
`transition_id or "from->to"` over the rendered transition dicts. -/
def simpleSig (r : PathResult) : List String :=
  r.transitions.map (fun d =>
    match d.transition_id with
    | some i => if i = "" then d.from_screen ++ "->" ++ d.to_screen else i
    | none => d.from_screen ++ "->" ++ d.to_screen)

/-- Dedup-and-trim loop of `find_simple_path`: skip empty renderings, skip
already-seen signatures, stop once `max_paths` results are collected. -/
def dedupCollect (s : GraphState) (max_paths : Nat) :
    List (List GEdge) → List (List String) → List PathResult → List PathResult
  | [], _, acc => acc
  | ep :: rest, seen, acc =>
    let r := build_path_result_from_edge_path s ep
    if r.path = [] then dedupCollect s max_paths rest seen acc
    else
      let sg := simpleSig r
      if seen.contains sg then dedupCollect s max_paths rest seen acc
      else if max_paths ≤ acc.length + 1 then acc ++ [r]
      else dedupCollect s max_paths rest (sg :: seen) (acc ++ [r])

/-- Sort order of `find_simple_path`: `(len(path), total_weight)` ascending. -/
def simpleKeyLe (r₁ r₂ : PathResult) : Bool :=
  if r₁.path.length = r₂.path.length then decide (r₁.total_weight ≤ r₂.total_weight)
  else decide (r₁.path.length < r₂.path.length)

/-- Embeds `GraphService.find_simple_path`, returning the `paths` list of
the result dict (`none` for the `None` returns). -/
def find_simple_path (s : GraphState) (from_screen to_screen : String)
    (max_depth : Option Int) (max_paths : Int) : Option (List PathResult) :=
  if from_screen ∉ s.nodes ∨ to_screen ∉ s.nodes then none
  else
    let mp : Int := if max_paths < 1 then 1 else max_paths
    match (match max_depth with
           | some d => some d
           | none =>
             match shortest_path_length_hops s from_screen to_screen with
             | none => none
             | some hops => some (max (hops + 2) hops)) with
    | none => none
    | some md0 =>
      let md := max 1 (min md0 (max ((s.nodes.length : Int) - 1) 1))
      let edge_paths :=
        (nx_all_simple_edge_paths s from_screen to_screen md.toNat).take (mp * 4).toNat
      let path_results := dedupCollect s mp.toNat edge_paths [] []
      if path_results = [] then
        match find_shortest_path s from_screen to_screen with
        | none => none
        | some rs => if rs = [] then none else some (stableSortBy simpleKeyLe rs)
      else some (stableSortBy simpleKeyLe path_results)

/-- The `max_depth` resolution step at the top of
`GraphService.find_simple_path` (caller value, else shortest hop count
plus 2, else no path): named so theorems can quantify over the resolved
depth without restating the nested match. -/
def resolveDepth (s : GraphState) (f t : String) : Option Int → Option Int
  | some d => some d
  | none =>
    match shortest_path_length_hops s f t with
    | none => none
    | some hops => some (max (hops + 2) hops)

/-! ## Store invariants -/

/-- Decidable core of the pair-index soundness direction: the id is stored
with exactly the endpoints of the pair it is recorded under. -/
def idMatches (s : GraphState) (f t tid : String) : Bool :=
  match alistLookup s.transitions tid with
  | some tr => tr.from_screen == f && tr.to_screen == t
  | none => false

/-- The pair index is exactly in sync with the store: no dangling ids and no
missing ids. -/
abbrev PairSync (s : GraphState) : Prop :=
  (∀ entry ∈ s.pairIndex, ∀ tid ∈ entry.2, idMatches s entry.1.1 entry.1.2 tid = true) ∧
  (∀ kv ∈ s.transitions,
    kv.1 ∈ (alistLookup s.pairIndex (kv.2.from_screen, kv.2.to_screen)).getD [])

/-- The primary map has unique keys (a dict in the source). -/
abbrev TransKeysNodup (s : GraphState) : Prop := (alistKeys s.transitions).Nodup

/-- The pair index has unique keys (a dict in the source). -/
abbrev PairKeysNodup (s : GraphState) : Prop := (s.pairIndex.map (·.1)).Nodup

/-- No pair-index list mentions an id twice. -/
abbrev PairListsNodup (s : GraphState) : Prop := ∀ entry ∈ s.pairIndex, entry.2.Nodup

/-- Emptied pair-index entries are deleted (`_remove_pair_reference`). -/
abbrev PairNoEmpty (s : GraphState) : Prop := ∀ entry ∈ s.pairIndex, entry.2 ≠ []

/-- Every stored transition's `transition_id` field equals its dict key. -/
abbrev IdsConsistent (s : GraphState) : Prop :=
  ∀ kv ∈ s.transitions, kv.2.transition_id = some kv.1

/-- Pointwise pair-index/store agreement: an id is recorded under an ordered
pair exactly when the store holds it with those endpoints. -/
abbrev SyncIff (s : GraphState) : Prop :=
  ∀ f t tid, tid ∈ (alistLookup s.pairIndex (f, t)).getD [] ↔ idMatches s f t tid = true

/-- Combined store invariant maintained by every mutator. -/
abbrev StoreInv (s : GraphState) : Prop :=
  PairSync s ∧ TransKeysNodup s ∧ PairKeysNodup s ∧ PairListsNodup s ∧ PairNoEmpty s ∧
    IdsConsistent s

/-- Decidable core of graph-edge/record synchronization: the edge's key is a
stored transition with the same endpoints and weight. -/
def edgeMatches (s : GraphState) (e : GEdge) : Bool :=
  match alistLookup s.transitions e.key with
  | some tr =>
    tr.from_screen == e.src && tr.to_screen == e.tgt && tr.weight == e.weight &&
      tr.transition_id == some e.key && !(e.key == "")
  | none => false

/-- The networkx edge set is in sync with the `_transitions` dict. -/
abbrev EdgeSync (s : GraphState) : Prop := ∀ e ∈ s.edges, edgeMatches s e = true

/-- Edge keys are unique (networkx multigraph keys per pair, globally unique
here because keys are transition ids). -/
abbrev EdgeKeysNodup (s : GraphState) : Prop := (s.edges.map (·.key)).Nodup

/-- Every edge endpoint is a node of the graph (networkx guarantees this). -/
abbrev EdgesClosed (s : GraphState) : Prop := ∀ e ∈ s.edges, e.src ∈ s.nodes ∧ e.tgt ∈ s.nodes

/-- All stored edge weights are at least 1, the spec's data-model constraint
on transition weights. -/
abbrev WeightsPos (s : GraphState) : Prop := ∀ e ∈ s.edges, 1 ≤ e.weight

/-- The node list has no duplicates (a networkx node dict). -/
abbrev NodesNodup (s : GraphState) : Prop := s.nodes.Nodup

/-- Screens-side well-formedness of a store populated through the public
mutators with data-model-valid values. -/
abbrev ScreensWF (s : GraphState) : Prop :=
  (alistKeys s.screens).Nodup ∧ s.nodes.Nodup ∧
  (∀ n ∈ s.nodes, (alistLookup s.screens n).isSome = true) ∧
  (∀ kv ∈ s.screens,
    kv.1 ∈ s.nodes ∧ kv.2.screen_id = kv.1 ∧ kv.1 ≠ "" ∧ kv.2.imagePath ≠ "")

/-- Transitions-side well-formedness of a store populated through the public
mutators with data-model-valid values (nonempty action type/description). -/
abbrev TransitionsWF (s : GraphState) : Prop :=
  (alistKeys s.transitions).Nodup ∧
  ∀ kv ∈ s.transitions,
    kv.2.transition_id = some kv.1 ∧ kv.1 ≠ "" ∧
    kv.2.from_screen ∈ s.nodes ∧ kv.2.to_screen ∈ s.nodes ∧
    kv.2.conditionIds.isSome = true ∧ kv.2.actionParams.isSome = true ∧
    kv.2.action_type ≠ some "" ∧ kv.2.description ≠ some "" 

/-! ## Mutator sequences (for the pair-index invariant claim) -/

/-- One public mutator call with its arguments. -/
inductive StoreOp where
  | addScreenOp (screen_id : String)
  | addTransitionOp (t : Transition)
  | updateTransitionOp (t : Transition)
  | deleteTransitionOp (from_screen to_screen : String) (tid : Option String)
  | deleteScreenOp (screen_id : String)
  | renameScreenOp (old_screen_id new_screen_id : String)
  | importGraphOp (d : GraphDoc)
  | clearGraphOp

/-- State reached after one mutator call (return values and raised errors
discarded; a raising call still leaves its state effects, which for every
mutator except `import_graph` are none). -/
def applyOp (s : GraphState) : StoreOp → GraphState
  | .addScreenOp i => add_screen_id s i
  | .addTransitionOp t => (add_transition s t).1
  | .updateTransitionOp t => (update_transition s t).1
  | .deleteTransitionOp f t tid => (delete_transition s f t tid).1
  | .deleteScreenOp i => (delete_screen s i).1
  | .renameScreenOp a b => (rename_screen s a b).1
  | .importGraphOp d => (import_graph s d).1
  | .clearGraphOp => clear_graph s

/-- State after a whole mutator sequence starting from the fresh store. -/
def applyOps (ops : List StoreOp) : GraphState := ops.foldl applyOp initState

/-! ## Concrete sample stores used in counterexamples and witnesses -/

/-- Sample transition record with the given id, endpoints and weight. -/
def sampleT (i f t : String) (w : Int) : Transition :=
  { transition_id := some i, from_screen := f, to_screen := t,
    action_type := some "click", description := some "step", weight := w,
    conditionIds := some [], actionParams := some [] }

/-- Store holding screens `A`, `B`, `C`. -/
def abcState : GraphState :=
  add_screen_id (add_screen_id (add_screen_id initState "A") "B") "C"

/-- Two parallel `A -> B` transitions, `t1` inserted before `t2`. -/
def parallelState : GraphState :=
  (add_transition (add_transition abcState (sampleT "t1" "A" "B" 1)).1
    (sampleT "t2" "A" "B" 1)).1

/-- Transitions `t1 : A -> B`, `t2 : B -> C`, `t3 : A -> C`, all weight 1:
two distinct simple routes from `A` to `C`. -/
def triState : GraphState :=
  (add_transition (add_transition (add_transition abcState (sampleT "t1" "A" "B" 1)).1
    (sampleT "t2" "B" "C" 1)).1 (sampleT "t3" "A" "C" 1)).1

/-- Parallel `A -> B` edges of weights 2 (`ta`) and 3 (`tb`) plus a single
weight-2 `B -> C` edge (`tc`): the claim C1 example graph. -/
def weightState : GraphState :=
  (add_transition (add_transition (add_transition abcState (sampleT "ta" "A" "B" 2)).1
    (sampleT "tb" "A" "B" 3)).1 (sampleT "tc" "B" "C" 2)).1

/-- The claim C1 example graph extended with a second minimal-weight
parallel edge `td : A -> B` of weight 2. -/
def weightTwoState : GraphState :=
  (add_transition weightState (sampleT "td" "A" "B" 2)).1

/-- Store built through the public mutators holding one `A -> B`
transition whose description is the empty string (the mutators and the
spec's data model allow it): the round-trip counterexample store. -/
def emptyDescState : GraphState :=
  (add_transition abcState
    { transition_id := some "t1", from_screen := "A", to_screen := "B",
      action_type := some "click", description := some "", weight := 1,
      conditionIds := some [], actionParams := some [] }).1

/-- Snapshot document whose first transition is valid and whose second
names the unregistered screen `C`: importing it fails midway. -/
def failDoc : GraphDoc :=
  { screens := [Screen.to_dict { screen_id := "A", imagePath := "/a.svg" },
                Screen.to_dict { screen_id := "B", imagePath := "/b.svg" }],
    transitions := [Transition.to_dict (sampleT "t1" "A" "B" 1),
                    Transition.to_dict (sampleT "t2" "A" "C" 1)] }

/-! # Theorems

First a toolkit of lemmas about the dict model, the stable sort, the
first-occurrence dedup and the list minimum; then the store lemmas; then
one theorem per claim (with witnesses and counterexamples). -/

section AlistToolkit

variable {α β : Type} [DecidableEq α]

theorem alistLookup_cons (k' : α) (v : β) (rest : List (α × β)) (k : α) :
    alistLookup ((k', v) :: rest) k = if k' = k then some v else alistLookup rest k := rfl

theorem alistInsert_cons (k' : α) (v' : β) (rest : List (α × β)) (k : α) (v : β) :
    alistInsert ((k', v') :: rest) k v =
      if k' = k then (k, v) :: rest else (k', v') :: alistInsert rest k v := rfl

theorem alistErase_cons (k' : α) (v' : β) (rest : List (α × β)) (k : α) :
    alistErase ((k', v') :: rest) k =
      if k' = k then rest else (k', v') :: alistErase rest k := rfl

theorem mem_keys_of_mem {l : List (α × β)} {kv : α × β} (h : kv ∈ l) :
    kv.1 ∈ alistKeys l :=
  List.mem_map.mpr ⟨kv, h, rfl⟩

theorem alistLookup_isSome_iff {l : List (α × β)} {k : α} :
    (alistLookup l k).isSome = true ↔ k ∈ alistKeys l := by
  induction l with
  | nil => simp [alistLookup, alistKeys]
  | cons kv rest ih =>
    obtain ⟨k', v⟩ := kv
    rw [alistKeys, List.map_cons, List.mem_cons, alistLookup_cons]
    by_cases h : k' = k
    · simp [h]
    · rw [if_neg h]
      rw [alistKeys] at ih
      rw [ih]
      constructor
      · intro hm; exact Or.inr hm
      · rintro (he | hm)
        · exact absurd he.symm h
        · exact hm

theorem alistLookup_eq_none_iff {l : List (α × β)} {k : α} :
    alistLookup l k = none ↔ k ∉ alistKeys l := by
  rw [← alistLookup_isSome_iff]
  cases alistLookup l k <;> simp

theorem alistLookup_eq_some_mem {l : List (α × β)} {k : α} {v : β}
    (h : alistLookup l k = some v) : (k, v) ∈ l := by
  induction l with
  | nil => simp [alistLookup] at h
  | cons kv rest ih =>
    obtain ⟨k', v'⟩ := kv
    by_cases hk : k' = k
    · subst hk
      simp [alistLookup_cons] at h
      simp [h]
    · simp [alistLookup_cons, hk] at h
      exact List.mem_cons_of_mem _ (ih h)

theorem alistLookup_of_mem_nodup {l : List (α × β)} {k : α} {v : β}
    (hnd : (alistKeys l).Nodup) (h : (k, v) ∈ l) : alistLookup l k = some v := by
  induction l with
  | nil => cases h
  | cons kv rest ih =>
    obtain ⟨k', v'⟩ := kv
    rw [alistKeys, List.map_cons, List.nodup_cons] at hnd
    rcases List.mem_cons.mp h with he | hm
    · injection he with hk hv
      subst hk; subst hv
      simp [alistLookup_cons]
    · have hk : ¬ k' = k := by
        intro he'
        apply hnd.1
        rw [he']
        exact List.mem_map.mpr ⟨(k, v), hm, rfl⟩
      rw [alistLookup_cons, if_neg hk]
      exact ih hnd.2 hm

theorem alistInsert_lookup_self (l : List (α × β)) (k : α) (v : β) :
    alistLookup (alistInsert l k v) k = some v := by
  induction l with
  | nil => simp [alistInsert, alistLookup]
  | cons kv rest ih =>
    obtain ⟨k', v'⟩ := kv
    by_cases h : k' = k
    · simp [alistInsert_cons, h, alistLookup_cons]
    · simp [alistInsert_cons, h, alistLookup_cons, ih]

theorem alistInsert_lookup_ne (l : List (α × β)) (k : α) (v : β) {k' : α} (h : k' ≠ k) :
    alistLookup (alistInsert l k v) k' = alistLookup l k' := by
  induction l with
  | nil =>
    have hne : ¬ k = k' := fun he => h he.symm
    simp [alistInsert, alistLookup_cons, hne, alistLookup]
  | cons kv rest ih =>
    obtain ⟨k'', v''⟩ := kv
    by_cases hk : k'' = k
    · have h1 : ¬ k = k' := fun he => h he.symm
      have h2 : ¬ k'' = k' := by rw [hk]; exact h1
      rw [alistInsert_cons, if_pos hk, alistLookup_cons, if_neg h1, alistLookup_cons,
        if_neg h2]
    · simp only [alistInsert_cons, if_neg hk, alistLookup_cons, ih]

theorem alistKeys_alistInsert_of_mem {l : List (α × β)} {k : α} (v : β)
    (h : k ∈ alistKeys l) : alistKeys (alistInsert l k v) = alistKeys l := by
  induction l with
  | nil => cases h
  | cons kv rest ih =>
    obtain ⟨k', v'⟩ := kv
    by_cases hk : k' = k
    · rw [alistInsert_cons, if_pos hk]
      show k :: alistKeys rest = k' :: alistKeys rest
      rw [hk]
    · rw [alistKeys, List.map_cons, List.mem_cons] at h
      rcases h with he | hm
      · exact absurd he.symm hk
      · rw [alistInsert_cons, if_neg hk]
        show k' :: alistKeys (alistInsert rest k v) = k' :: alistKeys rest
        rw [ih hm]

theorem alistKeys_alistInsert_of_not_mem {l : List (α × β)} {k : α} (v : β)
    (h : k ∉ alistKeys l) : alistKeys (alistInsert l k v) = alistKeys l ++ [k] := by
  induction l with
  | nil => simp [alistInsert, alistKeys]
  | cons kv rest ih =>
    obtain ⟨k', v'⟩ := kv
    rw [alistKeys, List.map_cons, List.mem_cons] at h
    push_neg at h
    have hk : ¬ k' = k := fun he => h.1 he.symm
    rw [alistInsert_cons, if_neg hk]
    show k' :: alistKeys (alistInsert rest k v) = alistKeys ((k', v') :: rest) ++ [k]
    rw [ih h.2]
    rfl

theorem alistKeys_alistInsert_nodup {l : List (α × β)} {k : α} (v : β)
    (h : (alistKeys l).Nodup) : (alistKeys (alistInsert l k v)).Nodup := by
  by_cases hm : k ∈ alistKeys l
  · rw [alistKeys_alistInsert_of_mem v hm]; exact h
  · rw [alistKeys_alistInsert_of_not_mem v hm]
    simp [List.nodup_append, h, hm]

theorem mem_alistInsert_self (l : List (α × β)) (k : α) (v : β) :
    (k, v) ∈ alistInsert l k v :=
  alistLookup_eq_some_mem (alistInsert_lookup_self l k v)

theorem mem_alistInsert_of_mem {l : List (α × β)} {kv : α × β} {k : α} (v : β)
    (h : kv.1 ≠ k) (hm : kv ∈ l) : kv ∈ alistInsert l k v := by
  induction l with
  | nil => cases hm
  | cons kv' rest ih =>
    obtain ⟨k', v'⟩ := kv'
    by_cases hk : k' = k
    · subst hk
      rcases List.mem_cons.mp hm with he | hmm
      · exact absurd (congrArg Prod.fst he) h
      · simp [alistInsert_cons, List.mem_cons]
        exact Or.inr hmm
    · rcases List.mem_cons.mp hm with he | hmm
      · simp [alistInsert_cons, hk, List.mem_cons]
        exact Or.inl he
      · simp [alistInsert_cons, hk, List.mem_cons]
        exact Or.inr (ih hmm)

theorem mem_alistInsert_weak {l : List (α × β)} {kv : α × β} {k : α} {v : β}
    (h : kv ∈ alistInsert l k v) : kv = (k, v) ∨ kv ∈ l := by
  induction l with
  | nil =>
    simp only [alistInsert, List.mem_singleton] at h
    exact Or.inl h
  | cons kv' rest ih =>
    obtain ⟨k', v'⟩ := kv'
    by_cases hk : k' = k
    · simp [alistInsert_cons, hk, List.mem_cons] at h
      rcases h with he | hm
      · exact Or.inl he
      · exact Or.inr (List.mem_cons_of_mem _ hm)
    · simp only [alistInsert_cons, if_neg hk, List.mem_cons] at h
      rcases h with he | hm
      · exact Or.inr (List.mem_cons.mpr (Or.inl he))
      · rcases ih hm with h' | h'
        · exact Or.inl h'
        · exact Or.inr (List.mem_cons_of_mem _ h')

theorem mem_alistInsert_elim {l : List (α × β)} {kv : α × β} {k : α} {v : β}
    (hnd : (alistKeys l).Nodup) (h : kv ∈ alistInsert l k v) :
    kv = (k, v) ∨ (kv ∈ l ∧ kv.1 ≠ k) := by
  induction l with
  | nil =>
    simp only [alistInsert, List.mem_singleton] at h
    exact Or.inl h
  | cons kv' rest ih =>
    obtain ⟨k', v'⟩ := kv'
    rw [alistKeys, List.map_cons, List.nodup_cons] at hnd
    by_cases hk : k' = k
    · subst hk
      simp [alistInsert_cons, List.mem_cons] at h
      rcases h with he | hm
      · exact Or.inl he
      · refine Or.inr ⟨List.mem_cons_of_mem _ hm, ?_⟩
        intro he'
        apply hnd.1
        rw [← he']
        exact List.mem_map.mpr ⟨kv, hm, rfl⟩
    · simp only [alistInsert_cons, if_neg hk, List.mem_cons] at h
      rcases h with he | hm
      · exact Or.inr ⟨List.mem_cons.mpr (Or.inl he), by simp [he, hk]⟩
      · rcases ih hnd.2 hm with h' | h'
        · exact Or.inl h'
        · exact Or.inr ⟨List.mem_cons_of_mem _ h'.1, h'.2⟩

theorem alistErase_sublist (l : List (α × β)) (k : α) :
    List.Sublist (alistErase l k) l := by
  induction l with
  | nil => simp [alistErase]
  | cons kv rest ih =>
    obtain ⟨k', v'⟩ := kv
    by_cases h : k' = k
    · simp [alistErase_cons, h]
    · simp only [alistErase_cons, if_neg h]
      exact ih.cons₂ _

theorem mem_of_mem_alistErase {l : List (α × β)} {kv : α × β} {k : α}
    (h : kv ∈ alistErase l k) : kv ∈ l :=
  (alistErase_sublist l k).mem h

theorem alistErase_lookup_self {l : List (α × β)} {k : α}
    (hnd : (alistKeys l).Nodup) : alistLookup (alistErase l k) k = none := by
  induction l with
  | nil => simp [alistErase, alistLookup]
  | cons kv rest ih =>
    obtain ⟨k', v'⟩ := kv
    rw [alistKeys, List.map_cons, List.nodup_cons] at hnd
    by_cases h : k' = k
    · subst h
      rw [alistErase_cons, if_pos rfl, alistLookup_eq_none_iff]
      exact hnd.1
    · simp [alistErase_cons, h, alistLookup_cons, ih hnd.2]

theorem alistErase_lookup_ne (l : List (α × β)) (k : α) {k' : α} (h : k' ≠ k) :
    alistLookup (alistErase l k) k' = alistLookup l k' := by
  induction l with
  | nil => simp [alistErase]
  | cons kv rest ih =>
    obtain ⟨k'', v''⟩ := kv
    by_cases hk : k'' = k
    · have h2 : ¬ k'' = k' := by rw [hk]; exact fun he => h he.symm
      rw [alistErase_cons, if_pos hk, alistLookup_cons, if_neg h2]
    · simp only [alistErase_cons, if_neg hk, alistLookup_cons, ih]

theorem mem_alistErase_of_mem_ne {l : List (α × β)} {kv : α × β} {k : α}
    (hm : kv ∈ l) (h : kv.1 ≠ k) : kv ∈ alistErase l k := by
  induction l with
  | nil => cases hm
  | cons kv' rest ih =>
    obtain ⟨k', v'⟩ := kv'
    by_cases hk : k' = k
    · subst hk
      rcases List.mem_cons.mp hm with he | hmm
      · exact absurd (congrArg Prod.fst he) h
      · simpa [alistErase_cons] using hmm
    · rcases List.mem_cons.mp hm with he | hmm
      · simp [alistErase_cons, hk, List.mem_cons, he]
      · simp [alistErase_cons, hk, List.mem_cons]
        exact Or.inr (ih hmm)

theorem alistKeys_alistErase_nodup {l : List (α × β)} {k : α}
    (h : (alistKeys l).Nodup) : (alistKeys (alistErase l k)).Nodup :=
  List.Nodup.sublist (List.Sublist.map _ (alistErase_sublist l k)) h

theorem alistLookup_mapVal {γ : Type} (g : α → β → γ) (l : List (α × β)) (k : α) :
    alistLookup (l.map (fun kv => (kv.1, g kv.1 kv.2))) k =
      (alistLookup l k).map (g k) := by
  induction l with
  | nil => simp [alistLookup]
  | cons kv rest ih =>
    obtain ⟨k', v'⟩ := kv
    by_cases h : k' = k
    · subst h; simp [alistLookup_cons]
    · simp [alistLookup_cons, h, ih]

end AlistToolkit

section SortToolkit

variable {α : Type}

theorem insertLe_perm (le : α → α → Bool) (a : α) (l : List α) :
    List.Perm (insertLe le a l) (a :: l) := by
  induction l with
  | nil => exact List.Perm.refl _
  | cons b rest ih =>
    by_cases h : le a b
    · simp [insertLe, h]
    · simp only [insertLe, h, Bool.false_eq_true, if_false]
      exact List.Perm.trans (List.Perm.cons b ih) (List.Perm.swap a b rest)

theorem stableSortBy_perm (le : α → α → Bool) (l : List α) :
    List.Perm (stableSortBy le l) l := by
  induction l with
  | nil => exact List.Perm.refl _
  | cons a rest ih =>
    exact List.Perm.trans (insertLe_perm le a _) (List.Perm.cons a ih)

theorem mem_stableSortBy {le : α → α → Bool} {l : List α} {x : α} :
    x ∈ stableSortBy le l ↔ x ∈ l :=
  (stableSortBy_perm le l).mem_iff

theorem stableSortBy_eq_nil_iff {le : α → α → Bool} {l : List α} :
    stableSortBy le l = [] ↔ l = [] := by
  constructor
  · intro h
    have := (stableSortBy_perm le l).length_eq
    rw [h] at this
    exact List.eq_nil_of_length_eq_zero this.symm
  · intro h; subst h; rfl

theorem pairwise_insertLe {le : α → α → Bool}
    (htot : ∀ x y, le x y = true ∨ le y x = true)
    (htr : ∀ x y z, le x y = true → le y z = true → le x z = true)
    {l : List α} (a : α) (h : List.Pairwise (fun x y => le x y = true) l) :
    List.Pairwise (fun x y => le x y = true) (insertLe le a l) := by
  induction l with
  | nil =>
    show List.Pairwise _ [a]
    exact List.Pairwise.cons (fun x hx => absurd hx (List.not_mem_nil x)) List.Pairwise.nil
  | cons b rest ih =>
    rw [List.pairwise_cons] at h
    by_cases hab : le a b
    · simp only [insertLe, hab, if_true]
      rw [List.pairwise_cons]
      refine ⟨?_, List.Pairwise.cons h.1 h.2⟩
      intro x hx
      rcases List.mem_cons.mp hx with he | hm
      · subst he; exact hab
      · exact htr a b x hab (h.1 x hm)
    · simp only [insertLe, hab, Bool.false_eq_true, if_false]
      rw [List.pairwise_cons]
      have hba : le b a = true := by
        rcases htot a b with h' | h'
        · exact absurd h' hab
        · exact h'
      refine ⟨?_, ih h.2⟩
      intro x hx
      rcases (insertLe_perm le a rest).mem_iff.mp hx with he
      rcases List.mem_cons.mp he with he' | hm
      · subst he'; exact hba
      · exact h.1 x hm

theorem pairwise_stableSortBy {le : α → α → Bool}
    (htot : ∀ x y, le x y = true ∨ le y x = true)
    (htr : ∀ x y z, le x y = true → le y z = true → le x z = true)
    (l : List α) :
    List.Pairwise (fun x y => le x y = true) (stableSortBy le l) := by
  induction l with
  | nil => simp [stableSortBy]
  | cons a rest ih => exact pairwise_insertLe htot htr a ih

end SortToolkit

theorem mem_fdedup {l : List String} {x : String} : x ∈ fdedup l ↔ x ∈ l := by
  induction l with
  | nil => simp [fdedup]
  | cons y rest ih =>
    simp only [fdedup, List.mem_cons, List.mem_filter, ih, bne_iff_ne]
    constructor
    · rintro (he | ⟨hm, _⟩)
      · exact Or.inl he
      · exact Or.inr hm
    · rintro (he | hm)
      · exact Or.inl he
      · by_cases hx : x = y
        · exact Or.inl hx
        · exact Or.inr ⟨hm, hx⟩

theorem listMin_mem {l : List Int} {m : Int} (h : listMin l = some m) : m ∈ l := by
  induction l generalizing m with
  | nil => simp [listMin] at h
  | cons x rest ih =>
    rw [listMin] at h
    cases hr : listMin rest with
    | none =>
      rw [hr] at h
      simp at h
      simp [h]
    | some m' =>
      rw [hr] at h
      simp at h
      rcases min_cases x m' with ⟨he, _⟩ | ⟨he, _⟩
      · rw [he] at h
        simp [← h]
      · rw [he] at h
        exact List.mem_cons_of_mem _ (ih (h ▸ hr))

theorem listMin_le {l : List Int} {m x : Int} (h : listMin l = some m) (hx : x ∈ l) :
    m ≤ x := by
  induction l generalizing m with
  | nil => cases hx
  | cons y rest ih =>
    rw [listMin] at h
    cases hr : listMin rest with
    | none =>
      rw [hr] at h
      simp at h
      have : rest = [] := by
        cases rest with
        | nil => rfl
        | cons z zs =>
          rw [listMin] at hr
          cases hzz : listMin zs <;> rw [hzz] at hr <;> simp at hr
      subst this
      rcases List.mem_cons.mp hx with he | he
      · omega
      · cases he
    | some m' =>
      rw [hr] at h
      simp at h
      rcases List.mem_cons.mp hx with he | he
      · subst he
        omega
      · have := ih hr he
        omega

theorem listMin_isSome {l : List Int} (h : l ≠ []) : (listMin l).isSome = true := by
  cases l with
  | nil => exact absurd rfl h
  | cons x rest =>
    rw [listMin]
    cases listMin rest <;> simp

theorem listMin_eq_none_iff {l : List Int} : listMin l = none ↔ l = [] := by
  constructor
  · intro h
    by_cases he : l = []
    · exact he
    · have := listMin_isSome he
      rw [h] at this
      simp at this
  · intro h; subst h; rfl

/-! ## Import-fold lemmas (claim C3) -/

theorem importTransitions_nodes (s : GraphState) (tds : List TransDict) :
    (importTransitions s tds).1.nodes = s.nodes := by
  induction tds generalizing s with
  | nil => rfl
  | cons td rest ih =>
    rw [importTransitions]
    by_cases hf : (Transition.from_dict td).from_screen ∉ s.nodes
    · simp [add_transition, hf]
    · by_cases ht : (Transition.from_dict td).to_screen ∉ s.nodes
      · simp [add_transition, hf, ht]
      · simp only [add_transition, if_neg hf, if_neg ht]
        exact ih _

theorem importScreens_transitions (s : GraphState) (entries : List ScreenEntry) :
    (importScreens s entries).1.transitions = s.transitions := by
  induction entries generalizing s with
  | nil => rfl
  | cons entry rest ih =>
    rw [importScreens]
    cases Screen.from_dict entry with
    | error e => rfl
    | ok sc => exact ih _

theorem importScreens_nodes_mem (s : GraphState) (entries : List ScreenEntry)
    {n : String} (h : n ∈ (importScreens s entries).1.nodes) :
    n ∈ s.nodes ∨ ∃ entry ∈ entries, ∃ sc, Screen.from_dict entry = .ok sc ∧
      sc.screen_id = n := by
  induction entries generalizing s with
  | nil => exact Or.inl h
  | cons entry rest ih =>
    rw [importScreens] at h
    cases he : Screen.from_dict entry with
    | error e =>
      rw [he] at h
      exact Or.inl h
    | ok sc =>
      rw [he] at h
      rcases ih _ h with hm | ⟨entry', hmem, sc', hok, hid⟩
      · by_cases hsc : n = sc.screen_id
        · exact Or.inr ⟨entry, List.mem_cons_self _ _, sc, he, hsc.symm⟩
        · left
          simp only [add_screen] at hm
          by_cases hin : sc.screen_id ∈ s.nodes
          · rw [if_pos hin] at hm; exact hm
          · rw [if_neg hin, List.mem_append] at hm
            rcases hm with hm | hm
            · exact hm
            · exact absurd (List.mem_singleton.mp hm) hsc
      · exact Or.inr ⟨entry', List.mem_cons_of_mem _ hmem, sc', hok, hid⟩

theorem importTransitions_trans_mem (s : GraphState) (tds : List TransDict)
    {kv : String × Transition} (h : kv ∈ (importTransitions s tds).1.transitions) :
    kv ∈ s.transitions ∨ ∃ td ∈ tds,
      kv.2.from_screen = (Transition.from_dict td).from_screen ∧
      kv.2.to_screen = (Transition.from_dict td).to_screen := by
  induction tds generalizing s with
  | nil => exact Or.inl h
  | cons td rest ih =>
    rw [importTransitions] at h
    by_cases hf : (Transition.from_dict td).from_screen ∉ s.nodes
    · simp only [add_transition, if_pos hf] at h
      exact Or.inl h
    · by_cases ht : (Transition.from_dict td).to_screen ∉ s.nodes
      · simp only [add_transition, if_neg hf, if_pos ht] at h
        exact Or.inl h
      · simp only [add_transition, if_neg hf, if_neg ht] at h
        rcases ih _ h with hm | ⟨td', hmem, hfe, hte⟩
        · rcases mem_alistInsert_weak hm with he | hm'
          · subst he
            exact Or.inr ⟨td, List.mem_cons_self _ _, rfl, rfl⟩
          · exact Or.inl hm'
        · exact Or.inr ⟨td', List.mem_cons_of_mem _ hmem, hfe, hte⟩

/-! ## Claim C3 -/

/-- Claim C3 fails on the code: importing `failDoc` over the empty store
raises (its second transition names the unregistered screen `C`) and leaves
the store holding both of the document's screens and exactly one of its two
transitions — some but not all of the document's content, so neither fully
the new state nor fully cleared. -/
theorem C3_counterexample :
    (import_graph initState failDoc).2.isSome = true ∧
    (get_screen (import_graph initState failDoc).1 "A").isSome = true ∧
    (get_screen (import_graph initState failDoc).1 "B").isSome = true ∧
    alistKeys (import_graph initState failDoc).1.transitions = ["t1"] ∧
    alistLookup (import_graph initState failDoc).1.transitions "t2" = none := by
  decide

/-- Claim C3 (amended): `import_graph` first clears the store, so a
failed import never retains any pre-import content — the result is entirely
determined by the document (independent of the prior state), and every
surviving node and transition originates from the document's entries; on
failure the store holds the successfully processed prefix of the document
rather than the full new state or the empty store. -/
theorem C3_theorem (s : GraphState) (d : GraphDoc) :
    import_graph s d = import_graph initState d ∧
    (∀ n ∈ (import_graph s d).1.nodes, ∃ entry ∈ d.screens, ∃ sc,
        Screen.from_dict entry = .ok sc ∧ sc.screen_id = n) ∧
    (∀ kv ∈ (import_graph s d).1.transitions, ∃ td ∈ d.transitions,
        kv.2.from_screen = (Transition.from_dict td).from_screen ∧
        kv.2.to_screen = (Transition.from_dict td).to_screen) := by
  refine ⟨rfl, ?_, ?_⟩
  · intro n hn
    rw [import_graph] at hn
    cases hsc : importScreens initState d.screens with
    | mk s₁ err =>
      cases err with
      | some e =>
        rw [hsc] at hn
        rcases importScreens_nodes_mem initState d.screens
            (by rw [hsc] at *; exact hn) with hm | hgood
        · cases hm
        · exact hgood
      | none =>
        rw [hsc] at hn
        have hn' : n ∈ s₁.nodes := by
          have := importTransitions_nodes s₁ d.transitions
          rw [this] at hn
          exact hn
        rcases importScreens_nodes_mem initState d.screens
            (by rw [hsc]; exact hn') with hm | hgood
        · cases hm
        · exact hgood
  · intro kv hkv
    rw [import_graph] at hkv
    cases hsc : importScreens initState d.screens with
    | mk s₁ err =>
      cases err with
      | some e =>
        rw [hsc] at hkv
        have : kv ∈ s₁.transitions := hkv
        have h0 := importScreens_transitions initState d.screens
        rw [hsc] at h0
        rw [h0] at this
        cases this
      | none =>
        rw [hsc] at hkv
        rcases importTransitions_trans_mem s₁ d.transitions hkv with hm | hgood
        · have h0 := importScreens_transitions initState d.screens
          rw [hsc] at h0
          rw [h0] at hm
          cases hm
        · exact hgood

/-! ## Claim C2 -/

/-- Claim C2 fails on the code: with two parallel `A -> B` transitions and
no id, `get_transition` silently returns the first one instead of raising
an ambiguous-reference error, and `update_transition` silently updates that
same first transition. -/
theorem C2_counterexample :
    (get_transitions_between parallelState "A" "B").length = 2 ∧
    get_transition parallelState "A" "B" none = some (sampleT "t1" "A" "B" 1) ∧
    (update_transition parallelState
        { sampleT "t1" "A" "B" 7 with transition_id := none }).2 =
      .ok (some (sampleT "t1" "A" "B" 7)) := by
  decide

/-- Claim C2 (amended): with parallel transitions between `(A, B)` and no
`transition_id`, `get_transition` returns the first transition in the
pair's insertion-ordered id list and `update_transition` silently updates
that same first transition; no ambiguous-reference error is raised. -/
theorem C2_theorem (s : GraphState) (f t tid₁ : String) (rest : List String)
    (tr t' : Transition)
    (hids : (alistLookup s.pairIndex (f, t)).getD [] = tid₁ :: rest)
    (htr : alistLookup s.transitions tid₁ = some tr)
    (hid : tr.transition_id = some tid₁) (hne : tid₁ ≠ "")
    (ht' : t'.transition_id = none) (hf' : t'.from_screen = f) (ht'' : t'.to_screen = t)
    (hfn : f ∈ s.nodes) (htn : t ∈ s.nodes) :
    get_transition s f t none = some tr ∧
    ∃ u, (update_transition s t').2 = .ok (some u) ∧ u.transition_id = some tid₁ := by
  have hget : get_transition s f t none = some tr := by
    rw [get_transition, firstForPair, hids]
    exact htr
  refine ⟨hget, ?_⟩
  have e1 : get_transition s t'.from_screen t'.to_screen none = some tr := by
    rw [hf', ht'']; exact hget
  have h4 : ¬ t'.from_screen ∉ s.nodes := by rw [hf']; exact fun hc => hc hfn
  have h5 : ¬ t'.to_screen ∉ s.nodes := by rw [ht'']; exact fun hc => hc htn
  simp only [update_transition, ht', e1, Option.some_bind, hid, hne, h4, h5,
    ite_true, ite_false, if_true, if_false]
  exact ⟨_, rfl, rfl⟩

/-- Witness for the amended claim C2 at the two-parallel-transition store. -/
theorem C2_witness :
    ((alistLookup parallelState.pairIndex ("A", "B")).getD [] = "t1" :: ["t2"] ∧
     alistLookup parallelState.transitions "t1" = some (sampleT "t1" "A" "B" 1) ∧
     "A" ∈ parallelState.nodes ∧ "B" ∈ parallelState.nodes) ∧
    (get_transition parallelState "A" "B" none = some (sampleT "t1" "A" "B" 1) ∧
     ∃ u, (update_transition parallelState
         { sampleT "t1" "A" "B" 7 with transition_id := none }).2 = .ok (some u) ∧
       u.transition_id = some "t1") :=
  ⟨⟨by decide, by decide, by decide, by decide⟩,
    C2_theorem parallelState "A" "B" "t1" ["t2"] (sampleT "t1" "A" "B" 1)
      { sampleT "t1" "A" "B" 7 with transition_id := none }
      (by decide) (by decide) (by decide) (by decide) (by decide) (by decide) (by decide)
      (by decide) (by decide)⟩

/-! ## Claim C5 -/

/-- Claim C5 fails on the code at `oldId = newId`: renaming an unregistered
screen to itself returns `True`, although the claim requires `False`
whenever the old id is not registered. -/
theorem C5_counterexample :
    (rename_screen initState "x" "x").2 = true ∧ "x" ∉ initState.nodes := by
  decide

/-- Claim C5 (amended): when `oldId = newId`, `rename_screen` returns true
and changes nothing, even for unregistered ids; when `oldId ≠ newId` it
returns false (changing nothing) exactly when `oldId` is unregistered or
`newId` is registered, and on success every stored transition keeps its
id, weight and action fields with `oldId` replaced by `newId` in its
endpoints, while `get_screen oldId` becomes null. -/
theorem C5_theorem (s : GraphState) (oldId newId : String) (hne : oldId ≠ newId)
    (hnd : (alistKeys s.screens).Nodup) :
    ((rename_screen s oldId newId).2 = false ↔ (oldId ∉ s.nodes ∨ newId ∈ s.nodes)) ∧
    ((rename_screen s oldId newId).2 = false → (rename_screen s oldId newId).1 = s) ∧
    ((rename_screen s oldId newId).2 = true →
      get_screen (rename_screen s oldId newId).1 oldId = none ∧
      ∀ k tr, alistLookup s.transitions k = some tr →
        ∃ tr', alistLookup (rename_screen s oldId newId).1.transitions k = some tr' ∧
          tr'.transition_id = some k ∧
          tr'.from_screen = (if tr.from_screen = oldId then newId else tr.from_screen) ∧
          tr'.to_screen = (if tr.to_screen = oldId then newId else tr.to_screen) ∧
          tr'.weight = tr.weight ∧ tr'.action_type = tr.action_type ∧
          tr'.description = tr.description ∧
          tr'.actionParams = some (tr.actionParams.getD [])) := by
  by_cases hc : oldId ∉ s.nodes ∨ newId ∈ s.nodes
  · rw [rename_screen, if_neg hne, if_pos hc]
    refine ⟨by simp [hc], fun _ => rfl, fun htrue => absurd htrue (by simp)⟩
  · rw [rename_screen, if_neg hne, if_neg hc]
    refine ⟨by simp [hc], by simp, fun _ => ?_⟩
    constructor
    · show alistLookup (alistInsert (alistErase s.screens oldId) newId _) oldId = none
      rw [alistInsert_lookup_ne _ _ _ hne, alistErase_lookup_self hnd]
    · intro k tr htr
      refine ⟨remapForRename oldId newId k tr, ?_, rfl, rfl, rfl, rfl, rfl, rfl, rfl⟩
      show alistLookup (s.transitions.map
        (fun kv => (kv.1, remapForRename oldId newId kv.1 kv.2))) k =
          some (remapForRename oldId newId k tr)
      rw [alistLookup_mapVal (fun k' tr' => remapForRename oldId newId k' tr'), htr]
      rfl

/-- Witness for the amended claim C5: renaming `A` to `Z` in the
two-parallel-transition store. -/
theorem C5_witness :
    ("A" ≠ "Z" ∧ (alistKeys parallelState.screens).Nodup) ∧
    (((rename_screen parallelState "A" "Z").2 = false ↔
        ("A" ∉ parallelState.nodes ∨ "Z" ∈ parallelState.nodes)) ∧
     ((rename_screen parallelState "A" "Z").2 = false →
        (rename_screen parallelState "A" "Z").1 = parallelState) ∧
     ((rename_screen parallelState "A" "Z").2 = true →
        get_screen (rename_screen parallelState "A" "Z").1 "A" = none ∧
        ∀ k tr, alistLookup parallelState.transitions k = some tr →
          ∃ tr', alistLookup (rename_screen parallelState "A" "Z").1.transitions k =
              some tr' ∧
            tr'.transition_id = some k ∧
            tr'.from_screen = (if tr.from_screen = "A" then "Z" else tr.from_screen) ∧
            tr'.to_screen = (if tr.to_screen = "A" then "Z" else tr.to_screen) ∧
            tr'.weight = tr.weight ∧ tr'.action_type = tr.action_type ∧
            tr'.description = tr.description ∧
            tr'.actionParams = some (tr.actionParams.getD []))) :=
  ⟨⟨by decide, by decide⟩, C5_theorem parallelState "A" "Z" (by decide) (by decide)⟩

/-! ## Claim C10 -/

/-- Claim C10: when the supplied `transition_id` already identifies a stored
transition (endpoints registered), `add_transition` keeps the existing
record unchanged and stores the new transition under a freshly generated
id distinct from every stored id (in particular from the supplied one), so
ids stay globally unique. -/
theorem C10_theorem (s : GraphState) (t : Transition) (i : String)
    (hid : t.transition_id = some i) (hne : i ≠ "")
    (hex : (alistLookup s.transitions i).isSome = true)
    (hf : t.from_screen ∈ s.nodes) (ht : t.to_screen ∈ s.nodes)
    (hnd : TransKeysNodup s) :
    ∃ stored, (add_transition s t).2 = .ok stored ∧
      stored.transition_id = some (new_transition_id s) ∧
      new_transition_id s ≠ i ∧
      new_transition_id s ∉ alistKeys s.transitions ∧
      alistLookup (add_transition s t).1.transitions i = alistLookup s.transitions i ∧
      TransKeysNodup (add_transition s t).1 := by
  have hfresh : new_transition_id s ∉ alistKeys s.transitions := freshId_not_mem _
  have hi : i ∈ alistKeys s.transitions := alistLookup_isSome_iff.mp hex
  have hnei : new_transition_id s ≠ i := fun he => hfresh (he ▸ hi)
  have h4 : ¬ t.from_screen ∉ s.nodes := fun hc => hc hf
  have h5 : ¬ t.to_screen ∉ s.nodes := fun hc => hc ht
  simp only [add_transition, h4, h5, hid, hne, hex, ite_true, ite_false, if_true,
    if_false]
  refine ⟨_, rfl, rfl, hnei, hfresh, ?_, ?_⟩
  · exact alistInsert_lookup_ne _ _ _ hnei.symm
  · exact alistKeys_alistInsert_nodup _ hnd

/-- Witness for claim C10: re-adding id `t1` to the store that already
holds it. -/
theorem C10_witness :
    ((sampleT "t1" "A" "B" 9).transition_id = some "t1" ∧
     (alistLookup parallelState.transitions "t1").isSome = true ∧
     TransKeysNodup parallelState) ∧
    (∃ stored, (add_transition parallelState (sampleT "t1" "A" "B" 9)).2 = .ok stored ∧
      stored.transition_id = some (new_transition_id parallelState) ∧
      new_transition_id parallelState ≠ "t1" ∧
      new_transition_id parallelState ∉ alistKeys parallelState.transitions ∧
      alistLookup (add_transition parallelState (sampleT "t1" "A" "B" 9)).1.transitions
          "t1" = alistLookup parallelState.transitions "t1" ∧
      TransKeysNodup (add_transition parallelState (sampleT "t1" "A" "B" 9)).1) :=
  ⟨⟨by decide, by decide, by decide⟩,
    C10_theorem parallelState (sampleT "t1" "A" "B" 9) "t1" (by decide) (by decide)
      (by decide) (by decide) (by decide) (by decide)⟩

/-! ## Pair-index operation lemmas (claims C6 and C7) -/

theorem alistInsert_of_not_mem {α β : Type} [DecidableEq α] {l : List (α × β)} {k : α}
    (v : β) (h : k ∉ alistKeys l) : alistInsert l k v = l ++ [(k, v)] := by
  induction l with
  | nil => rfl
  | cons kv rest ih =>
    obtain ⟨k', v'⟩ := kv
    rw [alistKeys, List.map_cons, List.mem_cons] at h
    push_neg at h
    have hk : ¬ k' = k := fun he => h.1 he.symm
    rw [alistInsert_cons, if_neg hk, List.cons_append, ih h.2]

theorem mem_alistErase_iff {α β : Type} [DecidableEq α] {l : List (α × β)} {kv : α × β}
    {k : α} (hnd : (alistKeys l).Nodup) :
    kv ∈ alistErase l k ↔ kv ∈ l ∧ kv.1 ≠ k := by
  constructor
  · intro h
    refine ⟨mem_of_mem_alistErase h, ?_⟩
    intro he
    have h1 : alistLookup (alistErase l k) kv.1 = none := by
      rw [he]
      exact alistErase_lookup_self hnd
    have h2 := alistLookup_of_mem_nodup (alistKeys_alistErase_nodup hnd)
      (show (kv.1, kv.2) ∈ alistErase l k from by rwa [Prod.mk.eta])
    rw [h1] at h2
    cases h2
  · rintro ⟨hm, hne⟩
    exact mem_alistErase_of_mem_ne hm hne

theorem add_pair_reference_lookup_self (idx : List ((String × String) × List String))
    (f t tid : String) :
    alistLookup (add_pair_reference idx f t tid) (f, t) =
      some ((alistLookup idx (f, t)).getD [] ++ [tid]) := by
  simp only [add_pair_reference]
  exact alistInsert_lookup_self ..

theorem add_pair_reference_lookup_ne (idx : List ((String × String) × List String))
    (f t tid : String) {k : String × String} (h : k ≠ (f, t)) :
    alistLookup (add_pair_reference idx f t tid) k = alistLookup idx k := by
  simp only [add_pair_reference]
  exact alistInsert_lookup_ne _ _ _ h

theorem add_pair_reference_keys_nodup {idx : List ((String × String) × List String)}
    (f t tid : String) (h : (idx.map (·.1)).Nodup) :
    ((add_pair_reference idx f t tid).map (·.1)).Nodup :=
  alistKeys_alistInsert_nodup _ h

theorem remove_pair_reference_lookup_ne (idx : List ((String × String) × List String))
    (f t tid : String) {k : String × String} (h : k ≠ (f, t)) :
    alistLookup (remove_pair_reference idx f t tid) k = alistLookup idx k := by
  simp only [remove_pair_reference]
  by_cases hc : ((alistLookup idx (f, t)).getD []).erase tid = []
  · rw [if_pos hc]
    exact alistErase_lookup_ne _ _ h
  · rw [if_neg hc]
    exact alistInsert_lookup_ne _ _ _ h

theorem remove_pair_reference_lookup_self {idx : List ((String × String) × List String)}
    (f t tid : String) (hnd : (idx.map (·.1)).Nodup) :
    alistLookup (remove_pair_reference idx f t tid) (f, t) =
      (if ((alistLookup idx (f, t)).getD []).erase tid = [] then none
       else some (((alistLookup idx (f, t)).getD []).erase tid)) := by
  simp only [remove_pair_reference]
  by_cases hc : ((alistLookup idx (f, t)).getD []).erase tid = []
  · rw [if_pos hc, if_pos hc]
    exact alistErase_lookup_self hnd
  · rw [if_neg hc, if_neg hc]
    exact alistInsert_lookup_self ..

theorem remove_pair_reference_keys_nodup {idx : List ((String × String) × List String)}
    (f t tid : String) (h : (idx.map (·.1)).Nodup) :
    ((remove_pair_reference idx f t tid).map (·.1)).Nodup := by
  simp only [remove_pair_reference]
  by_cases hc : ((alistLookup idx (f, t)).getD []).erase tid = []
  · rw [if_pos hc]
    exact alistKeys_alistErase_nodup h
  · rw [if_neg hc]
    exact alistKeys_alistInsert_nodup _ h

theorem idMatches_iff {s : GraphState} {f t tid : String} :
    idMatches s f t tid = true ↔
      ∃ tr, alistLookup s.transitions tid = some tr ∧ tr.from_screen = f ∧
        tr.to_screen = t := by
  cases h : alistLookup s.transitions tid with
  | none => simp [idMatches, h]
  | some tr => simp [idMatches, h, Bool.and_eq_true, beq_iff_eq, and_assoc]

theorem idMatches_congr {s s' : GraphState} (h : s'.transitions = s.transitions)
    (f t tid : String) : idMatches s' f t tid = idMatches s f t tid := by
  unfold idMatches
  rw [h]

theorem idMatches_isStored {s : GraphState} {f t tid : String}
    (h : idMatches s f t tid = true) : tid ∈ alistKeys s.transitions := by
  rcases idMatches_iff.mp h with ⟨tr, hlk, _, _⟩
  exact alistLookup_isSome_iff.mp (by rw [hlk]; rfl)

theorem syncIff_of_inv {s : GraphState} (h : StoreInv s) : SyncIff s := by
  obtain ⟨⟨hps1, hps2⟩, htk, hpk, _, _, _⟩ := h
  intro f t tid
  constructor
  · intro hmem
    cases hl : alistLookup s.pairIndex (f, t) with
    | none => rw [hl] at hmem; cases hmem
    | some ids =>
      rw [hl] at hmem
      exact hps1 ((f, t), ids) (alistLookup_eq_some_mem hl) tid hmem
  · intro hm
    rcases idMatches_iff.mp hm with ⟨tr, hlk, hf, ht⟩
    have := hps2 (tid, tr) (alistLookup_eq_some_mem hlk)
    rw [hf, ht] at this
    exact this

theorem pairSync_of_syncIff {s : GraphState} (hpk : PairKeysNodup s)
    (htk : TransKeysNodup s) (hsync : SyncIff s) : PairSync s := by
  constructor
  · intro entry hentry tid hmem
    have hl : alistLookup s.pairIndex entry.1 = some entry.2 :=
      alistLookup_of_mem_nodup hpk (by rwa [Prod.mk.eta])
    apply (hsync entry.1.1 entry.1.2 tid).mp
    rw [show ((entry.1.1, entry.1.2) : String × String) = entry.1 from Prod.mk.eta, hl]
    exact hmem
  · intro kv hkv
    have hl : alistLookup s.transitions kv.1 = some kv.2 :=
      alistLookup_of_mem_nodup htk (by rwa [Prod.mk.eta])
    apply (hsync kv.2.from_screen kv.2.to_screen kv.1).mpr
    exact idMatches_iff.mpr ⟨kv.2, hl, rfl, rfl⟩

theorem storeInv_congr {s s' : GraphState} (h1 : s'.transitions = s.transitions)
    (h2 : s'.pairIndex = s.pairIndex) (h : StoreInv s) : StoreInv s' := by
  obtain ⟨⟨hp1, hp2⟩, htk, hpk, hln, hne0, hic⟩ := h
  refine ⟨⟨?_, ?_⟩, ?_, ?_, ?_, ?_, ?_⟩
  · intro entry he tid ht
    rw [idMatches_congr h1]
    exact hp1 entry (h2 ▸ he) tid ht
  · intro kv hk
    rw [h2]
    exact hp2 kv (h1 ▸ hk)
  · show (alistKeys s'.transitions).Nodup
    rw [h1]; exact htk
  · show (s'.pairIndex.map (·.1)).Nodup
    rw [h2]; exact hpk
  · intro entry he
    exact hln entry (h2 ▸ he)
  · intro entry he
    exact hne0 entry (h2 ▸ he)
  · intro kv hk
    exact hic kv (h1 ▸ hk)

theorem storeInv_empty_maps (ns : List String) (es : List GEdge)
    (scs : List (String × Screen)) :
    StoreInv { nodes := ns, edges := es, screens := scs,
               transitions := [], pairIndex := [] } := by
  refine ⟨⟨?_, ?_⟩, ?_, ?_, ?_, ?_, ?_⟩ <;>
    first
      | exact fun x hx => absurd hx (List.not_mem_nil x)
      | exact List.nodup_nil

theorem storeInv_add_step (s : GraphState) (tid : String) (stored : Transition)
    (ns : List String) (es : List GEdge) (scs : List (String × Screen))
    (hfresh : tid ∉ alistKeys s.transitions)
    (hid : stored.transition_id = some tid)
    (h : StoreInv s) :
    StoreInv { nodes := ns, edges := es, screens := scs,
               transitions := alistInsert s.transitions tid stored,
               pairIndex := add_pair_reference s.pairIndex stored.from_screen
                 stored.to_screen tid } := by
  have hsync := syncIff_of_inv h
  obtain ⟨hps, htk, hpk, hln, hne0, hic⟩ := h
  have htid_not : ∀ f t, tid ∉ (alistLookup s.pairIndex (f, t)).getD [] := by
    intro f t hmem
    exact hfresh (idMatches_isStored ((hsync f t tid).mp hmem))
  have hidm_ne : ∀ (f t tid' : String), tid' ≠ tid →
      idMatches
        { nodes := ns, edges := es, screens := scs,
          transitions := alistInsert s.transitions tid stored,
          pairIndex := add_pair_reference s.pairIndex stored.from_screen
            stored.to_screen tid } f t tid' = idMatches s f t tid' := by
    intro f t tid' hne
    simp only [idMatches]
    rw [alistInsert_lookup_ne _ _ _ hne]
  have hidm_self : ∀ f t : String,
      (idMatches
        { nodes := ns, edges := es, screens := scs,
          transitions := alistInsert s.transitions tid stored,
          pairIndex := add_pair_reference s.pairIndex stored.from_screen
            stored.to_screen tid } f t tid = true) ↔
      (stored.from_screen = f ∧ stored.to_screen = t) := by
    intro f t
    simp only [idMatches]
    rw [alistInsert_lookup_self]
    simp [Bool.and_eq_true, beq_iff_eq]
  have hsync' : SyncIff
      { nodes := ns, edges := es, screens := scs,
        transitions := alistInsert s.transitions tid stored,
        pairIndex := add_pair_reference s.pairIndex stored.from_screen
          stored.to_screen tid } := by
    intro f t tid'
    show tid' ∈ (alistLookup (add_pair_reference s.pairIndex stored.from_screen
        stored.to_screen tid) (f, t)).getD [] ↔ _
    by_cases hkey : (f, t) = (stored.from_screen, stored.to_screen)
    · have hft := hkey
      rw [Prod.mk.injEq] at hft
      obtain ⟨hf, ht⟩ := hft
      rw [hkey, add_pair_reference_lookup_self]
      simp only [Option.getD_some, List.mem_append, List.mem_singleton]
      by_cases he : tid' = tid
      · subst he
        constructor
        · intro _
          exact (hidm_self f t).mpr ⟨hf.symm, ht.symm⟩
        · intro _
          exact Or.inr rfl
      · rw [hidm_ne f t tid' he]
        constructor
        · rintro (hm | hm)
          · exact (hsync f t tid').mp (by rw [hf, ht]; exact hm)
          · exact absurd hm he
        · intro hm
          refine Or.inl ?_
          have hmm := (hsync f t tid').mpr hm
          rw [hf, ht] at hmm
          exact hmm
    · rw [add_pair_reference_lookup_ne _ _ _ _ hkey]
      by_cases he : tid' = tid
      · subst he
        constructor
        · intro hm
          exact absurd hm (htid_not f t)
        · intro hm
          rcases (hidm_self f t).mp hm with ⟨hf, ht⟩
          exact absurd (by rw [hf, ht]) hkey
      · rw [hidm_ne f t tid' he]
        exact hsync f t tid'
  have htk' : (alistKeys (alistInsert s.transitions tid stored)).Nodup :=
    alistKeys_alistInsert_nodup _ htk
  have hpk' : ((add_pair_reference s.pairIndex stored.from_screen stored.to_screen
      tid).map (·.1)).Nodup := add_pair_reference_keys_nodup _ _ _ hpk
  refine ⟨pairSync_of_syncIff hpk' htk' hsync', htk', hpk', ?_, ?_, ?_⟩
  · -- PairListsNodup
    intro entry he
    rcases mem_alistInsert_elim hpk he with he' | ⟨hm, _⟩
    · subst he'
      show (((alistLookup s.pairIndex (stored.from_screen, stored.to_screen)).getD []) ++
        [tid]).Nodup
      cases hl : alistLookup s.pairIndex (stored.from_screen, stored.to_screen) with
      | none => simp
      | some ids =>
        have hmem := alistLookup_eq_some_mem hl
        have hnd := hln _ hmem
        have hnotin : tid ∉ ids := by
          have := htid_not stored.from_screen stored.to_screen
          rw [hl] at this
          exact this
        simp [List.nodup_append, hnd, hnotin]
    · exact hln entry hm
  · -- PairNoEmpty
    intro entry he
    rcases mem_alistInsert_elim hpk he with he' | ⟨hm, _⟩
    · subst he'
      simp
    · exact hne0 entry hm
  · -- IdsConsistent
    intro kv hk
    rcases mem_alistInsert_elim htk hk with he' | ⟨hm, _⟩
    · subst he'
      exact hid
    · exact hic kv hm

theorem storeInv_remove_step (s : GraphState) (tid : String) (target : Transition)
    (ns : List String) (es : List GEdge) (scs : List (String × Screen))
    (hlk : alistLookup s.transitions tid = some target)
    (h : StoreInv s) :
    StoreInv { nodes := ns, edges := es, screens := scs,
               transitions := alistErase s.transitions tid,
               pairIndex := remove_pair_reference s.pairIndex target.from_screen
                 target.to_screen tid } := by
  have hsync := syncIff_of_inv h
  obtain ⟨hps, htk, hpk, hln, hne0, hic⟩ := h
  have htidm : ∀ f t : String, idMatches s f t tid = true ↔
      (target.from_screen = f ∧ target.to_screen = t) := by
    intro f t
    simp only [idMatches, hlk]
    simp [Bool.and_eq_true, beq_iff_eq]
  have htid_where : ∀ f t : String, tid ∈ (alistLookup s.pairIndex (f, t)).getD [] ↔
      (f = target.from_screen ∧ t = target.to_screen) := by
    intro f t
    rw [hsync f t tid, htidm]
    constructor
    · rintro ⟨h1, h2⟩; exact ⟨h1.symm, h2.symm⟩
    · rintro ⟨h1, h2⟩; exact ⟨h1.symm, h2.symm⟩
  have hidm_ne : ∀ (f t tid' : String), tid' ≠ tid →
      idMatches
        { nodes := ns, edges := es, screens := scs,
          transitions := alistErase s.transitions tid,
          pairIndex := remove_pair_reference s.pairIndex target.from_screen
            target.to_screen tid } f t tid' = idMatches s f t tid' := by
    intro f t tid' hne
    simp only [idMatches]
    rw [alistErase_lookup_ne _ _ hne]
  have hidm_self : ∀ f t : String,
      idMatches
        { nodes := ns, edges := es, screens := scs,
          transitions := alistErase s.transitions tid,
          pairIndex := remove_pair_reference s.pairIndex target.from_screen
            target.to_screen tid } f t tid = false := by
    intro f t
    simp only [idMatches]
    rw [alistErase_lookup_self htk]
  have hsync' : SyncIff
      { nodes := ns, edges := es, screens := scs,
        transitions := alistErase s.transitions tid,
        pairIndex := remove_pair_reference s.pairIndex target.from_screen
          target.to_screen tid } := by
    intro f t tid'
    show tid' ∈ (alistLookup (remove_pair_reference s.pairIndex target.from_screen
        target.to_screen tid) (f, t)).getD [] ↔ _
    by_cases hkey : (f, t) = (target.from_screen, target.to_screen)
    · have hft := hkey
      rw [Prod.mk.injEq] at hft
      obtain ⟨hf, ht⟩ := hft
      rw [hkey, remove_pair_reference_lookup_self _ _ _ hpk]
      by_cases hempty :
          ((alistLookup s.pairIndex (target.from_screen, target.to_screen)).getD
            []).erase tid = []
      · rw [if_pos hempty]
        simp only [Option.getD_none, List.not_mem_nil, false_iff]
        intro hm
        by_cases he : tid' = tid
        · subst he
          rw [hidm_self f t] at hm
          cases hm
        · rw [hidm_ne f t tid' he] at hm
          have hmem := (hsync f t tid').mpr hm
          rw [hf, ht] at hmem
          have : tid' ∈ ((alistLookup s.pairIndex (target.from_screen,
              target.to_screen)).getD []).erase tid :=
            (List.mem_erase_of_ne he).mpr hmem
          rw [hempty] at this
          cases this
      · rw [if_neg hempty]
        simp only [Option.getD_some]
        by_cases he : tid' = tid
        · subst he
          rw [hidm_self f t]
          simp only [Bool.false_eq_true, iff_false]
          intro hm
          have hnd : ((alistLookup s.pairIndex (target.from_screen,
              target.to_screen)).getD []).Nodup := by
            cases hl : alistLookup s.pairIndex (target.from_screen,
                target.to_screen) with
            | none => simp
            | some ids =>
              simpa using hln _ (alistLookup_eq_some_mem hl)
          exact (List.Nodup.not_mem_erase hnd) hm
        · rw [hidm_ne f t tid' he, List.mem_erase_of_ne he]
          rw [hf, ht]
          exact hsync target.from_screen target.to_screen tid'
    · rw [remove_pair_reference_lookup_ne _ _ _ _ hkey]
      by_cases he : tid' = tid
      · subst he
        rw [htid_where f t]
        rw [hidm_self f t]
        simp only [Bool.false_eq_true, iff_false]
        intro hm
        exact hkey (by rw [hm.1, hm.2])
      · rw [hidm_ne f t tid' he]
        exact hsync f t tid'
  have htk' : (alistKeys (alistErase s.transitions tid)).Nodup :=
    alistKeys_alistErase_nodup htk
  have hpk' : ((remove_pair_reference s.pairIndex target.from_screen target.to_screen
      tid).map (·.1)).Nodup := remove_pair_reference_keys_nodup _ _ _ hpk
  refine ⟨pairSync_of_syncIff hpk' htk' hsync', htk', hpk', ?_, ?_, ?_⟩
  · -- PairListsNodup
    intro entry he
    simp only [remove_pair_reference] at he
    by_cases hempty :
        ((alistLookup s.pairIndex (target.from_screen, target.to_screen)).getD
          []).erase tid = []
    · rw [if_pos hempty] at he
      exact hln entry (mem_of_mem_alistErase he)
    · rw [if_neg hempty] at he
      rcases mem_alistInsert_elim hpk he with he' | ⟨hm, _⟩
      · subst he'
        show (((alistLookup s.pairIndex (target.from_screen,
            target.to_screen)).getD []).erase tid).Nodup
        apply List.Nodup.erase
        cases hl : alistLookup s.pairIndex (target.from_screen, target.to_screen) with
        | none => simp
        | some ids => simpa using hln _ (alistLookup_eq_some_mem hl)
      · exact hln entry hm
  · -- PairNoEmpty
    intro entry he
    simp only [remove_pair_reference] at he
    by_cases hempty :
        ((alistLookup s.pairIndex (target.from_screen, target.to_screen)).getD
          []).erase tid = []
    · rw [if_pos hempty] at he
      exact hne0 entry (mem_of_mem_alistErase he)
    · rw [if_neg hempty] at he
      rcases mem_alistInsert_elim hpk he with he' | ⟨hm, _⟩
      · subst he'
        exact hempty
      · exact hne0 entry hm
  · -- IdsConsistent
    intro kv hk
    exact hic kv (mem_of_mem_alistErase hk)

theorem alistLookup_congr_of_mem_iff {α β : Type} [DecidableEq α]
    {l l' : List (α × β)} (hm : ∀ kv, kv ∈ l' ↔ kv ∈ l)
    (hn : (alistKeys l).Nodup) (hn' : (alistKeys l').Nodup) (k : α) :
    alistLookup l' k = alistLookup l k := by
  cases h : alistLookup l' k with
  | some v =>
    exact (alistLookup_of_mem_nodup hn ((hm (k, v)).mp
      (alistLookup_eq_some_mem h))).symm
  | none =>
    cases h2 : alistLookup l k with
    | none => rfl
    | some v =>
      have := alistLookup_of_mem_nodup hn' ((hm (k, v)).mpr
        (alistLookup_eq_some_mem h2))
      rw [h] at this
      cases this

theorem storeInv_congr_mem {s s' : GraphState}
    (h1 : ∀ kv, kv ∈ s'.transitions ↔ kv ∈ s.transitions)
    (h1n : (alistKeys s'.transitions).Nodup)
    (h2 : s'.pairIndex = s.pairIndex) (h : StoreInv s) : StoreInv s' := by
  obtain ⟨⟨hp1, hp2⟩, htk, hpk, hln, hne0, hic⟩ := h
  have hlkc : ∀ k, alistLookup s'.transitions k = alistLookup s.transitions k :=
    alistLookup_congr_of_mem_iff h1 htk h1n
  have hidm : ∀ f t tid, idMatches s' f t tid = idMatches s f t tid := by
    intro f t tid
    unfold idMatches
    rw [hlkc tid]
  refine ⟨⟨?_, ?_⟩, h1n, ?_, ?_, ?_, ?_⟩
  · intro entry he tid ht
    rw [hidm]
    exact hp1 entry (h2 ▸ he) tid ht
  · intro kv hk
    rw [h2]
    exact hp2 kv ((h1 kv).mp hk)
  · show (s'.pairIndex.map (·.1)).Nodup
    rw [h2]; exact hpk
  · intro entry he
    exact hln entry (h2 ▸ he)
  · intro entry he
    exact hne0 entry (h2 ▸ he)
  · intro kv hk
    exact hic kv ((h1 kv).mp hk)

theorem mem_insert_erase_iff {α β : Type} [DecidableEq α] {l : List (α × β)}
    {k : α} {v : β} (hn : (alistKeys l).Nodup) (kv : α × β) :
    kv ∈ alistInsert l k v ↔ kv ∈ alistInsert (alistErase l k) k v := by
  have hn' := alistKeys_alistErase_nodup (k := k) hn
  constructor
  · intro h
    rcases mem_alistInsert_elim hn h with he | ⟨hm, hne⟩
    · subst he; exact mem_alistInsert_self ..
    · exact mem_alistInsert_of_mem _ hne (mem_alistErase_of_mem_ne hm hne)
  · intro h
    rcases mem_alistInsert_elim hn' h with he | ⟨hm, hne⟩
    · subst he; exact mem_alistInsert_self ..
    · exact mem_alistInsert_of_mem _ hne (mem_of_mem_alistErase hm)

theorem storeInv_update_step (s : GraphState) (tid : String)
    (existing updated : Transition) (ns : List String) (es : List GEdge)
    (scs : List (String × Screen))
    (hlk : alistLookup s.transitions tid = some existing)
    (hid : updated.transition_id = some tid)
    (h : StoreInv s) :
    StoreInv { nodes := ns, edges := es, screens := scs,
               transitions := alistInsert s.transitions tid updated,
               pairIndex := add_pair_reference (remove_pair_reference s.pairIndex
                 existing.from_screen existing.to_screen tid) updated.from_screen
                 updated.to_screen tid } := by
  have htk := h.2.1
  have hmid := storeInv_remove_step s tid existing ns es scs hlk h
  have hfresh : tid ∉ alistKeys (alistErase s.transitions tid) := by
    intro hm
    have h1 := alistLookup_isSome_iff.mpr hm
    rw [alistErase_lookup_self htk] at h1
    simp at h1
  have hstep := storeInv_add_step _ tid updated ns es scs hfresh hid hmid
  refine storeInv_congr_mem ?_ ?_ ?_ hstep
  · exact fun kv => mem_insert_erase_iff htk kv
  · exact alistKeys_alistInsert_nodup _ htk
  · rfl

/-! ## Mutator-level invariant preservation (claim C6) -/

theorem storeInv_add_screen (s : GraphState) (sc : Screen) (h : StoreInv s) :
    StoreInv (add_screen s sc) :=
  storeInv_congr rfl rfl h

theorem firstForPair_lookup {s : GraphState} {f t : String} {target : Transition}
    (hic : IdsConsistent s) (hget : firstForPair s f t = some target) :
    ∃ k, target.transition_id = some k ∧ alistLookup s.transitions k = some target := by
  simp only [firstForPair] at hget
  cases hl : (alistLookup s.pairIndex (f, t)).getD [] with
  | nil => rw [hl] at hget; cases hget
  | cons id0 rest =>
    rw [hl] at hget
    exact ⟨id0, hic (id0, target) (alistLookup_eq_some_mem hget), hget⟩

theorem get_transition_lookup {s : GraphState} {f t : String} {otid : Option String}
    {target : Transition} (hic : IdsConsistent s)
    (hget : get_transition s f t otid = some target) :
    ∃ k, target.transition_id = some k ∧ alistLookup s.transitions k = some target := by
  cases otid with
  | none =>
    simp only [get_transition] at hget
    exact firstForPair_lookup hic hget
  | some i =>
    simp only [get_transition] at hget
    by_cases hi : i = ""
    · rw [if_pos hi] at hget
      exact firstForPair_lookup hic hget
    · rw [if_neg hi] at hget
      cases hl : alistLookup s.transitions i with
      | none =>
        rw [hl] at hget
        have hget' : (none : Option Transition) = some target := hget
        cases hget'
      | some tr =>
        rw [hl] at hget
        have hget' : (if tr.from_screen ≠ f ∨ tr.to_screen ≠ t then none
            else some tr) = some target := hget
        by_cases hc : tr.from_screen ≠ f ∨ tr.to_screen ≠ t
        · rw [if_pos hc] at hget'; cases hget'
        · rw [if_neg hc] at hget'
          injection hget' with he
          subst he
          exact ⟨i, hic (i, tr) (alistLookup_eq_some_mem hl), hl⟩

theorem storeInv_add_transition (s : GraphState) (t : Transition) (h : StoreInv s) :
    StoreInv (add_transition s t).1 := by
  by_cases h4 : t.from_screen ∉ s.nodes
  · simp only [add_transition, if_pos h4]
    exact h
  · by_cases h5 : t.to_screen ∉ s.nodes
    · simp only [add_transition, if_neg h4, if_pos h5]
      exact h
    · simp only [add_transition, if_neg h4, if_neg h5]
      by_cases hdup : (alistLookup s.transitions
          (match t.transition_id with
           | some i => if i = "" then new_transition_id s else i
           | none => new_transition_id s)).isSome = true
      · rw [if_pos hdup]
        exact storeInv_add_step s (new_transition_id s) _ s.nodes _ s.screens
          (freshId_not_mem _) rfl h
      · rw [if_neg hdup]
        have hfresh : (match t.transition_id with
            | some i => if i = "" then new_transition_id s else i
            | none => new_transition_id s) ∉ alistKeys s.transitions := by
          intro hm
          exact hdup (alistLookup_isSome_iff.mpr hm)
        exact storeInv_add_step s _ _ s.nodes _ s.screens hfresh rfl h

theorem storeInv_update_transition (s : GraphState) (t : Transition) (h : StoreInv s) :
    StoreInv (update_transition s t).1 := by
  have hic := h.2.2.2.2.2
  simp only [update_transition]
  split
  · exact h
  · exact h
  · rename_i existing tid heq
    split
    · exact h
    · split
      · exact h
      · split
        · exact h
        · have hlk : alistLookup s.transitions tid = some existing := by
            cases hti : t.transition_id with
            | some i =>
              simp only [hti] at heq
              by_cases hi : i = ""
              · rw [if_pos hi] at heq
                injection heq with he1 he2
                rw [he1, Option.some_bind] at he2
                rcases get_transition_lookup hic he1 with ⟨k, hk1, hk2⟩
                rw [hk1] at he2
                injection he2 with he3
                rw [← he3]
                exact hk2
              · rw [if_neg hi] at heq
                injection heq with he1 he2
                injection he2 with he3
                rw [← he3]
                exact he1
            | none =>
              simp only [hti] at heq
              injection heq with he1 he2
              rw [he1, Option.some_bind] at he2
              rcases get_transition_lookup hic he1 with ⟨k, hk1, hk2⟩
              rw [hk1] at he2
              injection he2 with he3
              rw [← he3]
              exact hk2
          exact storeInv_update_step s tid existing _ s.nodes _ s.screens hlk rfl h

theorem storeInv_delete_transition (s : GraphState) (f t : String)
    (otid : Option String) (h : StoreInv s) :
    StoreInv (delete_transition s f t otid).1 := by
  have hic := h.2.2.2.2.2
  simp only [delete_transition]
  split
  · exact h
  · rename_i target hget
    split
    · exact h
    · rename_i tid hbid
      split
      · exact h
      · rcases get_transition_lookup hic hget with ⟨k, hk1, hk2⟩
        rw [hbid] at hk1
        injection hk1 with he
        subst he
        exact storeInv_remove_step s tid target s.nodes _ s.screens hk2 h

theorem storeInv_removeTransitionRecord (s : GraphState) (tid : String)
    (h : StoreInv s) : StoreInv (removeTransitionRecord s tid) := by
  simp only [removeTransitionRecord]
  cases hl : alistLookup s.transitions tid with
  | none => exact h
  | some tr => exact storeInv_remove_step s tid tr s.nodes _ s.screens hl h

theorem storeInv_fold_remove (l : List String) :
    ∀ s : GraphState, StoreInv s → StoreInv (l.foldl removeTransitionRecord s) := by
  induction l with
  | nil => exact fun s h => h
  | cons tid rest ih =>
    intro s h
    rw [List.foldl_cons]
    exact ih _ (storeInv_removeTransitionRecord s tid h)

theorem storeInv_delete_screen (s : GraphState) (sid : String) (h : StoreInv s) :
    StoreInv (delete_screen s sid).1 := by
  by_cases hn : sid ∉ s.nodes
  · simp only [delete_screen, if_pos hn]
    exact h
  · simp only [delete_screen, if_neg hn]
    exact storeInv_congr rfl rfl (storeInv_fold_remove _ s h)

theorem storeInv_rebuild (ns : List String) (es : List GEdge)
    (scs : List (String × Screen)) (rest : List (String × Transition)) :
    ∀ (done : List (String × Transition)) (idx : List ((String × String) × List String)),
      StoreInv
        { nodes := ns, edges := es, screens := scs,
          transitions := done, pairIndex := idx } →
      (∀ kv ∈ rest, kv.1 ∉ alistKeys done) →
      (alistKeys rest).Nodup →
      (∀ kv ∈ rest, kv.2.transition_id = some kv.1) →
      StoreInv
        { nodes := ns, edges := es, screens := scs,
          transitions := done ++ rest,
          pairIndex := rest.foldl (fun acc kv =>
            add_pair_reference acc kv.2.from_screen kv.2.to_screen kv.1) idx } := by
  induction rest with
  | nil =>
    intro done idx h _ _ _
    simpa using h
  | cons kv rest' ih =>
    intro done idx h hdisj hnd hid
    have hfresh : kv.1 ∉ alistKeys done := hdisj kv (List.mem_cons_self ..)
    have hstep := storeInv_add_step
      { nodes := ns, edges := es, screens := scs, transitions := done, pairIndex := idx }
      kv.1 kv.2 ns es scs hfresh (hid kv (List.mem_cons_self ..)) h
    rw [show alistInsert done kv.1 kv.2 = done ++ [(kv.1, kv.2)] from
      alistInsert_of_not_mem _ hfresh] at hstep
    rw [alistKeys, List.map_cons, List.nodup_cons] at hnd
    have hmain := ih (done ++ [(kv.1, kv.2)])
      (add_pair_reference idx kv.2.from_screen kv.2.to_screen kv.1) hstep ?_ hnd.2 ?_
    · rw [List.foldl_cons]
      have hshape : done ++ [(kv.1, kv.2)] ++ rest' = done ++ kv :: rest' := by
        rw [List.append_assoc, List.singleton_append, Prod.mk.eta]
      rw [hshape] at hmain
      exact hmain
    · intro kv' hm
      rw [alistKeys, List.map_append, List.mem_append]
      push_neg
      refine ⟨hdisj kv' (List.mem_cons_of_mem _ hm), ?_⟩
      intro hc
      have he : kv'.1 = kv.1 := by simpa [alistKeys] using hc
      apply hnd.1
      rw [← he]
      exact List.mem_map.mpr ⟨kv', hm, rfl⟩
    · intro kv' hm
      exact hid kv' (List.mem_cons_of_mem _ hm)

theorem storeInv_rename_screen (s : GraphState) (a b : String) (h : StoreInv s) :
    StoreInv (rename_screen s a b).1 := by
  by_cases he : a = b
  · simp only [rename_screen, if_pos he]
    exact h
  · by_cases hc : a ∉ s.nodes ∨ b ∈ s.nodes
    · simp only [rename_screen, if_neg he, if_pos hc]
      exact h
    · simp only [rename_screen, if_neg he, if_neg hc]
      have htk := h.2.1
      have hkeys : alistKeys (s.transitions.map
          (fun kv => (kv.1, remapForRename a b kv.1 kv.2))) = alistKeys s.transitions := by
        simp [alistKeys, List.map_map]
      have hbase := storeInv_empty_maps (s.nodes.erase a ++ [b])
        (s.edges.map (fun e =>
          { e with
            src := if e.src = a then b else e.src
            tgt := if e.tgt = a then b else e.tgt }))
        (alistInsert (alistErase s.screens a) b
          (match alistLookup s.screens a with
           | none => build_default_screen b
           | some old_screen => { screen_id := b, imagePath := old_screen.imagePath }))
      have hmain := storeInv_rebuild _ _ _
        (s.transitions.map (fun kv => (kv.1, remapForRename a b kv.1 kv.2))) [] []
        hbase ?_ ?_ ?_
      · simpa using hmain
      · intro kv _
        exact List.not_mem_nil _
      · rw [hkeys]
        exact htk
      · intro kv hm
        rcases List.mem_map.mp hm with ⟨kv0, _, he0⟩
        rw [← he0]
        rfl

theorem storeInv_importScreens (entries : List ScreenEntry) :
    ∀ s : GraphState, StoreInv s → StoreInv (importScreens s entries).1 := by
  induction entries with
  | nil => exact fun s h => h
  | cons entry rest ih =>
    intro s h
    rw [importScreens]
    cases Screen.from_dict entry with
    | error e => exact h
    | ok sc => exact ih _ (storeInv_add_screen s sc h)

theorem storeInv_importTransitions (tds : List TransDict) :
    ∀ s : GraphState, StoreInv s → StoreInv (importTransitions s tds).1 := by
  induction tds with
  | nil => exact fun s h => h
  | cons td rest ih =>
    intro s h
    rw [importTransitions]
    cases hadd : add_transition s (Transition.from_dict td) with
    | mk s' r =>
      have hs' : StoreInv s' := by
        have := storeInv_add_transition s (Transition.from_dict td) h
        rw [hadd] at this
        exact this
      cases r with
      | error e => exact hs'
      | ok tr => exact ih _ hs'

theorem storeInv_initState : StoreInv initState :=
  storeInv_empty_maps [] [] []

theorem storeInv_import_graph (s : GraphState) (d : GraphDoc) :
    StoreInv (import_graph s d).1 := by
  rw [import_graph]
  cases hsc : importScreens initState d.screens with
  | mk s₁ err =>
    have hs₁ : StoreInv s₁ := by
      have := storeInv_importScreens d.screens initState storeInv_initState
      rw [hsc] at this
      exact this
    cases err with
    | some e => exact hs₁
    | none => exact storeInv_importTransitions d.transitions s₁ hs₁

theorem storeInv_applyOp (s : GraphState) (op : StoreOp) (h : StoreInv s) :
    StoreInv (applyOp s op) := by
  cases op with
  | addScreenOp i => exact storeInv_add_screen s _ h
  | addTransitionOp t => exact storeInv_add_transition s t h
  | updateTransitionOp t => exact storeInv_update_transition s t h
  | deleteTransitionOp f t tid => exact storeInv_delete_transition s f t tid h
  | deleteScreenOp i => exact storeInv_delete_screen s i h
  | renameScreenOp a b => exact storeInv_rename_screen s a b h
  | importGraphOp d => exact storeInv_import_graph s d
  | clearGraphOp => exact storeInv_initState

theorem storeInv_applyOps (ops : List StoreOp) : StoreInv (applyOps ops) := by
  rw [applyOps]
  have hgen : ∀ (l : List StoreOp) (s : GraphState), StoreInv s →
      StoreInv (l.foldl applyOp s) := by
    intro l
    induction l with
    | nil => exact fun s h => h
    | cons op rest ih =>
      intro s h
      rw [List.foldl_cons]
      exact ih _ (storeInv_applyOp s op h)
  exact hgen ops initState storeInv_initState

/-! ## Claim C6 -/

/-- Claim C6: after every sequence of public mutator calls starting from the
fresh store, the pair index maps each ordered `(from, to)` pair exactly to
the set of transition ids stored with those endpoints — an id is recorded
under a pair if and only if the primary map holds a transition with that
id and those endpoints, so there are no dangling and no missing ids. -/
theorem C6_theorem (ops : List StoreOp) (f t tid : String) :
    tid ∈ (alistLookup (applyOps ops).pairIndex (f, t)).getD [] ↔
      ∃ tr, alistLookup (applyOps ops).transitions tid = some tr ∧
        tr.from_screen = f ∧ tr.to_screen = t := by
  rw [← idMatches_iff]
  exact syncIff_of_inv (storeInv_applyOps ops) f t tid

/-! ## Claim C7 -/

theorem removeTransitionRecord_keysNodup {s : GraphState} {tid : String}
    (h : TransKeysNodup s) : TransKeysNodup (removeTransitionRecord s tid) := by
  simp only [removeTransitionRecord]
  cases hl : alistLookup s.transitions tid with
  | none => exact h
  | some tr => exact alistKeys_alistErase_nodup h

theorem removeTransitionRecord_mem {s : GraphState} {tid : String}
    (htk : TransKeysNodup s) (kv : String × Transition) :
    kv ∈ (removeTransitionRecord s tid).transitions ↔
      kv ∈ s.transitions ∧ kv.1 ≠ tid := by
  simp only [removeTransitionRecord]
  cases hl : alistLookup s.transitions tid with
  | none =>
    constructor
    · intro hm
      refine ⟨hm, ?_⟩
      intro he
      rw [alistLookup_eq_none_iff] at hl
      apply hl
      rw [← he]
      exact mem_keys_of_mem hm
    · exact fun hp => hp.1
  | some tr => exact mem_alistErase_iff htk

theorem fold_remove_mem (l : List String) :
    ∀ (s : GraphState), TransKeysNodup s → ∀ kv : String × Transition,
      (kv ∈ (l.foldl removeTransitionRecord s).transitions ↔
        kv ∈ s.transitions ∧ kv.1 ∉ l) := by
  induction l with
  | nil =>
    intro s _ kv
    simp
  | cons tid rest ih =>
    intro s htk kv
    rw [List.foldl_cons, ih _ (removeTransitionRecord_keysNodup htk) kv,
      removeTransitionRecord_mem htk kv]
    simp only [List.mem_cons, not_or, and_assoc]

/-- Claim C7: deleting an unregistered screen returns false and changes
nothing; after a successful `delete_screen S`, no transition listed by
`get_all_transitions` has `S` as source or target and the pair index
contains no key whose source or target is `S`. -/
theorem C7_theorem (s : GraphState) (sid : String) (hinv : StoreInv s) :
    (sid ∉ s.nodes → delete_screen s sid = (s, false)) ∧
    ((delete_screen s sid).2 = true →
      (∀ tr ∈ get_all_transitions (delete_screen s sid).1,
        tr.from_screen ≠ sid ∧ tr.to_screen ≠ sid) ∧
      (∀ entry ∈ (delete_screen s sid).1.pairIndex,
        entry.1.1 ≠ sid ∧ entry.1.2 ≠ sid)) := by
  have htk := hinv.2.1
  constructor
  · intro hn
    simp [delete_screen, hn]
  · intro hsucc
    by_cases hn : sid ∉ s.nodes
    · rw [show (delete_screen s sid).2 = false by simp [delete_screen, hn]] at hsucc
      cases hsucc
    · simp only [delete_screen, if_neg hn]
      have hfoldInv := storeInv_fold_remove
        ((s.transitions.filter (fun kv => kv.2.from_screen == sid ||
          kv.2.to_screen == sid)).map (·.1)) s hinv
      constructor
      · intro tr htr
        simp only [get_all_transitions] at htr
        rcases List.mem_map.mp (mem_stableSortBy.mp htr) with ⟨kv, hkv, he⟩
        subst he
        have hkv' := (fold_remove_mem _ s htk kv).mp hkv
        constructor
        · intro he1
          apply hkv'.2
          refine List.mem_map.mpr ⟨kv, List.mem_filter.mpr ⟨hkv'.1, ?_⟩, rfl⟩
          simp [he1]
        · intro he1
          apply hkv'.2
          refine List.mem_map.mpr ⟨kv, List.mem_filter.mpr ⟨hkv'.1, ?_⟩, rfl⟩
          simp [he1]
      · intro entry hentry
        obtain ⟨⟨hp1, _⟩, _, _, _, hne0, _⟩ := hfoldInv
        have hnonempty := hne0 entry hentry
        obtain ⟨tid, htid⟩ := List.exists_mem_of_ne_nil _ hnonempty
        have hm := hp1 entry hentry tid htid
        rcases idMatches_iff.mp hm with ⟨tr, hlk, hf, ht⟩
        have hkv' := (fold_remove_mem _ s htk (tid, tr)).mp
          (alistLookup_eq_some_mem hlk)
        constructor
        · intro he1
          apply hkv'.2
          refine List.mem_map.mpr ⟨(tid, tr), List.mem_filter.mpr ⟨hkv'.1, ?_⟩, rfl⟩
          simp [hf, he1]
        · intro he1
          apply hkv'.2
          refine List.mem_map.mpr ⟨(tid, tr), List.mem_filter.mpr ⟨hkv'.1, ?_⟩, rfl⟩
          simp [ht, he1]

/-! ## Round-trip lemmas (claim C8) -/

theorem screen_from_to_dict (sc : Screen) (h1 : sc.screen_id ≠ "")
    (h2 : sc.imagePath ≠ "") : Screen.from_dict (Screen.to_dict sc) = .ok sc := by
  have himg : pyOrS (some sc.imagePath) none = some sc.imagePath := by
    simp [pyOrS, h2]
  simp only [Screen.to_dict, Screen.from_dict, himg, if_neg h1, if_neg h2]

theorem pyOrS_none_right {o : Option String} (h : o ≠ some "") :
    pyOrS o none = o := by
  cases ho : o with
  | none => rfl
  | some a =>
    have ha : ¬ a = "" := fun he => h (by rw [ho, he])
    simp [pyOrS, ha]

theorem pyOrL_none_left (l : List String) : pyOrL none (some l) = l := by
  cases l <;> rfl

theorem trans_from_to_dict (tr : Transition)
    (hc : tr.conditionIds.isSome = true) (hp : tr.actionParams.isSome = true)
    (ha : tr.action_type ≠ some "") (hd : tr.description ≠ some "") :
    Transition.from_dict (Transition.to_dict tr) = tr := by
  obtain ⟨tid, f, t, at0, d0, w, ci0, ap0⟩ := tr
  obtain ⟨ci, hci⟩ := Option.isSome_iff_exists.mp hc
  obtain ⟨ap, hap⟩ := Option.isSome_iff_exists.mp hp
  simp only at hci hap
  subst hci
  subst hap
  show Transition.mk tid f t (pyOrS at0 none) (pyOrS d0 none) w
      (some (pyOrL none (some ci))) (some ap) =
    Transition.mk tid f t at0 d0 w (some ci) (some ap)
  rw [pyOrS_none_right ha, pyOrS_none_right hd, pyOrL_none_left]

theorem fold_add_screen_transitions (scl : List Screen) :
    ∀ s0 : GraphState, (scl.foldl add_screen s0).transitions = s0.transitions := by
  induction scl with
  | nil => exact fun s0 => rfl
  | cons sc rest ih => exact fun s0 => ih (add_screen s0 sc)

theorem fold_add_screen_pairIndex (scl : List Screen) :
    ∀ s0 : GraphState, (scl.foldl add_screen s0).pairIndex = s0.pairIndex := by
  induction scl with
  | nil => exact fun s0 => rfl
  | cons sc rest ih => exact fun s0 => ih (add_screen s0 sc)

theorem fold_add_screen_nodes_mem (scl : List Screen) :
    ∀ (s0 : GraphState) (x : String),
      x ∈ (scl.foldl add_screen s0).nodes ↔
        x ∈ s0.nodes ∨ ∃ sc ∈ scl, sc.screen_id = x := by
  induction scl with
  | nil =>
    intro s0 x
    simp
  | cons sc rest ih =>
    intro s0 x
    rw [List.foldl_cons, ih (add_screen s0 sc) x]
    have hnodes : ∀ y, y ∈ (add_screen s0 sc).nodes ↔
        y ∈ s0.nodes ∨ y = sc.screen_id := by
      intro y
      simp only [add_screen]
      by_cases hm : sc.screen_id ∈ s0.nodes
      · rw [if_pos hm]
        constructor
        · exact Or.inl
        · rintro (hy | hy)
          · exact hy
          · exact hy ▸ hm
      · rw [if_neg hm, List.mem_append, List.mem_singleton]
    rw [hnodes x]
    constructor
    · rintro ((hx | hx) | ⟨sc', hm, he⟩)
      · exact Or.inl hx
      · exact Or.inr ⟨sc, List.mem_cons_self .., hx.symm⟩
      · exact Or.inr ⟨sc', List.mem_cons_of_mem _ hm, he⟩
    · rintro (hx | ⟨sc', hm, he⟩)
      · exact Or.inl (Or.inl hx)
      · rcases List.mem_cons.mp hm with he' | hm'
        · subst he'
          exact Or.inl (Or.inr he.symm)
        · exact Or.inr ⟨sc', hm', he⟩

theorem fold_add_screen_lookup (scl : List Screen)
    (hnd : (scl.map (·.screen_id)).Nodup) :
    ∀ (s0 : GraphState) (x : String),
      alistLookup (scl.foldl add_screen s0).screens x =
        match scl.find? (fun sc => sc.screen_id == x) with
        | some sc => some sc
        | none => alistLookup s0.screens x := by
  induction scl with
  | nil =>
    intro s0 x
    rfl
  | cons sc rest ih =>
    intro s0 x
    rw [List.map_cons, List.nodup_cons] at hnd
    rw [List.foldl_cons, ih hnd.2 (add_screen s0 sc) x]
    by_cases he : sc.screen_id = x
    · have hfind : rest.find? (fun sc' => sc'.screen_id == x) = none := by
        rw [List.find?_eq_none]
        intro sc' hm hbeq
        apply hnd.1
        rw [he, ← (beq_iff_eq ..).mp hbeq]
        exact List.mem_map.mpr ⟨sc', hm, rfl⟩
      rw [hfind]
      have hfind2 : (sc :: rest).find? (fun sc' => sc'.screen_id == x) = some sc := by
        rw [List.find?_cons_of_pos]
        exact (beq_iff_eq ..).mpr he
      rw [hfind2]
      show alistLookup (alistInsert s0.screens sc.screen_id sc) x = some sc
      rw [← he]
      exact alistInsert_lookup_self ..
    · have hfind2 : (sc :: rest).find? (fun sc' => sc'.screen_id == x) =
          rest.find? (fun sc' => sc'.screen_id == x) := by
        rw [List.find?_cons_of_neg]
        simp [he]
      rw [hfind2]
      cases hr : rest.find? (fun sc' => sc'.screen_id == x) with
      | some sc' => rfl
      | none =>
        show alistLookup (alistInsert s0.screens sc.screen_id sc) x =
          alistLookup s0.screens x
        exact alistInsert_lookup_ne _ _ _ (fun hx => he hx.symm)

theorem importScreens_ok (scl : List Screen)
    (hok : ∀ sc ∈ scl, sc.screen_id ≠ "" ∧ sc.imagePath ≠ "") :
    ∀ s0 : GraphState,
      importScreens s0 (scl.map Screen.to_dict) = (scl.foldl add_screen s0, none) := by
  induction scl with
  | nil => exact fun s0 => rfl
  | cons sc rest ih =>
    intro s0
    rw [List.map_cons, importScreens,
      screen_from_to_dict sc (hok sc (List.mem_cons_self ..)).1
        (hok sc (List.mem_cons_self ..)).2]
    exact ih (fun sc' hm => hok sc' (List.mem_cons_of_mem _ hm)) (add_screen s0 sc)

theorem importTransitions_screens (tds : List TransDict) :
    ∀ s : GraphState, (importTransitions s tds).1.screens = s.screens := by
  induction tds with
  | nil => exact fun s => rfl
  | cons td rest ih =>
    intro s
    rw [importTransitions]
    by_cases hf : (Transition.from_dict td).from_screen ∉ s.nodes
    · simp [add_transition, hf]
    · by_cases ht : (Transition.from_dict td).to_screen ∉ s.nodes
      · simp [add_transition, hf, ht]
      · simp only [add_transition, if_neg hf, if_neg ht]
        exact ih _

theorem filterMap_screens_ids (s : GraphState)
    (hsw : ScreensWF s) (l : List String) (hl : ∀ n ∈ l, n ∈ s.nodes) :
    (l.filterMap (fun n => alistLookup s.screens n)).map (·.screen_id) = l := by
  induction l with
  | nil => rfl
  | cons n rest ih =>
    have hn : n ∈ s.nodes := hl n (List.mem_cons_self ..)
    obtain ⟨sc, hsc⟩ := Option.isSome_iff_exists.mp (hsw.2.2.1 n hn)
    rw [List.filterMap_cons, hsc]
    have hid : sc.screen_id = n :=
      (hsw.2.2.2 (n, sc) (alistLookup_eq_some_mem hsc)).2.1
    rw [List.map_cons, hid, ih (fun m hm => hl m (List.mem_cons_of_mem _ hm))]

theorem mem_get_all_transitions {s : GraphState} {tr : Transition} :
    tr ∈ get_all_transitions s ↔ ∃ kv ∈ s.transitions, kv.2 = tr := by
  rw [get_all_transitions, mem_stableSortBy]
  constructor
  · intro hm
    rcases List.mem_map.mp hm with ⟨kv, hkv, he⟩
    exact ⟨kv, hkv, he⟩
  · rintro ⟨kv, hkv, he⟩
    exact List.mem_map.mpr ⟨kv, hkv, he⟩

theorem importTransitions_roundtrip (trl : List Transition) :
    ∀ s0 : GraphState,
      (∀ tr ∈ trl, Transition.from_dict (Transition.to_dict tr) = tr) →
      (∀ tr ∈ trl, tr.conditionIds.isSome = true ∧ tr.actionParams.isSome = true) →
      (∀ tr ∈ trl, tr.from_screen ∈ s0.nodes ∧ tr.to_screen ∈ s0.nodes) →
      (∀ tr ∈ trl, ∃ k, tr.transition_id = some k ∧ k ≠ "" ∧
          alistLookup s0.transitions k = none) →
      (trl.map (fun tr => tr.transition_id.getD "")).Nodup →
      (importTransitions s0 (trl.map Transition.to_dict)).2 = none ∧
      (∀ k : String,
        alistLookup (importTransitions s0 (trl.map Transition.to_dict)).1.transitions
            k =
          (match trl.find? (fun tr => tr.transition_id == some k) with
           | some tr => some tr
           | none => alistLookup s0.transitions k)) := by
  induction trl with
  | nil =>
    intro s0 _ _ _ _ _
    exact ⟨rfl, fun k => rfl⟩
  | cons tr rest ih =>
    intro s0 hrt hopt hnodes hfresh hnd
    obtain ⟨k, hk, hk0, hkfresh⟩ := hfresh tr (List.mem_cons_self ..)
    have h4 : ¬ tr.from_screen ∉ s0.nodes := fun hc =>
      hc (hnodes tr (List.mem_cons_self ..)).1
    have h5 : ¬ tr.to_screen ∉ s0.nodes := fun hc =>
      hc (hnodes tr (List.mem_cons_self ..)).2
    obtain ⟨ci, hci⟩ := Option.isSome_iff_exists.mp (hopt tr (List.mem_cons_self ..)).1
    obtain ⟨ap, hap⟩ := Option.isSome_iff_exists.mp (hopt tr (List.mem_cons_self ..)).2
    have hisS : (alistLookup s0.transitions k).isSome = false := by rw [hkfresh]; rfl
    have hadd : add_transition s0 tr =
        ({ s0 with
             edges := s0.edges ++
               [{ src := tr.from_screen, tgt := tr.to_screen, key := k,
                  weight := tr.weight }],
             transitions := alistInsert s0.transitions k tr,
             pairIndex := add_pair_reference s0.pairIndex tr.from_screen
               tr.to_screen k }, .ok tr) := by
      obtain ⟨tid0, f0, t0, a0, d0, w0, ci0, ap0⟩ := tr
      simp only at hk hci hap
      subst hk
      subst hci
      subst hap
      simp only [add_transition, if_neg h4, if_neg h5, hisS, hk0, Option.getD_some,
        Bool.false_eq_true, if_false, ite_false, ite_true]
    rw [List.map_cons, importTransitions, hrt tr (List.mem_cons_self ..), hadd]
    rw [List.map_cons, List.nodup_cons] at hnd
    have hknd : tr.transition_id.getD "" = k := by rw [hk]; rfl
    have hrest := ih
      { s0 with
          edges := s0.edges ++
            [{ src := tr.from_screen, tgt := tr.to_screen, key := k,
               weight := tr.weight }],
          transitions := alistInsert s0.transitions k tr,
          pairIndex := add_pair_reference s0.pairIndex tr.from_screen tr.to_screen k }
      (fun tr' hm => hrt tr' (List.mem_cons_of_mem _ hm))
      (fun tr' hm => hopt tr' (List.mem_cons_of_mem _ hm))
      (fun tr' hm => hnodes tr' (List.mem_cons_of_mem _ hm))
      ?_ hnd.2
    · refine ⟨hrest.1, ?_⟩
      intro k'
      rw [hrest.2 k']
      by_cases hkk : k = k'
      · subst hkk
        have hfind : rest.find? (fun tr' => tr'.transition_id == some k) = none := by
          rw [List.find?_eq_none]
          intro tr' hm hbeq
          apply hnd.1
          have hth : tr'.transition_id = some k := (beq_iff_eq ..).mp hbeq
          rw [hknd, show k = tr'.transition_id.getD "" from by rw [hth]; rfl]
          exact List.mem_map.mpr ⟨tr', hm, rfl⟩
        rw [hfind]
        have hfind2 : (tr :: rest).find? (fun tr' => tr'.transition_id == some k) =
            some tr := by
          rw [List.find?_cons_of_pos]
          rw [hk]
          exact (beq_iff_eq ..).mpr rfl
        rw [hfind2]
        exact alistInsert_lookup_self ..
      · have hfind2 : (tr :: rest).find? (fun tr' => tr'.transition_id == some k') =
            rest.find? (fun tr' => tr'.transition_id == some k') := by
          rw [List.find?_cons_of_neg]
          rw [hk]
          simp [hkk]
        rw [hfind2]
        cases hr : rest.find? (fun tr' => tr'.transition_id == some k') with
        | some tr'' => rfl
        | none =>
          exact alistInsert_lookup_ne _ _ _ (fun hc => hkk hc.symm)
    · intro tr' hm
      obtain ⟨k', hk', hk'0, hk'fresh⟩ := hfresh tr' (List.mem_cons_of_mem _ hm)
      refine ⟨k', hk', hk'0, ?_⟩
      have hkk : k' ≠ k := by
        intro he
        apply hnd.1
        rw [hknd, show k = tr'.transition_id.getD "" from by rw [hk', he]; rfl]
        exact List.mem_map.mpr ⟨tr', hm, rfl⟩
      show alistLookup (alistInsert s0.transitions k tr) k' = none
      rw [alistInsert_lookup_ne _ _ _ hkk]
      exact hk'fresh

/-- Claim C8 (amended): importing the export of a store whose screens are
well-formed and whose transitions all carry a non-empty action type and a
non-empty description reproduces an equivalent store — the import raises
nothing, and afterwards every screen id resolves to the same screen
record and every transition id to the same transition record.  The
non-emptiness provisos are forced by the counterexample below: an
exported empty description is normalized to null on re-import. -/
theorem C8_theorem (s : GraphState) (hsw : ScreensWF s) (htw : TransitionsWF s) :
    (import_graph s (export_graph s)).2 = none ∧
    (∀ x, get_screen (import_graph s (export_graph s)).1 x = get_screen s x) ∧
    (∀ k, alistLookup (import_graph s (export_graph s)).1.transitions k =
      alistLookup s.transitions k) := by
  have hscreens_ok : ∀ sc ∈ get_all_screens s, sc.screen_id ≠ "" ∧ sc.imagePath ≠ "" := by
    intro sc hm
    rcases List.mem_filterMap.mp hm with ⟨n, hn, hlk⟩
    have hw := hsw.2.2.2 (n, sc) (alistLookup_eq_some_mem hlk)
    exact ⟨by rw [hw.2.1]; exact hw.2.2.1, hw.2.2.2⟩
  have hids : (get_all_screens s).map (·.screen_id) = s.nodes :=
    filterMap_screens_ids s hsw s.nodes (fun n hn => hn)
  have hndscreens : ((get_all_screens s).map (·.screen_id)).Nodup := by
    rw [hids]
    exact hsw.2.1
  have himpS := importScreens_ok (get_all_screens s) hscreens_ok initState
  have hwf_of_mem : ∀ tr ∈ get_all_transitions s, ∃ kv ∈ s.transitions, kv.2 = tr :=
    fun tr hm => mem_get_all_transitions.mp hm
  have hrt : ∀ tr ∈ get_all_transitions s,
      Transition.from_dict (Transition.to_dict tr) = tr := by
    intro tr hm
    rcases hwf_of_mem tr hm with ⟨kv, hkv, he⟩
    have hw := htw.2 kv hkv
    subst he
    exact trans_from_to_dict kv.2 hw.2.2.2.2.1 hw.2.2.2.2.2.1 hw.2.2.2.2.2.2.1
      hw.2.2.2.2.2.2.2
  have hopt : ∀ tr ∈ get_all_transitions s,
      tr.conditionIds.isSome = true ∧ tr.actionParams.isSome = true := by
    intro tr hm
    rcases hwf_of_mem tr hm with ⟨kv, hkv, he⟩
    have hw := htw.2 kv hkv
    subst he
    exact ⟨hw.2.2.2.2.1, hw.2.2.2.2.2.1⟩
  have hs₁nodes : ∀ x, x ∈ ((get_all_screens s).foldl add_screen initState).nodes ↔
      x ∈ s.nodes := by
    intro x
    rw [fold_add_screen_nodes_mem (get_all_screens s) initState x]
    constructor
    · rintro (hx | ⟨sc, hm, he⟩)
      · cases hx
      · rcases List.mem_filterMap.mp hm with ⟨n, hn, hlk⟩
        have hid : sc.screen_id = n := (hsw.2.2.2 (n, sc) (alistLookup_eq_some_mem hlk)).2.1
        rw [← he, hid]
        exact hn
    · intro hx
      obtain ⟨sc, hsc⟩ := Option.isSome_iff_exists.mp (hsw.2.2.1 x hx)
      refine Or.inr ⟨sc, List.mem_filterMap.mpr ⟨x, hx, hsc⟩, ?_⟩
      exact (hsw.2.2.2 (x, sc) (alistLookup_eq_some_mem hsc)).2.1
  have hnodesT : ∀ tr ∈ get_all_transitions s,
      tr.from_screen ∈ ((get_all_screens s).foldl add_screen initState).nodes ∧
      tr.to_screen ∈ ((get_all_screens s).foldl add_screen initState).nodes := by
    intro tr hm
    rcases hwf_of_mem tr hm with ⟨kv, hkv, he⟩
    have hw := htw.2 kv hkv
    subst he
    exact ⟨(hs₁nodes _).mpr hw.2.2.1, (hs₁nodes _).mpr hw.2.2.2.1⟩
  have hs₁trans : ((get_all_screens s).foldl add_screen initState).transitions = [] :=
    fold_add_screen_transitions (get_all_screens s) initState
  have hfresh : ∀ tr ∈ get_all_transitions s, ∃ k, tr.transition_id = some k ∧
      k ≠ "" ∧ alistLookup ((get_all_screens s).foldl add_screen
        initState).transitions k = none := by
    intro tr hm
    rcases hwf_of_mem tr hm with ⟨kv, hkv, he⟩
    have hw := htw.2 kv hkv
    subst he
    exact ⟨kv.1, hw.1, hw.2.1, by rw [hs₁trans]; rfl⟩
  have hndids : ((get_all_transitions s).map
      (fun tr => tr.transition_id.getD "")).Nodup := by
    have hperm : List.Perm ((get_all_transitions s).map
        (fun tr => tr.transition_id.getD ""))
        ((s.transitions.map (·.2)).map (fun tr => tr.transition_id.getD "")) :=
      (stableSortBy_perm _ _).map _
    rw [List.Perm.nodup_iff hperm, List.map_map]
    have hcongr : s.transitions.map
        ((fun tr => tr.transition_id.getD "") ∘ (·.2)) = s.transitions.map (·.1) := by
      apply List.map_congr_left
      intro kv hkv
      show kv.2.transition_id.getD "" = kv.1
      rw [(htw.2 kv hkv).1]
      rfl
    rw [hcongr]
    exact htw.1
  have hmain := importTransitions_roundtrip (get_all_transitions s)
    ((get_all_screens s).foldl add_screen initState) hrt hopt hnodesT hfresh hndids
  simp only [import_graph, export_graph, himpS]
  refine ⟨hmain.1, ?_, ?_⟩
  · intro x
    have hscrEq : (importTransitions ((get_all_screens s).foldl add_screen initState)
        ((get_all_transitions s).map Transition.to_dict)).1.screens =
        ((get_all_screens s).foldl add_screen initState).screens :=
      importTransitions_screens _ _
    show alistLookup _ x = alistLookup s.screens x
    rw [hscrEq, fold_add_screen_lookup _ hndscreens initState x]
    cases hf : (get_all_screens s).find? (fun sc => sc.screen_id == x) with
    | some sc =>
      have hpred := List.find?_some hf
      have hmem := List.mem_of_find?_eq_some hf
      rcases List.mem_filterMap.mp hmem with ⟨n, hn, hlk⟩
      have hid : sc.screen_id = n :=
        (hsw.2.2.2 (n, sc) (alistLookup_eq_some_mem hlk)).2.1
      have hx : n = x := by
        rw [← hid]
        exact (beq_iff_eq ..).mp hpred
      rw [← hx, hlk]
    | none =>
      cases hl : alistLookup s.screens x with
      | none => rfl
      | some sc =>
        have hmem : sc ∈ get_all_screens s := by
          apply List.mem_filterMap.mpr
          exact ⟨x, (hsw.2.2.2 (x, sc) (alistLookup_eq_some_mem hl)).1, hl⟩
        have hid : sc.screen_id = x :=
          (hsw.2.2.2 (x, sc) (alistLookup_eq_some_mem hl)).2.1
        have hcontra := List.find?_eq_none.mp hf sc hmem
        rw [hid] at hcontra
        exact absurd ((beq_iff_eq ..).mpr rfl) hcontra
  · intro k
    rw [hmain.2 k]
    cases hf : (get_all_transitions s).find? (fun tr => tr.transition_id == some k) with
    | some tr =>
      have hpred := List.find?_some hf
      have hmem := List.mem_of_find?_eq_some hf
      rcases mem_get_all_transitions.mp hmem with ⟨kv, hkv, he⟩
      have hw := htw.2 kv hkv
      have hidk : kv.1 = k := by
        have h1 : tr.transition_id = some k := (beq_iff_eq ..).mp hpred
        rw [← he, hw.1] at h1
        injection h1
      rw [← hidk]
      rw [alistLookup_of_mem_nodup htw.1 (by rw [Prod.mk.eta]; exact hkv)]
      rw [he]
    | none =>
      rw [hs₁trans]
      cases hl : alistLookup s.transitions k with
      | none => rfl
      | some v =>
        have hmem : v ∈ get_all_transitions s :=
          mem_get_all_transitions.mpr ⟨(k, v), alistLookup_eq_some_mem hl, rfl⟩
        have hcontra := List.find?_eq_none.mp hf v hmem
        have hw := htw.2 (k, v) (alistLookup_eq_some_mem hl)
        rw [show v.transition_id = some k from hw.1] at hcontra
        exact absurd ((beq_iff_eq ..).mpr rfl) hcontra

/-- Witness for claim C8: round-tripping the two-parallel-transition store. -/
theorem C8_witness :
    (ScreensWF parallelState ∧ TransitionsWF parallelState) ∧
    ((import_graph parallelState (export_graph parallelState)).2 = none ∧
     (∀ x, get_screen (import_graph parallelState
         (export_graph parallelState)).1 x = get_screen parallelState x) ∧
     (∀ k, alistLookup (import_graph parallelState
           (export_graph parallelState)).1.transitions k =
       alistLookup parallelState.transitions k)) :=
  ⟨⟨by decide, by decide⟩, C8_theorem parallelState (by decide) (by decide)⟩

/-- Witness for claim C7: deleting screen `A` from the
two-parallel-transition store. -/
theorem C7_witness :
    StoreInv parallelState ∧
    (("A" ∉ parallelState.nodes → delete_screen parallelState "A" =
        (parallelState, false)) ∧
     ((delete_screen parallelState "A").2 = true →
       (∀ tr ∈ get_all_transitions (delete_screen parallelState "A").1,
         tr.from_screen ≠ "A" ∧ tr.to_screen ≠ "A") ∧
       (∀ entry ∈ (delete_screen parallelState "A").1.pairIndex,
         entry.1.1 ≠ "A" ∧ entry.1.2 ≠ "A"))) :=
  ⟨by decide, C7_theorem parallelState "A" (by decide)⟩

/-! ## Path-enumeration lemmas (claims C1, C4, C9) -/

theorem mem_outEdges {s : GraphState} {u : String} {e : GEdge} :
    e ∈ outEdges s u ↔ e ∈ s.edges ∧ e.src = u := by
  simp only [outEdges]
  constructor
  · intro h
    rcases List.mem_flatMap.mp h with ⟨v, _, he⟩
    have h1 := List.mem_filter.mp he
    have h2 := List.mem_filter.mp h1.1
    exact ⟨h2.1, (beq_iff_eq ..).mp h2.2⟩
  · rintro ⟨h1, h2⟩
    apply List.mem_flatMap.mpr
    refine ⟨e.tgt, ?_, ?_⟩
    · apply mem_fdedup.mpr
      exact List.mem_map.mpr ⟨e, List.mem_filter.mpr ⟨h1, (beq_iff_eq ..).mpr h2⟩, rfl⟩
    · exact List.mem_filter.mpr
        ⟨List.mem_filter.mpr ⟨h1, (beq_iff_eq ..).mpr h2⟩, (beq_iff_eq ..).mpr rfl⟩

theorem validChain_nil_iff {s : GraphState} {f t : String} :
    validChain s f t [] = true ↔ f = t := by
  simp [validChain]

theorem validChain_cons_iff {s : GraphState} {f t : String} {e : GEdge}
    {rest : List GEdge} :
    validChain s f t (e :: rest) = true ↔
      e ∈ s.edges ∧ e.src = f ∧ validChain s e.tgt t rest = true := by
  constructor
  · intro h
    simp only [validChain, Bool.and_eq_true] at h
    exact ⟨List.elem_iff.mp h.1.1, (beq_iff_eq ..).mp h.1.2, h.2⟩
  · rintro ⟨h1, h2, h3⟩
    simp only [validChain, Bool.and_eq_true]
    exact ⟨⟨List.elem_iff.mpr h1, (beq_iff_eq ..).mpr h2⟩, h3⟩

theorem validChain_mem_edges {s : GraphState} :
    ∀ {p : List GEdge} {f t : String}, validChain s f t p = true →
      ∀ e ∈ p, e ∈ s.edges := by
  intro p
  induction p with
  | nil => intro f t _ e he; cases he
  | cons a rest ih =>
    intro f t h e he
    rw [validChain_cons_iff] at h
    rcases List.mem_cons.mp he with he' | hm
    · rw [he']; exact h.1
    · exact ih h.2.2 e hm

theorem validChain_end_mem_tgts {s : GraphState} :
    ∀ {p : List GEdge} {f t : String}, validChain s f t p = true → p ≠ [] →
      t ∈ p.map (·.tgt) := by
  intro p
  induction p with
  | nil => intro f t _ hne; exact absurd rfl hne
  | cons a rest ih =>
    intro f t h _
    rw [validChain_cons_iff] at h
    rw [List.map_cons]
    by_cases hr : rest = []
    · subst hr
      have hat := validChain_nil_iff.mp h.2.2
      rw [← hat]
      exact List.mem_cons_self _ _
    · exact List.mem_cons_of_mem _ (ih h.2.2 hr)

theorem validChain_snoc {s : GraphState} :
    ∀ {p : List GEdge} {f c : String} {e : GEdge},
      validChain s f c p = true → e ∈ s.edges → e.src = c →
      validChain s f e.tgt (p ++ [e]) = true := by
  intro p
  induction p with
  | nil =>
    intro f c e h he hsrc
    rw [validChain_nil_iff] at h
    subst h
    rw [List.nil_append, validChain_cons_iff]
    exact ⟨he, hsrc, validChain_nil_iff.mpr rfl⟩
  | cons a rest ih =>
    intro f c e h he hsrc
    rw [validChain_cons_iff] at h
    rw [List.cons_append, validChain_cons_iff]
    exact ⟨h.1, h.2.1, ih h.2.2 he hsrc⟩

theorem pathNodes_append (f : String) (p q : List GEdge) :
    pathNodes f (p ++ q) = pathNodes f p ++ q.map (·.tgt) := by
  simp [pathNodes]

theorem pathReadWeight_append (p q : List GEdge) :
    pathReadWeight (p ++ q) = pathReadWeight p + pathReadWeight q := by
  simp [pathReadWeight]

theorem readWeight_eq_of_pos {e : GEdge} (h : 1 ≤ e.weight) :
    readWeight e = e.weight := by
  have hne : e.weight ≠ 0 := by omega
  rw [readWeight, if_neg hne]

theorem pathReadWeight_eq_pathWeight {s : GraphState} (hw : WeightsPos s) :
    ∀ {p : List GEdge}, (∀ e ∈ p, e ∈ s.edges) → pathReadWeight p = pathWeight p := by
  intro p
  induction p with
  | nil => intro _; rfl
  | cons a rest ih =>
    intro h
    have ha := hw a (h a (List.mem_cons_self _ _))
    have hrest := ih (fun e he => h e (List.mem_cons_of_mem _ he))
    simp only [pathReadWeight, pathWeight, List.map_cons, List.sum_cons] at *
    rw [readWeight_eq_of_pos ha, hrest]

theorem pathWeight_nonneg {s : GraphState} (hw : WeightsPos s) :
    ∀ {p : List GEdge}, (∀ e ∈ p, e ∈ s.edges) → 0 ≤ pathWeight p := by
  intro p
  induction p with
  | nil => intro _; simp [pathWeight]
  | cons a rest ih =>
    intro h
    have ha := hw a (h a (List.mem_cons_self _ _))
    have hrest := ih (fun e he => h e (List.mem_cons_of_mem _ he))
    simp only [pathWeight, List.map_cons, List.sum_cons] at *
    omega

theorem simplePathsAux_sound (s : GraphState) (t : String) :
    ∀ (fuel : Nat) (cur : String) (visited : List String) (p : List GEdge),
      p ∈ simplePathsAux s t fuel cur visited →
      validChain s cur t p = true ∧ (∀ e ∈ p, e.tgt ∉ visited) ∧
        (p.map (·.tgt)).Nodup := by
  intro fuel
  induction fuel with
  | zero => intro cur visited p h; cases h
  | succ n ih =>
    intro cur visited p h
    simp only [simplePathsAux] at h
    by_cases hct : cur = t
    · rw [if_pos hct] at h
      have hp : p = [] := List.mem_singleton.mp h
      subst hp
      refine ⟨validChain_nil_iff.mpr hct, ?_, List.nodup_nil⟩
      intro e he; cases he
    · rw [if_neg hct] at h
      rcases List.mem_flatMap.mp h with ⟨e, he, hp⟩
      by_cases hv : e.tgt ∈ visited
      · rw [if_pos hv] at hp; cases hp
      · rw [if_neg hv] at hp
        rcases List.mem_map.mp hp with ⟨p', hp', hpp⟩
        subst hpp
        obtain ⟨hc', hnv', hnd'⟩ := ih e.tgt (e.tgt :: visited) p' hp'
        have hout := mem_outEdges.mp he
        refine ⟨?_, ?_, ?_⟩
        · rw [validChain_cons_iff]
          exact ⟨hout.1, hout.2, hc'⟩
        · intro e' he'
          rcases List.mem_cons.mp he' with he'' | hm
          · rw [he'']; exact hv
          · intro hvm
            exact hnv' e' hm (List.mem_cons_of_mem _ hvm)
        · rw [List.map_cons, List.nodup_cons]
          refine ⟨?_, hnd'⟩
          intro hmem
          rcases List.mem_map.mp hmem with ⟨e'', he'', htgt⟩
          exact hnv' e'' he'' (by rw [htgt]; exact List.mem_cons_self _ _)

theorem simplePathsAux_complete (s : GraphState) (t : String) :
    ∀ (p : List GEdge) (fuel : Nat) (cur : String) (visited : List String),
      validChain s cur t p = true →
      (∀ e ∈ p, e.tgt ∉ visited) →
      cur ∉ p.map (·.tgt) →
      (p.map (·.tgt)).Nodup →
      p.length + 1 ≤ fuel →
      p ∈ simplePathsAux s t fuel cur visited := by
  intro p
  induction p with
  | nil =>
    intro fuel cur visited hc _ _ _ hfuel
    cases fuel with
    | zero => omega
    | succ n =>
      simp only [simplePathsAux]
      rw [if_pos (validChain_nil_iff.mp hc)]
      exact List.mem_singleton.mpr rfl
  | cons e rest ih =>
    intro fuel cur visited hc0 hvis hcur hnd hfuel
    have hc := hc0
    rw [validChain_cons_iff] at hc
    cases fuel with
    | zero => simp at hfuel
    | succ n =>
      have hct : cur ≠ t := by
        intro hcteq
        apply hcur
        rw [hcteq]
        exact validChain_end_mem_tgts hc0 (List.cons_ne_nil _ _)
      simp only [simplePathsAux]
      rw [if_neg hct]
      apply List.mem_flatMap.mpr
      refine ⟨e, mem_outEdges.mpr ⟨hc.1, hc.2.1⟩, ?_⟩
      have hev : e.tgt ∉ visited := hvis e (List.mem_cons_self _ _)
      rw [if_neg hev]
      apply List.mem_map.mpr
      refine ⟨rest, ?_, rfl⟩
      rw [List.map_cons, List.nodup_cons] at hnd
      apply ih n e.tgt (e.tgt :: visited) hc.2.2 ?_ hnd.1 hnd.2 ?_
      · intro e' he' hmem
        rcases List.mem_cons.mp hmem with heq | hvm
        · exact hnd.1 (heq ▸ List.mem_map.mpr ⟨e', he', rfl⟩)
        · exact hvis e' (List.mem_cons_of_mem _ he') hvm
      · simp only [List.length_cons] at hfuel
        omega

theorem simple_of_parts {s : GraphState} {f t : String} {p : List GEdge}
    (hc : validChain s f t p = true) (hnv : ∀ e ∈ p, e.tgt ∉ [f])
    (hnd : (p.map (·.tgt)).Nodup) : isSimpleEdgePath s f t p = true := by
  simp only [isSimpleEdgePath, Bool.and_eq_true, decide_eq_true_eq]
  refine ⟨hc, ?_⟩
  rw [pathNodes, List.nodup_cons]
  refine ⟨?_, hnd⟩
  intro hmem
  rcases List.mem_map.mp hmem with ⟨e, he, htgt⟩
  exact hnv e he (by rw [htgt]; exact List.mem_singleton.mpr rfl)

theorem mem_simplePathsFull_iff {s : GraphState} {f t : String} {p : List GEdge}
    (hcl : EdgesClosed s) :
    p ∈ simplePathsFull s f t ↔ isSimpleEdgePath s f t p = true := by
  constructor
  · intro h
    obtain ⟨hc, hnv, hnd⟩ := simplePathsAux_sound s t _ f [f] p h
    exact simple_of_parts hc hnv hnd
  · intro h
    simp only [isSimpleEdgePath, Bool.and_eq_true, decide_eq_true_eq] at h
    obtain ⟨hc, hnd⟩ := h
    rw [pathNodes, List.nodup_cons] at hnd
    apply simplePathsAux_complete s t p (s.nodes.length + 1) f [f] hc ?_ hnd.1 hnd.2 ?_
    · intro e he hmem
      have heq : e.tgt = f := List.mem_singleton.mp hmem
      exact hnd.1 (heq ▸ List.mem_map.mpr ⟨e, he, rfl⟩)
    · have hsub : ∀ x ∈ p.map (·.tgt), x ∈ s.nodes := by
        intro x hx
        rcases List.mem_map.mp hx with ⟨e, he, hex⟩
        rw [← hex]
        exact (hcl e (validChain_mem_edges hc e he)).2
      have hsp : List.Subperm (p.map (·.tgt)) s.nodes :=
        List.subperm_of_subset hnd.2 hsub
      have hlen := hsp.length_le
      rw [List.length_map] at hlen
      omega

theorem nxSimplePathsAux_sound (s : GraphState) (t : String) :
    ∀ (fuel cutoff : Nat) (cur : String) (visited : List String) (p : List GEdge),
      p ∈ nxSimplePathsAux s t fuel cutoff cur visited →
      validChain s cur t p = true ∧ (∀ e ∈ p, e.tgt ∉ visited) ∧
        (p.map (·.tgt)).Nodup := by
  intro fuel
  induction fuel with
  | zero => intro cutoff cur visited p h; cases h
  | succ n ih =>
    intro cutoff cur visited p h
    simp only [nxSimplePathsAux] at h
    by_cases hc0 : cutoff = 0
    · rw [if_pos hc0] at h; cases h
    · rw [if_neg hc0] at h
      rcases List.mem_flatMap.mp h with ⟨e, he, hp⟩
      have hout := mem_outEdges.mp he
      by_cases hv : e.tgt ∈ visited
      · rw [if_pos hv] at hp; cases hp
      · rw [if_neg hv] at hp
        by_cases htt : e.tgt = t
        · rw [if_pos htt] at hp
          have hpe : p = [e] := List.mem_singleton.mp hp
          subst hpe
          refine ⟨?_, ?_, ?_⟩
          · rw [validChain_cons_iff]
            exact ⟨hout.1, hout.2, validChain_nil_iff.mpr htt⟩
          · intro e' he'
            have he'' : e' = e := List.mem_singleton.mp he'
            rw [he'']; exact hv
          · simp
        · rw [if_neg htt] at hp
          rcases List.mem_map.mp hp with ⟨p', hp', hpp⟩
          subst hpp
          obtain ⟨hc', hnv', hnd'⟩ := ih (cutoff - 1) e.tgt (e.tgt :: visited) p' hp'
          refine ⟨?_, ?_, ?_⟩
          · rw [validChain_cons_iff]
            exact ⟨hout.1, hout.2, hc'⟩
          · intro e' he'
            rcases List.mem_cons.mp he' with he'' | hm
            · rw [he'']; exact hv
            · intro hvm
              exact hnv' e' hm (List.mem_cons_of_mem _ hvm)
          · rw [List.map_cons, List.nodup_cons]
            refine ⟨?_, hnd'⟩
            intro hmem
            rcases List.mem_map.mp hmem with ⟨e'', he'', htgt⟩
            exact hnv' e'' he'' (by rw [htgt]; exact List.mem_cons_self _ _)

theorem nx_mem_simple {s : GraphState} {f t : String} {cutoff : Nat} {p : List GEdge}
    (h : p ∈ nx_all_simple_edge_paths s f t cutoff) :
    isSimpleEdgePath s f t p = true := by
  rw [nx_all_simple_edge_paths] at h
  rcases List.mem_append.mp h with h | h
  · by_cases hft : f = t
    · rw [if_pos hft] at h
      have hp : p = [] := List.mem_singleton.mp h
      subst hp
      apply simple_of_parts (validChain_nil_iff.mpr hft) ?_ List.nodup_nil
      intro e he; cases he
    · rw [if_neg hft] at h; cases h
  · obtain ⟨hc, hnv, hnd⟩ := nxSimplePathsAux_sound s t _ _ f [f] p h
    exact simple_of_parts hc hnv hnd

theorem validChain_end_mem {s : GraphState} :
    ∀ {p : List GEdge} {f t : String}, validChain s f t p = true →
      t ∈ pathNodes f p := by
  intro p
  induction p with
  | nil =>
    intro f t h
    rw [validChain_nil_iff] at h
    rw [← h]
    exact List.mem_cons_self _ _
  | cons a rest ih =>
    intro f t h
    rw [validChain_cons_iff] at h
    show t ∈ f :: (a :: rest).map (·.tgt)
    rw [List.map_cons]
    exact List.mem_cons_of_mem _ (ih h.2.2)

theorem strLt_irrefl : ∀ (a : List Char), strLt a a = false := by
  intro a
  induction a with
  | nil => rfl
  | cons c cs ih =>
    rw [strLt, if_pos rfl]
    exact ih

theorem strLt_trichotomy : ∀ (a b : List Char),
    strLt a b = true ∨ a = b ∨ strLt b a = true := by
  intro a
  induction a with
  | nil =>
    intro b
    cases b with
    | nil => right; left; rfl
    | cons d ds => left; rfl
  | cons c cs ih =>
    intro b
    cases b with
    | nil => right; right; rfl
    | cons d ds =>
      by_cases hcd : c = d
      · subst hcd
        rcases ih ds with h | h | h
        · left
          rw [strLt, if_pos rfl]
          exact h
        · right; left; rw [h]
        · right; right
          rw [strLt, if_pos rfl]
          exact h
      · rcases lt_trichotomy c d with h | h | h
        · left
          simp only [strLt, if_neg hcd]
          exact decide_eq_true h
        · exact absurd h hcd
        · right; right
          have hdc : ¬ d = c := fun he => hcd he.symm
          simp only [strLt, if_neg hdc]
          exact decide_eq_true h

theorem strLt_trans : ∀ (a b c : List Char),
    strLt a b = true → strLt b c = true → strLt a c = true := by
  intro a
  induction a with
  | nil =>
    intro b c hab hbc
    cases c with
    | nil =>
      cases b with
      | nil => exact hbc
      | cons d ds => simp [strLt] at hbc
    | cons e es => rfl
  | cons c' cs ih =>
    intro b c hab hbc
    cases b with
    | nil => simp [strLt] at hab
    | cons d ds =>
      cases c with
      | nil => simp [strLt] at hbc
      | cons e es =>
        by_cases hcd : c' = d
        · subst hcd
          rw [strLt, if_pos rfl] at hab
          by_cases hde : c' = e
          · subst hde
            rw [strLt, if_pos rfl] at hbc ⊢
            exact ih ds es hab hbc
          · simp only [strLt, if_neg hde] at hbc ⊢
            exact hbc
        · simp only [strLt, if_neg hcd, decide_eq_true_eq] at hab
          by_cases hde : d = e
          · subst hde
            simp only [strLt, if_neg hcd, decide_eq_true_eq]
            exact hab
          · simp only [strLt, if_neg hde, decide_eq_true_eq] at hbc
            have hlt : c' < e := lt_trans hab hbc
            have hne : ¬ c' = e := ne_of_lt hlt
            simp only [strLt, if_neg hne, decide_eq_true_eq]
            exact hlt

theorem listLeStr_total : ∀ (a b : List String),
    listLeStr a b = true ∨ listLeStr b a = true := by
  intro a
  induction a with
  | nil => intro b; left; rfl
  | cons x ra ih =>
    intro b
    cases b with
    | nil => right; rfl
    | cons y rb =>
      by_cases hxy : x = y
      · subst hxy
        simp only [listLeStr, if_pos rfl]
        exact ih rb
      · rcases strLt_trichotomy x.data y.data with h | h | h
        · left
          simp only [listLeStr, if_neg hxy]
          exact h
        · exact absurd (String.ext h) hxy
        · right
          have hyx : ¬ y = x := fun he => hxy he.symm
          simp only [listLeStr, if_neg hyx]
          exact h

theorem listLeStr_trans : ∀ (a b c : List String),
    listLeStr a b = true → listLeStr b c = true → listLeStr a c = true := by
  intro a
  induction a with
  | nil => intro b c _ _; rfl
  | cons x ra ih =>
    intro b c hab hbc
    cases b with
    | nil => simp [listLeStr] at hab
    | cons y rb =>
      cases c with
      | nil => simp [listLeStr] at hbc
      | cons z rc =>
        by_cases hxy : x = y
        · subst hxy
          rw [listLeStr, if_pos rfl] at hab
          by_cases hyz : x = z
          · subst hyz
            rw [listLeStr, if_pos rfl] at hbc ⊢
            exact ih rb rc hab hbc
          · simp only [listLeStr, if_neg hyz] at hbc ⊢
            exact hbc
        · simp only [listLeStr, if_neg hxy] at hab
          by_cases hyz : y = z
          · subst hyz
            simp only [listLeStr, if_neg hxy]
            exact hab
          · simp only [listLeStr, if_neg hyz] at hbc
            have hlt : strLt x.data z.data = true := strLt_trans _ _ _ hab hbc
            have hne : ¬ x = z := by
              intro he
              subst he
              have hcontra := strLt_trans _ _ _ hab hbc
              rw [strLt_irrefl] at hcontra
              cases hcontra
            simp only [listLeStr, if_neg hne]
            exact hlt

theorem shortKeyLe_total (r₁ r₂ : PathResult) :
    shortKeyLe r₁ r₂ = true ∨ shortKeyLe r₂ r₁ = true := by
  by_cases h : r₁.path.length = r₂.path.length
  · rw [shortKeyLe, if_pos h, shortKeyLe, if_pos h.symm]
    exact listLeStr_total _ _
  · rcases Nat.lt_or_ge r₁.path.length r₂.path.length with hlt | hge
    · left
      rw [shortKeyLe, if_neg h]
      exact decide_eq_true hlt
    · right
      have hne : r₂.path.length ≠ r₁.path.length := fun he => h he.symm
      rw [shortKeyLe, if_neg hne]
      apply decide_eq_true
      omega

theorem shortKeyLe_trans (r₁ r₂ r₃ : PathResult) (h12 : shortKeyLe r₁ r₂ = true)
    (h23 : shortKeyLe r₂ r₃ = true) : shortKeyLe r₁ r₃ = true := by
  rw [shortKeyLe] at h12 h23 ⊢
  by_cases ha : r₁.path.length = r₂.path.length
  · rw [if_pos ha] at h12
    by_cases hb : r₂.path.length = r₃.path.length
    · rw [if_pos hb] at h23
      rw [if_pos (ha.trans hb)]
      exact listLeStr_trans _ _ _ h12 h23
    · rw [if_neg hb, decide_eq_true_eq] at h23
      have hne : r₁.path.length ≠ r₃.path.length := by omega
      rw [if_neg hne, decide_eq_true_eq]
      omega
  · rw [if_neg ha, decide_eq_true_eq] at h12
    by_cases hb : r₂.path.length = r₃.path.length
    · have hne : r₁.path.length ≠ r₃.path.length := by omega
      rw [if_neg hne, decide_eq_true_eq]
      omega
    · rw [if_neg hb, decide_eq_true_eq] at h23
      have hne : r₁.path.length ≠ r₃.path.length := by omega
      rw [if_neg hne, decide_eq_true_eq]
      omega

theorem simpleKeyLe_total (r₁ r₂ : PathResult) :
    simpleKeyLe r₁ r₂ = true ∨ simpleKeyLe r₂ r₁ = true := by
  by_cases h : r₁.path.length = r₂.path.length
  · rw [simpleKeyLe, if_pos h, simpleKeyLe, if_pos h.symm]
    rcases le_total r₁.total_weight r₂.total_weight with hle | hle
    · left; exact decide_eq_true hle
    · right; exact decide_eq_true hle
  · rcases Nat.lt_or_ge r₁.path.length r₂.path.length with hlt | hge
    · left
      rw [simpleKeyLe, if_neg h]
      exact decide_eq_true hlt
    · right
      have hne : r₂.path.length ≠ r₁.path.length := fun he => h he.symm
      rw [simpleKeyLe, if_neg hne]
      apply decide_eq_true
      omega

theorem simpleKeyLe_trans (r₁ r₂ r₃ : PathResult) (h12 : simpleKeyLe r₁ r₂ = true)
    (h23 : simpleKeyLe r₂ r₃ = true) : simpleKeyLe r₁ r₃ = true := by
  rw [simpleKeyLe] at h12 h23 ⊢
  by_cases ha : r₁.path.length = r₂.path.length
  · rw [if_pos ha] at h12
    by_cases hb : r₂.path.length = r₃.path.length
    · rw [if_pos hb] at h23
      rw [if_pos (ha.trans hb)]
      rw [decide_eq_true_eq] at h12 h23 ⊢
      omega
    · rw [if_neg hb, decide_eq_true_eq] at h23
      have hne : r₁.path.length ≠ r₃.path.length := by omega
      rw [if_neg hne, decide_eq_true_eq]
      omega
  · rw [if_neg ha, decide_eq_true_eq] at h12
    by_cases hb : r₂.path.length = r₃.path.length
    · have hne : r₁.path.length ≠ r₃.path.length := by omega
      rw [if_neg hne, decide_eq_true_eq]
      omega
    · rw [if_neg hb, decide_eq_true_eq] at h23
      have hne : r₁.path.length ≠ r₃.path.length := by omega
      rw [if_neg hne, decide_eq_true_eq]
      omega

theorem foldl_ext_mono {β : Type} (g : List (List GEdge) → β → List (List GEdge))
    (hg : ∀ res e, ∃ l, g res e = res ++ l) :
    ∀ (es : List β) (res : List (List GEdge)), ∃ l, es.foldl g res = res ++ l := by
  intro es
  induction es with
  | nil => intro res; exact ⟨[], (List.append_nil res).symm⟩
  | cons e rest ih =>
    intro res
    rcases hg res e with ⟨l₁, h₁⟩
    rcases ih (g res e) with ⟨l₂, h₂⟩
    refine ⟨l₁ ++ l₂, ?_⟩
    rw [List.foldl_cons, h₂, h₁, List.append_assoc]

theorem dfsMin_mono (s : GraphState) (t : String) (W : Int) (mp : Nat) :
    ∀ (fuel : Nat) (cur : String) (visited : List String) (ep : List GEdge)
      (total : Int) (res : List (List GEdge)),
      ∃ l, dfsMin s t W mp fuel cur visited ep total res = res ++ l := by
  intro fuel
  induction fuel with
  | zero => intro cur visited ep total res; exact ⟨[], (List.append_nil res).symm⟩
  | succ n ih =>
    intro cur visited ep total res
    simp only [dfsMin]
    by_cases h1 : mp ≤ res.length
    · rw [if_pos h1]; exact ⟨[], (List.append_nil res).symm⟩
    · rw [if_neg h1]
      by_cases h2 : W < total
      · rw [if_pos h2]; exact ⟨[], (List.append_nil res).symm⟩
      · rw [if_neg h2]
        by_cases h3 : cur = t
        · rw [if_pos h3]
          by_cases h4 : total = W
          · rw [if_pos h4]
            by_cases h5 : (res.map pathSig).contains (pathSig ep) = true
            · rw [if_pos h5]; exact ⟨[], (List.append_nil res).symm⟩
            · rw [if_neg h5]; exact ⟨[ep], rfl⟩
          · rw [if_neg h4]; exact ⟨[], (List.append_nil res).symm⟩
        · rw [if_neg h3]
          apply foldl_ext_mono
          intro res' e
          by_cases h5 : e.tgt ∈ visited
          · rw [if_pos h5]; exact ⟨[], (List.append_nil res').symm⟩
          · rw [if_neg h5]
            by_cases h6 : W < total + readWeight e
            · rw [if_pos h6]; exact ⟨[], (List.append_nil res').symm⟩
            · rw [if_neg h6]
              exact ih e.tgt (e.tgt :: visited) (ep ++ [e]) (total + readWeight e) res'

theorem dfs_foldl_preserve (s : GraphState) (t : String) (W : Int) (mp : Nat)
    (n : Nat) (visited : List String) (ep : List GEdge) (total : Int)
    (sig : List String) :
    ∀ (es : List GEdge) (res : List (List GEdge)),
      sig ∈ res.map pathSig ∨ mp ≤ res.length →
      sig ∈ (es.foldl (fun r e =>
          if e.tgt ∈ visited then r
          else if W < total + readWeight e then r
          else dfsMin s t W mp n e.tgt (e.tgt :: visited) (ep ++ [e])
            (total + readWeight e) r) res).map pathSig ∨
        mp ≤ (es.foldl (fun r e =>
          if e.tgt ∈ visited then r
          else if W < total + readWeight e then r
          else dfsMin s t W mp n e.tgt (e.tgt :: visited) (ep ++ [e])
            (total + readWeight e) r) res).length := by
  intro es
  induction es with
  | nil => intro res h; exact h
  | cons e rest ih =>
    intro res h
    rw [List.foldl_cons]
    apply ih
    have hmono : ∃ l, (if e.tgt ∈ visited then res
        else if W < total + readWeight e then res
        else dfsMin s t W mp n e.tgt (e.tgt :: visited) (ep ++ [e])
          (total + readWeight e) res) = res ++ l := by
      by_cases h5 : e.tgt ∈ visited
      · rw [if_pos h5]; exact ⟨[], (List.append_nil res).symm⟩
      · rw [if_neg h5]
        by_cases h6 : W < total + readWeight e
        · rw [if_pos h6]; exact ⟨[], (List.append_nil res).symm⟩
        · rw [if_neg h6]
          exact dfsMin_mono s t W mp n e.tgt (e.tgt :: visited) (ep ++ [e])
            (total + readWeight e) res
    rcases hmono with ⟨l, hl⟩
    rw [hl]
    rcases h with h | h
    · left
      rw [List.map_append]
      exact List.mem_append_left _ h
    · right
      rw [List.length_append]
      omega


theorem dfsMin_sound (s : GraphState) (f t : String) (W : Int) (mp : Nat) :
    ∀ (fuel : Nat) (cur : String) (visited : List String) (ep : List GEdge)
      (total : Int) (res : List (List GEdge)),
      validChain s f cur ep = true →
      (pathNodes f ep).Nodup →
      (∀ x, x ∈ visited ↔ x ∈ pathNodes f ep) →
      total = pathReadWeight ep →
      (∀ q ∈ res, isSimpleEdgePath s f t q = true ∧ pathReadWeight q = W) →
      (res.map pathSig).Nodup →
      (∀ q ∈ dfsMin s t W mp fuel cur visited ep total res,
          isSimpleEdgePath s f t q = true ∧ pathReadWeight q = W) ∧
        ((dfsMin s t W mp fuel cur visited ep total res).map pathSig).Nodup := by
  intro fuel
  induction fuel with
  | zero => intro cur visited ep total res _ _ _ _ hres hnd; exact ⟨hres, hnd⟩
  | succ n ih =>
    intro cur visited ep total res hch hpn hvis htot hres hnd
    simp only [dfsMin]
    by_cases h1 : mp ≤ res.length
    · rw [if_pos h1]; exact ⟨hres, hnd⟩
    · rw [if_neg h1]
      by_cases h2 : W < total
      · rw [if_pos h2]; exact ⟨hres, hnd⟩
      · rw [if_neg h2]
        by_cases h3 : cur = t
        · rw [if_pos h3]
          by_cases h4 : total = W
          · rw [if_pos h4]
            by_cases h5 : (res.map pathSig).contains (pathSig ep) = true
            · rw [if_pos h5]; exact ⟨hres, hnd⟩
            · rw [if_neg h5]
              constructor
              · intro q hq
                rcases List.mem_append.mp hq with hm | hm
                · exact hres q hm
                · have hq' : q = ep := List.mem_singleton.mp hm
                  subst hq'
                  rw [h3] at hch
                  constructor
                  · simp only [isSimpleEdgePath, Bool.and_eq_true, decide_eq_true_eq]
                    exact ⟨hch, hpn⟩
                  · rw [← htot]; exact h4
              · rw [List.map_append]
                apply List.Nodup.append hnd (List.nodup_singleton _)
                intro a ha hb
                have hab : a = pathSig ep := List.mem_singleton.mp hb
                subst hab
                exact h5 (List.elem_iff.mpr ha)
          · rw [if_neg h4]; exact ⟨hres, hnd⟩
        · rw [if_neg h3]
          have hstep : ∀ (es : List GEdge), (∀ e ∈ es, e ∈ s.edges ∧ e.src = cur) →
              ∀ (res' : List (List GEdge)),
                (∀ q ∈ res', isSimpleEdgePath s f t q = true ∧ pathReadWeight q = W) →
                (res'.map pathSig).Nodup →
                (∀ q ∈ es.foldl (fun r e =>
                    if e.tgt ∈ visited then r
                    else if W < total + readWeight e then r
                    else dfsMin s t W mp n e.tgt (e.tgt :: visited) (ep ++ [e])
                      (total + readWeight e) r) res',
                    isSimpleEdgePath s f t q = true ∧ pathReadWeight q = W) ∧
                  ((es.foldl (fun r e =>
                    if e.tgt ∈ visited then r
                    else if W < total + readWeight e then r
                    else dfsMin s t W mp n e.tgt (e.tgt :: visited) (ep ++ [e])
                      (total + readWeight e) r) res').map pathSig).Nodup := by
            intro es
            induction es with
            | nil => intro _ res' h1' h2'; exact ⟨h1', h2'⟩
            | cons e rest ihes =>
              intro hmem res' h1' h2'
              rw [List.foldl_cons]
              have hpair : (∀ q ∈ (if e.tgt ∈ visited then res'
                    else if W < total + readWeight e then res'
                    else dfsMin s t W mp n e.tgt (e.tgt :: visited) (ep ++ [e])
                      (total + readWeight e) res'),
                    isSimpleEdgePath s f t q = true ∧ pathReadWeight q = W) ∧
                  ((if e.tgt ∈ visited then res'
                    else if W < total + readWeight e then res'
                    else dfsMin s t W mp n e.tgt (e.tgt :: visited) (ep ++ [e])
                      (total + readWeight e) res').map pathSig).Nodup := by
                by_cases h5 : e.tgt ∈ visited
                · rw [if_pos h5]; exact ⟨h1', h2'⟩
                · rw [if_neg h5]
                  by_cases h6 : W < total + readWeight e
                  · rw [if_pos h6]; exact ⟨h1', h2'⟩
                  · rw [if_neg h6]
                    have he := hmem e (List.mem_cons_self _ _)
                    have htgt : e.tgt ∉ pathNodes f ep := fun hm => h5 ((hvis e.tgt).mpr hm)
                    apply ih e.tgt (e.tgt :: visited) (ep ++ [e])
                      (total + readWeight e) res' ?_ ?_ ?_ ?_ h1' h2'
                    · exact validChain_snoc hch he.1 he.2
                    · rw [pathNodes_append]
                      simp only [List.map_cons, List.map_nil]
                      apply List.Nodup.append hpn (List.nodup_singleton _)
                      intro a ha hb
                      have hab : a = e.tgt := List.mem_singleton.mp hb
                      subst hab
                      exact htgt ha
                    · intro x
                      simp only [pathNodes_append, List.map_cons, List.map_nil,
                        List.mem_append, List.mem_cons, List.mem_singleton,
                        List.not_mem_nil, or_false]
                      rw [hvis x]
                      tauto
                    · rw [pathReadWeight_append, ← htot]
                      simp [pathReadWeight]
              exact ihes (fun e' he' => hmem e' (List.mem_cons_of_mem _ he')) _
                hpair.1 hpair.2
          exact hstep (outEdges s cur) (fun e he => mem_outEdges.mp he) res hres hnd

theorem dfsMin_length (s : GraphState) (t : String) (W : Int) (mp : Nat) :
    ∀ (fuel : Nat) (cur : String) (visited : List String) (ep : List GEdge)
      (total : Int) (res : List (List GEdge)),
      res.length ≤ mp →
      (dfsMin s t W mp fuel cur visited ep total res).length ≤ mp := by
  intro fuel
  induction fuel with
  | zero => intro cur visited ep total res h; exact h
  | succ n ih =>
    intro cur visited ep total res h
    simp only [dfsMin]
    by_cases h1 : mp ≤ res.length
    · rw [if_pos h1]; exact h
    · rw [if_neg h1]
      by_cases h2 : W < total
      · rw [if_pos h2]; exact h
      · rw [if_neg h2]
        by_cases h3 : cur = t
        · rw [if_pos h3]
          by_cases h4 : total = W
          · rw [if_pos h4]
            by_cases h5 : (res.map pathSig).contains (pathSig ep) = true
            · rw [if_pos h5]; exact h
            · rw [if_neg h5]
              simp only [List.length_append, List.length_singleton]
              omega
          · rw [if_neg h4]; exact h
        · rw [if_neg h3]
          have hstep : ∀ (es : List GEdge) (res' : List (List GEdge)),
              res'.length ≤ mp →
              (es.foldl (fun r e =>
                  if e.tgt ∈ visited then r
                  else if W < total + readWeight e then r
                  else dfsMin s t W mp n e.tgt (e.tgt :: visited) (ep ++ [e])
                    (total + readWeight e) r) res').length ≤ mp := by
            intro es
            induction es with
            | nil => intro res' h'; exact h'
            | cons e rest ihes =>
              intro res' h'
              rw [List.foldl_cons]
              apply ihes
              by_cases h5 : e.tgt ∈ visited
              · rw [if_pos h5]; exact h'
              · rw [if_neg h5]
                by_cases h6 : W < total + readWeight e
                · rw [if_pos h6]; exact h'
                · rw [if_neg h6]
                  exact ih e.tgt (e.tgt :: visited) (ep ++ [e])
                    (total + readWeight e) res' h'
          exact hstep (outEdges s cur) res h

theorem dfsMin_complete (s : GraphState) (f t : String) (W : Int) (mp : Nat)
    (hw : WeightsPos s) :
    ∀ (fuel : Nat) (cur : String) (visited : List String) (ep : List GEdge)
      (total : Int) (res : List (List GEdge)) (ext : List GEdge),
      validChain s f cur ep = true →
      (∀ x, x ∈ visited ↔ x ∈ pathNodes f ep) →
      total = pathReadWeight ep →
      validChain s cur t ext = true →
      (pathNodes f (ep ++ ext)).Nodup →
      total + pathReadWeight ext = W →
      ext.length + 1 ≤ fuel →
      pathSig (ep ++ ext) ∈
          (dfsMin s t W mp fuel cur visited ep total res).map pathSig ∨
        mp ≤ (dfsMin s t W mp fuel cur visited ep total res).length := by
  intro fuel
  induction fuel with
  | zero =>
    intro cur visited ep total res ext _ _ _ _ _ _ hfuel
    exact absurd hfuel (by omega)
  | succ n ih =>
    intro cur visited ep total res ext hch hvis htot hext hpn hsum hfuel
    have hextE : ∀ e ∈ ext, e ∈ s.edges := validChain_mem_edges hext
    have hextW : 0 ≤ pathReadWeight ext := by
      rw [pathReadWeight_eq_pathWeight hw hextE]
      exact pathWeight_nonneg hw hextE
    simp only [dfsMin]
    by_cases h1 : mp ≤ res.length
    · rw [if_pos h1]; right; exact h1
    · rw [if_neg h1]
      have h2 : ¬ W < total := by
        intro hlt
        linarith
      rw [if_neg h2]
      by_cases h3 : cur = t
      · have hextnil : ext = [] := by
          by_contra hne
          have hmem := validChain_end_mem_tgts hext hne
          have hcurmem : cur ∈ pathNodes f ep := validChain_end_mem hch
          rw [← h3] at hmem
          rw [pathNodes_append] at hpn
          exact (List.disjoint_of_nodup_append hpn) hcurmem hmem
        rw [hextnil] at hsum
        rw [hextnil, List.append_nil]
        have h4 : total = W := by
          simpa [pathReadWeight] using hsum
        rw [if_pos h3, if_pos h4]
        by_cases h5 : (res.map pathSig).contains (pathSig ep) = true
        · rw [if_pos h5]
          left
          exact List.elem_iff.mp h5
        · rw [if_neg h5]
          left
          rw [List.map_append]
          exact List.mem_append_right _ (List.mem_singleton.mpr rfl)
      · rw [if_neg h3]
        cases hextc : ext with
        | nil =>
          rw [hextc] at hext
          exact absurd (validChain_nil_iff.mp hext) h3
        | cons e ext' =>
          rw [hextc] at hext hsum hpn hfuel
          rw [validChain_cons_iff] at hext
          have hextE' : ∀ e' ∈ ext', e' ∈ s.edges := validChain_mem_edges hext.2.2
          have hext'W : 0 ≤ pathReadWeight ext' := by
            rw [pathReadWeight_eq_pathWeight hw hextE']
            exact pathWeight_nonneg hw hextE'
          have hsum' : (total + readWeight e) + pathReadWeight ext' = W := by
            rw [add_assoc]
            simp only [pathReadWeight, List.map_cons, List.sum_cons] at hsum
            exact hsum
          have hen6 : ¬ W < total + readWeight e := by
            intro hlt
            linarith
          have henotv : e.tgt ∉ visited := by
            intro hv
            have hmemp : e.tgt ∈ pathNodes f ep := (hvis e.tgt).mp hv
            have hmemt : e.tgt ∈ (e :: ext').map (·.tgt) := by
              rw [List.map_cons]
              exact List.mem_cons_self _ _
            rw [pathNodes_append] at hpn
            exact (List.disjoint_of_nodup_append hpn) hmemp hmemt
          have hseek : ∀ (es : List GEdge), e ∈ es → ∀ (res' : List (List GEdge)),
              pathSig (ep ++ e :: ext') ∈ (es.foldl (fun r e' =>
                  if e'.tgt ∈ visited then r
                  else if W < total + readWeight e' then r
                  else dfsMin s t W mp n e'.tgt (e'.tgt :: visited) (ep ++ [e'])
                    (total + readWeight e') r) res').map pathSig ∨
                mp ≤ (es.foldl (fun r e' =>
                  if e'.tgt ∈ visited then r
                  else if W < total + readWeight e' then r
                  else dfsMin s t W mp n e'.tgt (e'.tgt :: visited) (ep ++ [e'])
                    (total + readWeight e') r) res').length := by
            intro es
            induction es with
            | nil => intro h; cases h
            | cons a rest ihes =>
              intro hmem res'
              rw [List.foldl_cons]
              by_cases hae : a = e
              · subst hae
                have hbase : pathSig (ep ++ a :: ext') ∈
                    (if a.tgt ∈ visited then res'
                      else if W < total + readWeight a then res'
                      else dfsMin s t W mp n a.tgt (a.tgt :: visited) (ep ++ [a])
                        (total + readWeight a) res').map pathSig ∨
                    mp ≤ (if a.tgt ∈ visited then res'
                      else if W < total + readWeight a then res'
                      else dfsMin s t W mp n a.tgt (a.tgt :: visited) (ep ++ [a])
                        (total + readWeight a) res').length := by
                  rw [if_neg henotv, if_neg hen6]
                  have ha1 : validChain s f a.tgt (ep ++ [a]) = true :=
                    validChain_snoc hch hext.1 hext.2.1
                  have ha2 : ∀ x, x ∈ a.tgt :: visited ↔ x ∈ pathNodes f (ep ++ [a]) := by
                    intro x
                    simp only [pathNodes_append, List.map_cons, List.map_nil,
                      List.mem_append, List.mem_cons, List.mem_singleton,
                      List.not_mem_nil, or_false]
                    rw [hvis x]
                    tauto
                  have ha3 : total + readWeight a = pathReadWeight (ep ++ [a]) := by
                    rw [pathReadWeight_append, ← htot]
                    simp [pathReadWeight]
                  have ha4 : (pathNodes f ((ep ++ [a]) ++ ext')).Nodup := by
                    rw [List.append_assoc]
                    exact hpn
                  have ha5 : ext'.length + 1 ≤ n := by
                    simp only [List.length_cons] at hfuel
                    omega
                  have hres := ih a.tgt (a.tgt :: visited) (ep ++ [a])
                    (total + readWeight a) res' ext' ha1 ha2 ha3 hext.2.2 ha4 hsum' ha5
                  rw [List.append_assoc] at hres
                  exact hres
                exact dfs_foldl_preserve s t W mp n visited ep total
                  (pathSig (ep ++ a :: ext')) rest _ hbase
              · have hm : e ∈ rest := by
                  rcases List.mem_cons.mp hmem with he' | hm
                  · exact absurd he'.symm hae
                  · exact hm
                exact ihes hm _
          exact hseek (outEdges s cur) (mem_outEdges.mpr ⟨hext.1, hext.2.1⟩) res

theorem get_transition_of_edge {s : GraphState} {e : GEdge} (hsync : EdgeSync s)
    (he : e ∈ s.edges) :
    ∃ tr, get_transition s e.src e.tgt (some e.key) = some tr ∧
      tr.weight = e.weight ∧ tr.transition_id = some e.key := by
  have hm := hsync e he
  rw [edgeMatches] at hm
  cases hl : alistLookup s.transitions e.key with
  | none => rw [hl] at hm; cases hm
  | some tr =>
    rw [hl] at hm
    simp only [Bool.and_eq_true, beq_iff_eq, Bool.not_eq_true'] at hm
    obtain ⟨⟨⟨⟨h1, h2⟩, h3⟩, h4⟩, h5⟩ := hm
    refine ⟨tr, ?_, h3, h4⟩
    have hk : e.key ≠ "" := by
      intro hke
      rw [hke] at h5
      simp at h5
    simp only [get_transition]
    rw [if_neg hk, hl]
    show (if tr.from_screen ≠ e.src ∨ tr.to_screen ≠ e.tgt then none else some tr) =
      some tr
    rw [if_neg]
    push_neg
    exact ⟨h1, h2⟩

theorem simple_length_le {s : GraphState} {f t : String} {p : List GEdge}
    (hcl : EdgesClosed s) (h : isSimpleEdgePath s f t p = true) :
    p.length ≤ s.nodes.length := by
  simp only [isSimpleEdgePath, Bool.and_eq_true, decide_eq_true_eq] at h
  obtain ⟨hc, hnd⟩ := h
  rw [pathNodes, List.nodup_cons] at hnd
  have hsub : ∀ x ∈ p.map (·.tgt), x ∈ s.nodes := by
    intro x hx
    rcases List.mem_map.mp hx with ⟨e, he, hex⟩
    rw [← hex]
    exact (hcl e (validChain_mem_edges hc e he)).2
  have hsp : List.Subperm (p.map (·.tgt)) s.nodes :=
    List.subperm_of_subset hnd.2 hsub
  have hlen := hsp.length_le
  rw [List.length_map] at hlen
  exact hlen

theorem build_fold_spec {s : GraphState} (hsync : EdgeSync s) :
    ∀ (p : List GEdge), (∀ e ∈ p, e ∈ s.edges) →
      ∀ (ns : List String) (ts : List TransDict) (w : Int),
      (p.foldl (buildStep s) (ns, ts, w)).1 = ns ++ p.map (·.tgt) ∧
      (p.foldl (buildStep s) (ns, ts, w)).2.1.map (fun d => d.transition_id.getD "") =
        ts.map (fun d => d.transition_id.getD "") ++ pathSig p ∧
      (p.foldl (buildStep s) (ns, ts, w)).2.2 = w + pathWeight p := by
  intro p
  induction p with
  | nil =>
    intro _ ns ts w
    refine ⟨?_, ?_, ?_⟩
    · simp
    · simp [pathSig]
    · simp [pathWeight]
  | cons e rest ih =>
    intro hp ns ts w
    obtain ⟨tr, hg, hwt, hid⟩ :=
      get_transition_of_edge hsync (hp e (List.mem_cons_self _ _))
    rw [List.foldl_cons]
    have hred : buildStep s (ns, ts, w) e =
        (ns ++ [e.tgt], ts ++ [Transition.to_dict tr], w + tr.weight) := by
      rw [buildStep, hg]
    rw [hred]
    obtain ⟨ih1, ih2, ih3⟩ := ih (fun e' he' => hp e' (List.mem_cons_of_mem _ he'))
      (ns ++ [e.tgt]) (ts ++ [Transition.to_dict tr]) (w + tr.weight)
    refine ⟨?_, ?_, ?_⟩
    · rw [ih1, List.map_cons, List.append_assoc, List.singleton_append]
    · rw [ih2, List.map_append, List.append_assoc]
      have hidf : (Transition.to_dict tr).transition_id.getD "" = e.key := by
        show tr.transition_id.getD "" = e.key
        rw [hid]
        rfl
      simp only [pathSig, List.map_cons, List.map_nil, List.singleton_append, hidf]
    · rw [ih3, hwt]
      simp only [pathWeight, List.map_cons, List.sum_cons]
      rw [add_assoc]

theorem build_result_fields {s : GraphState} (hsync : EdgeSync s)
    {p : List GEdge} (hp : ∀ e ∈ p, e ∈ s.edges) {e0 : GEdge} {rest : List GEdge}
    (hpe : p = e0 :: rest) :
    (build_path_result_from_edge_path s p).path = pathNodes e0.src p ∧
    resultIds (build_path_result_from_edge_path s p) = pathSig p ∧
    (build_path_result_from_edge_path s p).total_weight = pathWeight p := by
  subst hpe
  obtain ⟨h1, h2, h3⟩ := build_fold_spec hsync (e0 :: rest) hp [e0.src] [] 0
  refine ⟨?_, ?_, ?_⟩
  · show ((e0 :: rest).foldl (buildStep s) ([e0.src], [], 0)).1 =
      pathNodes e0.src (e0 :: rest)
    rw [h1]
    rfl
  · show ((e0 :: rest).foldl (buildStep s) ([e0.src], [], 0)).2.1.map
      (fun d => d.transition_id.getD "") = pathSig (e0 :: rest)
    rw [h2]
    rfl
  · show ((e0 :: rest).foldl (buildStep s) ([e0.src], [], 0)).2.2 =
      pathWeight (e0 :: rest)
    rw [h3, zero_add]

/-- Claim C1: when both endpoints are registered and a route exists (so the
Dijkstra phase reports a minimum weight `W`) and at most 1000 simple
edge-paths attain `W`, `find_shortest_path` returns exactly the simple
edge-paths of total weight `W` — every such path appears (identified by its
transition-id sequence), every result is such a path rendered with its
node sequence and total weight, results are deduplicated by transition-id
sequence, sorted by (node-sequence length, then transition-id tuple), and
capped at 1000; `W` is minimal among all simple edge-paths. -/
theorem C1_theorem (s : GraphState) (f t : String) (W : Int)
    (hsync : EdgeSync s) (hcl : EdgesClosed s) (hw : WeightsPos s)
    (hf : f ∈ s.nodes) (ht : t ∈ s.nodes)
    (hW : shortest_path_length_w s f t = some W)
    (hcap : ((simplePathsFull s f t).filter
        (fun p => pathWeight p == W)).length ≤ 1000) :
    ∃ rs, find_shortest_path s f t = some rs ∧
      (∀ p, isSimpleEdgePath s f t p = true → pathWeight p = W →
        pathSig p ∈ rs.map resultIds) ∧
      (∀ r ∈ rs, ∃ p, isSimpleEdgePath s f t p = true ∧ pathWeight p = W ∧
        resultIds r = pathSig p ∧ r.total_weight = pathWeight p ∧
        (p ≠ [] → r.path = pathNodes f p)) ∧
      (rs.map resultIds).Nodup ∧
      List.Pairwise (fun r₁ r₂ => shortKeyLe r₁ r₂ = true) rs ∧
      rs.length ≤ 1000 ∧
      (∀ p, isSimpleEdgePath s f t p = true → W ≤ pathWeight p) := by
  have hsound := dfsMin_sound s f t W 1000 (s.nodes.length + 1) f [f] [] 0 []
    (validChain_nil_iff.mpr rfl) (by simp [pathNodes]) (fun x => Iff.rfl) rfl
    (fun q hq => absurd hq (List.not_mem_nil q)) List.nodup_nil
  have hE1 : ∀ q ∈ find_min_weight_edge_paths s f t W 1000,
      isSimpleEdgePath s f t q = true ∧ pathWeight q = W := by
    intro q hq
    obtain ⟨hs1, hs2⟩ := hsound.1 q hq
    refine ⟨hs1, ?_⟩
    have hqe : ∀ e ∈ q, e ∈ s.edges := by
      have h' := hs1
      simp only [isSimpleEdgePath, Bool.and_eq_true] at h'
      exact validChain_mem_edges h'.1
    rw [← pathReadWeight_eq_pathWeight hw hqe]
    exact hs2
  have hE2 : ((find_min_weight_edge_paths s f t W 1000).map pathSig).Nodup :=
    hsound.2
  have hmin : ∀ p, isSimpleEdgePath s f t p = true → W ≤ pathWeight p := by
    intro p hp
    apply listMin_le hW
    exact List.mem_map.mpr ⟨p, (mem_simplePathsFull_iff hcl).mpr hp, rfl⟩
  have hcomp : ∀ p, isSimpleEdgePath s f t p = true → pathWeight p = W →
      pathSig p ∈ (find_min_weight_edge_paths s f t W 1000).map pathSig := by
    intro p hsp hwp
    have hsp' := hsp
    simp only [isSimpleEdgePath, Bool.and_eq_true, decide_eq_true_eq] at hsp'
    obtain ⟨hchain, hnodupP⟩ := hsp'
    have hpe : ∀ e ∈ p, e ∈ s.edges := validChain_mem_edges hchain
    have hcall := dfsMin_complete s f t W 1000 hw (s.nodes.length + 1) f [f] [] 0 [] p
      (validChain_nil_iff.mpr rfl) (fun x => Iff.rfl) rfl hchain hnodupP
      (by rw [zero_add, pathReadWeight_eq_pathWeight hw hpe]; exact hwp)
      (by have := simple_length_le hcl hsp; omega)
    rcases hcall with h | h
    · exact h
    · have hsubset : ∀ x ∈ (find_min_weight_edge_paths s f t W 1000).map pathSig,
          x ∈ ((simplePathsFull s f t).filter
            (fun q => pathWeight q == W)).map pathSig := by
        intro x hx
        rcases List.mem_map.mp hx with ⟨q, hq, hxq⟩
        obtain ⟨hq1, hq2⟩ := hE1 q hq
        apply List.mem_map.mpr
        refine ⟨q, ?_, hxq⟩
        exact List.mem_filter.mpr
          ⟨(mem_simplePathsFull_iff hcl).mpr hq1, (beq_iff_eq ..).mpr hq2⟩
      have hsubperm := List.subperm_of_subset hE2 hsubset
      have h' : 1000 ≤ (find_min_weight_edge_paths s f t W 1000).length := h
      have hlen2 : (((simplePathsFull s f t).filter
          (fun q => pathWeight q == W)).map pathSig).length ≤
          ((find_min_weight_edge_paths s f t W 1000).map pathSig).length := by
        rw [List.length_map, List.length_map]
        omega
      have hperm := hsubperm.perm_of_length_le hlen2
      have hpM : p ∈ (simplePathsFull s f t).filter (fun q => pathWeight q == W) :=
        List.mem_filter.mpr
          ⟨(mem_simplePathsFull_iff hcl).mpr hsp, (beq_iff_eq ..).mpr hwp⟩
      exact hperm.mem_iff.mpr (List.mem_map.mpr ⟨p, hpM, rfl⟩)
  have hne : find_min_weight_edge_paths s f t W 1000 ≠ [] := by
    have hWmem := listMin_mem hW
    rcases List.mem_map.mp hWmem with ⟨p0, hp0, hw0⟩
    have hmem := hcomp p0 ((mem_simplePathsFull_iff hcl).mp hp0) hw0
    intro hnil
    rw [hnil] at hmem
    simp at hmem
  have hfsp : find_shortest_path s f t = some (stableSortBy shortKeyLe
      ((find_min_weight_edge_paths s f t W 1000).map
        (build_path_result_from_edge_path s))) := by
    have hreg : ¬ (f ∉ s.nodes ∨ t ∉ s.nodes) := by
      push_neg
      exact ⟨hf, ht⟩
    simp only [find_shortest_path]
    rw [if_neg hreg, hW]
    show (if find_min_weight_edge_paths s f t W 1000 = [] then none
      else some (stableSortBy shortKeyLe
        ((find_min_weight_edge_paths s f t W 1000).map
          (build_path_result_from_edge_path s)))) = _
    rw [if_neg hne]
  have hfields : ∀ q ∈ find_min_weight_edge_paths s f t W 1000,
      resultIds (build_path_result_from_edge_path s q) = pathSig q ∧
      (build_path_result_from_edge_path s q).total_weight = pathWeight q ∧
      (q ≠ [] → (build_path_result_from_edge_path s q).path = pathNodes f q) := by
    intro q hq
    obtain ⟨hq1, _⟩ := hE1 q hq
    have hqe : ∀ e ∈ q, e ∈ s.edges := by
      have h' := hq1
      simp only [isSimpleEdgePath, Bool.and_eq_true] at h'
      exact validChain_mem_edges h'.1
    cases hqc : q with
    | nil => exact ⟨rfl, rfl, fun hne' => absurd rfl hne'⟩
    | cons e0 qrest =>
      rw [hqc] at hq1 hqe
      have hsrc : e0.src = f := by
        simp only [isSimpleEdgePath, Bool.and_eq_true] at hq1
        exact (validChain_cons_iff.mp hq1.1).2.1
      obtain ⟨hb1, hb2, hb3⟩ := build_result_fields hsync hqe rfl
      exact ⟨hb2, hb3, fun _ => by rw [hb1, hsrc]⟩
  refine ⟨stableSortBy shortKeyLe
    ((find_min_weight_edge_paths s f t W 1000).map
      (build_path_result_from_edge_path s)), hfsp, ?_, ?_, ?_, ?_, ?_, hmin⟩
  · intro p hp hwp
    have hsig := hcomp p hp hwp
    rcases List.mem_map.mp hsig with ⟨q, hq, hqs⟩
    apply List.mem_map.mpr
    refine ⟨build_path_result_from_edge_path s q, ?_, ?_⟩
    · exact mem_stableSortBy.mpr (List.mem_map.mpr ⟨q, hq, rfl⟩)
    · rw [(hfields q hq).1, hqs]
  · intro r hr
    rcases List.mem_map.mp (mem_stableSortBy.mp hr) with ⟨q, hq, hqr⟩
    obtain ⟨hq1, hq2⟩ := hE1 q hq
    obtain ⟨hf1, hf2, hf3⟩ := hfields q hq
    refine ⟨q, hq1, hq2, ?_, ?_, ?_⟩
    · rw [← hqr]; exact hf1
    · rw [← hqr]; exact hf2
    · intro hne'
      rw [← hqr]
      exact hf3 hne'
  · have hperm := (stableSortBy_perm shortKeyLe
      ((find_min_weight_edge_paths s f t W 1000).map
        (build_path_result_from_edge_path s))).map resultIds
    have heq : ((find_min_weight_edge_paths s f t W 1000).map
        (build_path_result_from_edge_path s)).map resultIds =
        (find_min_weight_edge_paths s f t W 1000).map pathSig := by
      rw [List.map_map]
      apply List.map_congr_left
      intro q hq
      exact (hfields q hq).1
    rw [heq] at hperm
    exact hperm.nodup_iff.mpr hE2
  · exact pairwise_stableSortBy shortKeyLe_total
      (fun x y z => shortKeyLe_trans x y z) _
  · have hlen : (find_min_weight_edge_paths s f t W 1000).length ≤ 1000 :=
      dfsMin_length s t W 1000 (s.nodes.length + 1) f [f] [] 0 [] (by simp)
    have hplen := (stableSortBy_perm shortKeyLe
      ((find_min_weight_edge_paths s f t W 1000).map
        (build_path_result_from_edge_path s))).length_eq
    rw [hplen, List.length_map]
    exact hlen

theorem no_route_iff_full_nil {s : GraphState} {f t : String} (hcl : EdgesClosed s) :
    (∀ p, isSimpleEdgePath s f t p = false) ↔ simplePathsFull s f t = [] := by
  constructor
  · intro h
    cases hfull : simplePathsFull s f t with
    | nil => rfl
    | cons p rest =>
      have hmem : p ∈ simplePathsFull s f t := by
        rw [hfull]
        exact List.mem_cons_self _ _
      have hsp := (mem_simplePathsFull_iff hcl).mp hmem
      rw [h p] at hsp
      cases hsp
  · intro h p
    cases hb : isSimpleEdgePath s f t p with
    | false => rfl
    | true =>
      have hmem := (mem_simplePathsFull_iff hcl).mpr hb
      rw [h] at hmem
      cases hmem

theorem find_min_ne_nil {s : GraphState} {f t : String} {W : Int}
    (hcl : EdgesClosed s) (hw : WeightsPos s)
    (hW : shortest_path_length_w s f t = some W) :
    find_min_weight_edge_paths s f t W 1000 ≠ [] := by
  have hWmem := listMin_mem hW
  rcases List.mem_map.mp hWmem with ⟨p0, hp0mem, hw0⟩
  have hsp := (mem_simplePathsFull_iff hcl).mp hp0mem
  have hsp' := hsp
  simp only [isSimpleEdgePath, Bool.and_eq_true, decide_eq_true_eq] at hsp'
  obtain ⟨hchain, hnd⟩ := hsp'
  have hpe : ∀ e ∈ p0, e ∈ s.edges := validChain_mem_edges hchain
  have hcall := dfsMin_complete s f t W 1000 hw (s.nodes.length + 1) f [f] [] 0 [] p0
    (validChain_nil_iff.mpr rfl) (fun x => Iff.rfl) rfl hchain hnd
    (by rw [zero_add, pathReadWeight_eq_pathWeight hw hpe]; exact hw0)
    (by have := simple_length_le hcl hsp; omega)
  have hcall' : pathSig ([] ++ p0) ∈
      (find_min_weight_edge_paths s f t W 1000).map pathSig ∨
      1000 ≤ (find_min_weight_edge_paths s f t W 1000).length := hcall
  intro hnil
  rw [hnil] at hcall'
  rcases hcall' with h | h
  · simp at h
  · simp at h

theorem find_shortest_eq {s : GraphState} {f t : String} {W : Int}
    (hf : f ∈ s.nodes) (ht : t ∈ s.nodes)
    (hW : shortest_path_length_w s f t = some W)
    (hne : find_min_weight_edge_paths s f t W 1000 ≠ []) :
    find_shortest_path s f t = some (stableSortBy shortKeyLe
      ((find_min_weight_edge_paths s f t W 1000).map
        (build_path_result_from_edge_path s))) := by
  have hreg : ¬ (f ∉ s.nodes ∨ t ∉ s.nodes) := by
    push_neg
    exact ⟨hf, ht⟩
  simp only [find_shortest_path]
  rw [if_neg hreg, hW]
  show (if find_min_weight_edge_paths s f t W 1000 = [] then none
    else some (stableSortBy shortKeyLe
      ((find_min_weight_edge_paths s f t W 1000).map
        (build_path_result_from_edge_path s)))) = _
  rw [if_neg hne]

theorem find_simple_eval_some (s : GraphState) (f t : String) (mp : Int) (d : Int)
    (hif : ¬ (f ∉ s.nodes ∨ t ∉ s.nodes)) :
    find_simple_path s f t (some d) mp =
      (if dedupCollect s (if mp < 1 then 1 else mp).toNat
          ((nx_all_simple_edge_paths s f t
            (max 1 (min d (max ((s.nodes.length : Int) - 1) 1))).toNat).take
            (((if mp < 1 then 1 else mp) : Int) * 4).toNat) [] [] = [] then
        match find_shortest_path s f t with
        | none => none
        | some rs => if rs = [] then none else some (stableSortBy simpleKeyLe rs)
      else some (stableSortBy simpleKeyLe (dedupCollect s (if mp < 1 then 1 else mp).toNat
          ((nx_all_simple_edge_paths s f t
            (max 1 (min d (max ((s.nodes.length : Int) - 1) 1))).toNat).take
            (((if mp < 1 then 1 else mp) : Int) * 4).toNat) [] []))) := by
  simp only [find_simple_path]
  rw [if_neg hif]

theorem find_simple_eval_none (s : GraphState) (f t : String) (mp : Int) (hops : Int)
    (hif : ¬ (f ∉ s.nodes ∨ t ∉ s.nodes))
    (hhops : shortest_path_length_hops s f t = some hops) :
    find_simple_path s f t none mp =
      (if dedupCollect s (if mp < 1 then 1 else mp).toNat
          ((nx_all_simple_edge_paths s f t
            (max 1 (min (max (hops + 2) hops)
              (max ((s.nodes.length : Int) - 1) 1))).toNat).take
            (((if mp < 1 then 1 else mp) : Int) * 4).toNat) [] [] = [] then
        match find_shortest_path s f t with
        | none => none
        | some rs => if rs = [] then none else some (stableSortBy simpleKeyLe rs)
      else some (stableSortBy simpleKeyLe (dedupCollect s (if mp < 1 then 1 else mp).toNat
          ((nx_all_simple_edge_paths s f t
            (max 1 (min (max (hops + 2) hops)
              (max ((s.nodes.length : Int) - 1) 1))).toNat).take
            (((if mp < 1 then 1 else mp) : Int) * 4).toNat) [] []))) := by
  simp only [find_simple_path]
  rw [if_neg hif, hhops]

theorem find_simple_eval_nohops (s : GraphState) (f t : String) (mp : Int)
    (hif : ¬ (f ∉ s.nodes ∨ t ∉ s.nodes))
    (hhops : shortest_path_length_hops s f t = none) :
    find_simple_path s f t none mp = none := by
  simp only [find_simple_path]
  rw [if_neg hif, hhops]

/-- Claim C9: both path queries return null exactly when an endpoint is
unregistered or no directed route (simple edge-path) connects the
endpoints; the fallback documented in the spec means a depth-limited
`find_simple_path` query still reports the shortest-path results rather
than null whenever any route exists.  The embedding is total (`Option`
result), reflecting that neither query raises. -/
theorem C9_theorem (s : GraphState) (f t : String)
    (hcl : EdgesClosed s) (hw : WeightsPos s) :
    (find_shortest_path s f t = none ↔
      f ∉ s.nodes ∨ t ∉ s.nodes ∨ ∀ p, isSimpleEdgePath s f t p = false) ∧
    (∀ (md : Option Int) (mp : Int), find_simple_path s f t md mp = none ↔
      f ∉ s.nodes ∨ t ∉ s.nodes ∨ ∀ p, isSimpleEdgePath s f t p = false) := by
  constructor
  · by_cases hregor : f ∉ s.nodes ∨ t ∉ s.nodes
    · constructor
      · intro _
        rcases hregor with h | h
        · exact Or.inl h
        · exact Or.inr (Or.inl h)
      · intro _
        simp only [find_shortest_path]
        rw [if_pos hregor]
    · have hregmem : f ∈ s.nodes ∧ t ∈ s.nodes := by
        rcases not_or.mp hregor with ⟨h1, h2⟩
        exact ⟨not_not.mp h1, not_not.mp h2⟩
      constructor
      · intro hnone
        right; right
        by_contra hroute
        have hex : ∃ p, isSimpleEdgePath s f t p = true := by
          by_contra hno
          apply hroute
          intro p
          cases hb : isSimpleEdgePath s f t p with
          | false => rfl
          | true => exact absurd ⟨p, hb⟩ hno
        obtain ⟨p1, hp1⟩ := hex
        have hfull_ne : simplePathsFull s f t ≠ [] := by
          intro hnil
          have hmem := (mem_simplePathsFull_iff hcl).mpr hp1
          rw [hnil] at hmem
          cases hmem
        have hsw : (shortest_path_length_w s f t).isSome = true := by
          rw [shortest_path_length_w]
          apply listMin_isSome
          intro hmapnil
          exact hfull_ne (List.map_eq_nil_iff.mp hmapnil)
        obtain ⟨W, hW⟩ := Option.isSome_iff_exists.mp hsw
        have hepsne := find_min_ne_nil hcl hw hW
        rw [find_shortest_eq hregmem.1 hregmem.2 hW hepsne] at hnone
        exact Option.noConfusion hnone
      · rintro (h | h | h)
        · exact absurd hregmem.1 h
        · exact absurd hregmem.2 h
        · have hfull : simplePathsFull s f t = [] := (no_route_iff_full_nil hcl).mp h
          have hswn : shortest_path_length_w s f t = none := by
            rw [shortest_path_length_w, listMin_eq_none_iff, List.map_eq_nil_iff]
            exact hfull
          simp only [find_shortest_path]
          rw [if_neg hregor, hswn]
  · intro md mp
    by_cases hregor : f ∉ s.nodes ∨ t ∉ s.nodes
    · constructor
      · intro _
        rcases hregor with h | h
        · exact Or.inl h
        · exact Or.inr (Or.inl h)
      · intro _
        simp only [find_simple_path]
        rw [if_pos hregor]
    · have hregmem : f ∈ s.nodes ∧ t ∈ s.nodes := by
        rcases not_or.mp hregor with ⟨h1, h2⟩
        exact ⟨not_not.mp h1, not_not.mp h2⟩
      by_cases hroute : ∀ p, isSimpleEdgePath s f t p = false
      · -- no route at all: the query reports null
        have hfull : simplePathsFull s f t = [] := (no_route_iff_full_nil hcl).mp hroute
        have hfsn : find_shortest_path s f t = none := by
          have hswn : shortest_path_length_w s f t = none := by
            rw [shortest_path_length_w, listMin_eq_none_iff, List.map_eq_nil_iff]
            exact hfull
          simp only [find_shortest_path]
          rw [if_neg hregor, hswn]
        have hnx : ∀ (c : Nat), nx_all_simple_edge_paths s f t c = [] := by
          intro c
          cases hnxc : nx_all_simple_edge_paths s f t c with
          | nil => rfl
          | cons p r =>
            have hp : p ∈ nx_all_simple_edge_paths s f t c := by
              rw [hnxc]
              exact List.mem_cons_self _ _
            have hsp := nx_mem_simple hp
            rw [hroute p] at hsp
            cases hsp
        have hlhs : find_simple_path s f t md mp = none := by
          cases md with
          | none =>
            apply find_simple_eval_nohops s f t mp hregor
            rw [shortest_path_length_hops, listMin_eq_none_iff, List.map_eq_nil_iff]
            exact hfull
          | some d =>
            rw [find_simple_eval_some s f t mp d hregor]
            simp only [hnx, List.take_nil, dedupCollect]
            rw [if_pos trivial, hfsn]
        exact iff_of_true hlhs (Or.inr (Or.inr hroute))
      · -- a route exists: the query never reports null
        have hex : ∃ p, isSimpleEdgePath s f t p = true := by
          by_contra hno
          apply hroute
          intro p
          cases hb : isSimpleEdgePath s f t p with
          | false => rfl
          | true => exact absurd ⟨p, hb⟩ hno
        obtain ⟨p1, hp1⟩ := hex
        have hfull_ne : simplePathsFull s f t ≠ [] := by
          intro hnil
          have hmem := (mem_simplePathsFull_iff hcl).mpr hp1
          rw [hnil] at hmem
          cases hmem
        have hsw : (shortest_path_length_w s f t).isSome = true := by
          rw [shortest_path_length_w]
          apply listMin_isSome
          intro hmapnil
          exact hfull_ne (List.map_eq_nil_iff.mp hmapnil)
        obtain ⟨W, hW⟩ := Option.isSome_iff_exists.mp hsw
        have hepsne := find_min_ne_nil hcl hw hW
        have hfse := find_shortest_eq hregmem.1 hregmem.2 hW hepsne
        set RS := stableSortBy shortKeyLe
          ((find_min_weight_edge_paths s f t W 1000).map
            (build_path_result_from_edge_path s)) with hRSdef
        have hrsne : RS ≠ [] := by
          rw [hRSdef]
          intro hnil
          rw [stableSortBy_eq_nil_iff] at hnil
          exact hepsne (List.map_eq_nil_iff.mp hnil)
        have hbody : ∀ (md0 : Int),
            (if dedupCollect s (if mp < 1 then 1 else mp).toNat
                ((nx_all_simple_edge_paths s f t
                  (max 1 (min md0 (max ((s.nodes.length : Int) - 1) 1))).toNat).take
                  (((if mp < 1 then 1 else mp) : Int) * 4).toNat) [] [] = [] then
              match find_shortest_path s f t with
              | none => none
              | some rs => if rs = [] then none else some (stableSortBy simpleKeyLe rs)
            else some (stableSortBy simpleKeyLe
              (dedupCollect s (if mp < 1 then 1 else mp).toNat
                ((nx_all_simple_edge_paths s f t
                  (max 1 (min md0 (max ((s.nodes.length : Int) - 1) 1))).toNat).take
                  (((if mp < 1 then 1 else mp) : Int) * 4).toNat) [] []))) ≠ none := by
          intro md0
          by_cases hpr : dedupCollect s (if mp < 1 then 1 else mp).toNat
              ((nx_all_simple_edge_paths s f t
                (max 1 (min md0 (max ((s.nodes.length : Int) - 1) 1))).toNat).take
                (((if mp < 1 then 1 else mp) : Int) * 4).toNat) [] [] = []
          · rw [if_pos hpr, hfse]
            intro hnone
            have hnone' : (if RS = [] then none
                else some (stableSortBy simpleKeyLe RS)) = none := hnone
            rw [if_neg hrsne] at hnone'
            exact Option.noConfusion hnone'
          · rw [if_neg hpr]
            intro hnone
            exact Option.noConfusion hnone
        have hlhs_ne : find_simple_path s f t md mp ≠ none := by
          cases md with
          | none =>
            have hh : (shortest_path_length_hops s f t).isSome = true := by
              rw [shortest_path_length_hops]
              apply listMin_isSome
              intro hmapnil
              exact hfull_ne (List.map_eq_nil_iff.mp hmapnil)
            obtain ⟨hops, hhops⟩ := Option.isSome_iff_exists.mp hh
            rw [find_simple_eval_none s f t mp hops hregor hhops]
            exact hbody (max (hops + 2) hops)
          | some d =>
            rw [find_simple_eval_some s f t mp d hregor]
            exact hbody d
        apply iff_of_false hlhs_ne
        rintro (h | h | h)
        · exact absurd hregmem.1 h
        · exact absurd hregmem.2 h
        · exact absurd h hroute

/-- Witness for claim C1: the claim's example graph (parallel `A -> B`
edges of weights 2 and 3, single `B -> C` edge of weight 2) reports total
weight 4 via the weight-2 edge `ta`, and its extension with a second
weight-2 parallel edge `td` yields one result per minimal parallel edge. -/
theorem C1_witness :
    (EdgeSync weightState ∧ EdgesClosed weightState ∧ WeightsPos weightState ∧
     "A" ∈ weightState.nodes ∧ "C" ∈ weightState.nodes ∧
     shortest_path_length_w weightState "A" "C" = some 4 ∧
     ((simplePathsFull weightState "A" "C").filter
        (fun p => pathWeight p == (4 : Int))).length ≤ 1000) ∧
    (∃ rs, find_shortest_path weightState "A" "C" = some rs ∧
      (∀ p, isSimpleEdgePath weightState "A" "C" p = true → pathWeight p = 4 →
        pathSig p ∈ rs.map resultIds) ∧
      (∀ r ∈ rs, ∃ p, isSimpleEdgePath weightState "A" "C" p = true ∧
        pathWeight p = 4 ∧ resultIds r = pathSig p ∧ r.total_weight = pathWeight p ∧
        (p ≠ [] → r.path = pathNodes "A" p)) ∧
      (rs.map resultIds).Nodup ∧
      List.Pairwise (fun r₁ r₂ => shortKeyLe r₁ r₂ = true) rs ∧
      rs.length ≤ 1000 ∧
      (∀ p, isSimpleEdgePath weightState "A" "C" p = true → 4 ≤ pathWeight p)) ∧
    ((find_shortest_path weightState "A" "C").map (fun rs =>
        rs.map (fun r => (r.path, resultIds r, r.total_weight))) =
      some [(["A", "B", "C"], ["ta", "tc"], 4)]) ∧
    ((find_shortest_path weightTwoState "A" "C").map (fun rs =>
        rs.map (fun r => (r.path, resultIds r, r.total_weight))) =
      some [(["A", "B", "C"], ["ta", "tc"], 4),
            (["A", "B", "C"], ["td", "tc"], 4)]) :=
  ⟨⟨by decide, by decide, by decide, by decide, by decide, by decide, by decide⟩,
   C1_theorem weightState "A" "C" 4 (by decide) (by decide) (by decide) (by decide)
     (by decide) (by decide) (by decide),
   by rfl, by rfl⟩

/-- Witness for claim C9: in the three-screen store with routes
`A -> B -> C` and `A -> C`, querying the disconnected reverse pair
`(C, A)`. -/
theorem C9_witness :
    (EdgesClosed triState ∧ WeightsPos triState) ∧
    ((find_shortest_path triState "C" "A" = none ↔
      "C" ∉ triState.nodes ∨ "A" ∉ triState.nodes ∨
        ∀ p, isSimpleEdgePath triState "C" "A" p = false) ∧
     (∀ (md : Option Int) (mp : Int), find_simple_path triState "C" "A" md mp = none ↔
      "C" ∉ triState.nodes ∨ "A" ∉ triState.nodes ∨
        ∀ p, isSimpleEdgePath triState "C" "A" p = false)) :=
  ⟨⟨by decide, by decide⟩, C9_theorem triState "C" "A" (by decide) (by decide)⟩

theorem find_simple_eval_resolved (s : GraphState) (f t : String) (mp : Int)
    (md : Option Int) (md0 : Int)
    (hif : ¬ (f ∉ s.nodes ∨ t ∉ s.nodes))
    (hmd : resolveDepth s f t md = some md0) :
    find_simple_path s f t md mp =
      (if dedupCollect s (if mp < 1 then 1 else mp).toNat
          ((nx_all_simple_edge_paths s f t
            (max 1 (min md0 (max ((s.nodes.length : Int) - 1) 1))).toNat).take
            (((if mp < 1 then 1 else mp) : Int) * 4).toNat) [] [] = [] then
        match find_shortest_path s f t with
        | none => none
        | some rs => if rs = [] then none else some (stableSortBy simpleKeyLe rs)
      else some (stableSortBy simpleKeyLe (dedupCollect s (if mp < 1 then 1 else mp).toNat
          ((nx_all_simple_edge_paths s f t
            (max 1 (min md0 (max ((s.nodes.length : Int) - 1) 1))).toNat).take
            (((if mp < 1 then 1 else mp) : Int) * 4).toNat) [] []))) := by
  cases md with
  | some d =>
    have hd : d = md0 := by
      simp only [resolveDepth] at hmd
      injection hmd
    subst hd
    exact find_simple_eval_some s f t mp d hif
  | none =>
    simp only [resolveDepth] at hmd
    cases hhops : shortest_path_length_hops s f t with
    | none =>
      rw [hhops] at hmd
      cases hmd
    | some hops =>
      rw [hhops] at hmd
      have hmax : max (hops + 2) hops = md0 := by injection hmd
      subst hmax
      exact find_simple_eval_none s f t mp hops hif hhops

theorem dedupCollect_first (s : GraphState) :
    ∀ (l₁ : List (List GEdge)) (ep : List GEdge) (l₂ : List (List GEdge)),
      (∀ ep' ∈ l₁, (build_path_result_from_edge_path s ep').path = []) →
      (build_path_result_from_edge_path s ep).path ≠ [] →
      dedupCollect s 1 (l₁ ++ ep :: l₂) [] [] =
        [build_path_result_from_edge_path s ep] := by
  intro l₁
  induction l₁ with
  | nil =>
    intro ep l₂ _ hfirst
    rw [List.nil_append]
    simp only [dedupCollect]
    rw [if_neg hfirst]
    rw [if_neg (by simp)]
    rw [if_pos (by omega)]
    rfl
  | cons q rest ih =>
    intro ep l₂ hskip hfirst
    rw [List.cons_append]
    simp only [dedupCollect]
    rw [if_pos (hskip q (List.mem_cons_self _ _))]
    exact ih ep l₂ (fun q' hq' => hskip q' (List.mem_cons_of_mem _ hq')) hfirst

/-- Claim C4 (amended): with `max_paths = 1`, `find_simple_path` returns
exactly one result, namely the rendering of the first depth-first
enumerated simple edge-path that renders to a non-empty node sequence —
the enumeration order, not the `(node-sequence length, total weight)`
sort rule, picks the single survivor. -/
theorem C4_theorem (s : GraphState) (f t : String) (md : Option Int) (md0 : Int)
    (hif : ¬ (f ∉ s.nodes ∨ t ∉ s.nodes))
    (hmd : resolveDepth s f t md = some md0)
    (l₁ l₂ : List (List GEdge)) (ep : List GEdge)
    (hsplit : (nx_all_simple_edge_paths s f t
        (max 1 (min md0 (max ((s.nodes.length : Int) - 1) 1))).toNat).take 4 =
      l₁ ++ ep :: l₂)
    (hskip : ∀ ep' ∈ l₁, (build_path_result_from_edge_path s ep').path = [])
    (hfirst : (build_path_result_from_edge_path s ep).path ≠ []) :
    find_simple_path s f t md 1 =
      some [build_path_result_from_edge_path s ep] := by
  rw [find_simple_eval_resolved s f t 1 md md0 hif hmd]
  rw [show ((if (1 : Int) < 1 then (1 : Int) else 1) : Int) = 1 from rfl]
  rw [show (((1 : Int) * 4)).toNat = 4 from rfl]
  rw [hsplit]
  rw [show (1 : Int).toNat = 1 from rfl]
  rw [dedupCollect_first s l₁ ep l₂ hskip hfirst]
  rw [if_neg (by simp)]
  rfl

/-- Counterexample for claim C4: in the store with routes `A -> B -> C`
(two edges) and `A -> C` (one edge), `max_paths = 1` returns the
three-node route, although the same query with a large `max_paths` shows
the sort rule ranks the two-node route `A -> C` first: the single result
is the first path in DFS enumeration order, not the smallest under the
sort rule. -/
theorem C4_counterexample :
    ((find_simple_path triState "A" "C" none 1).map
        (fun rs => rs.map (fun r => r.path)) = some [["A", "B", "C"]]) ∧
    ((find_simple_path triState "A" "C" none 100).map
        (fun rs => rs.map (fun r => r.path)) = some [["A", "C"], ["A", "B", "C"]]) ∧
    (["A", "B", "C"] ≠ ["A", "C"]) := by
  refine ⟨by rfl, by rfl, by decide⟩

/-- Witness for claim C4 (amended theorem): on the two-route store the
`max_paths = 1` result is the rendering of the first enumerated path
`A -t1-> B -t2-> C`. -/
theorem C4_witness :
    (¬ ("A" ∉ triState.nodes ∨ "C" ∉ triState.nodes) ∧
     resolveDepth triState "A" "C" none = some 3 ∧
     (nx_all_simple_edge_paths triState "A" "C"
        (max 1 (min 3 (max ((triState.nodes.length : Int) - 1) 1))).toNat).take 4 =
       [] ++ [GEdge.mk "A" "B" "t1" 1, GEdge.mk "B" "C" "t2" 1] ::
         [[GEdge.mk "A" "C" "t3" 1]] ∧
     (∀ ep' ∈ ([] : List (List GEdge)),
       (build_path_result_from_edge_path triState ep').path = []) ∧
     (build_path_result_from_edge_path triState
       [GEdge.mk "A" "B" "t1" 1, GEdge.mk "B" "C" "t2" 1]).path ≠ []) ∧
    find_simple_path triState "A" "C" none 1 =
      some [build_path_result_from_edge_path triState
        [GEdge.mk "A" "B" "t1" 1, GEdge.mk "B" "C" "t2" 1]] :=
  ⟨⟨by decide, by decide, by decide, by decide, by decide⟩,
   C4_theorem triState "A" "C" none 3 (by decide) (by decide) []
     [[GEdge.mk "A" "C" "t3" 1]] [GEdge.mk "A" "B" "t1" 1, GEdge.mk "B" "C" "t2" 1]
     (by decide) (by decide) (by decide)⟩

/-- Counterexample for claim C8: the store `emptyDescState` is built
purely through the public mutators (three `add_screen` calls and one
`add_transition` with description `""`), yet the export/import round
trip does not reproduce it — the import succeeds, but
`Transition.from_dict`'s or-chain turns the exported empty description
into null, so the reimported `t1` differs from the original in its
action fields. -/
theorem C8_counterexample :
    ((import_graph emptyDescState (export_graph emptyDescState)).2 = none) ∧
    ((alistLookup emptyDescState.transitions "t1").map
        (fun tr => tr.description) = some (some "")) ∧
    ((alistLookup (import_graph emptyDescState
        (export_graph emptyDescState)).1.transitions "t1").map
        (fun tr => tr.description) = some none) ∧
    (alistLookup (import_graph emptyDescState
        (export_graph emptyDescState)).1.transitions "t1" ≠
      alistLookup emptyDescState.transitions "t1") := by
  refine ⟨by decide, by decide, by decide, by decide⟩

end GraphViewer
